/-
  Verification of the a-puzzle-a-day solver core (src/lib.rs).

  The Rust source is shallowly embedded:
  * `u64` bitmasks become `Nat` (the code only reads bits 0..48 and never
    overflows 64 bits; all bit reads are position-bounded, so the embedding
    agrees with `u64` semantics on every reachable value);
  * `u32` date arithmetic, where the source can underflow (`month - 1`),
    is embedded with the exact wrap-around formula `(x + 2^32 - 1) % 2^32`;
  * `Vec` indexing that the source performs unchecked (and that would panic
    out of bounds) is embedded with a guarded update returning `Option` at
    the one place the index depends on caller input (the month/day holes);
  * the mutable `UnionFind`, the `&mut Vec` push/pop of the search, and the
    `&mut Vec` solutions accumulator are embedded by explicit state passing:
    each Rust method returns its updated state alongside its result;
  * Rust's `HashSet<u64>` collected into a `Vec` has unspecified iteration
    order; it is embedded as an insertion-ordered duplicate-free list, and
    theorems about the search are additionally stated for an arbitrary
    duplicate-free list with the same elements, covering every order.
-/
import Mathlib

set_option maxHeartbeats 1000000
set_option maxRecDepth 100000
set_option synthInstance.maxSize 2000
set_option synthInstance.maxHeartbeats 2000000

/-! ## Union-Find (struct `UnionFind` in the source)

`parents` is the `Vec<i32>` of the source: negative entries mark roots and
store the negated class size; nonnegative entries are parent pointers. -/

structure UnionFind where
  parents : List Int
  n : Nat
deriving Repr

/-- `UnionFind::new(n)`: every element is its own group of size one. -/
def UnionFind.new (n : Nat) : UnionFind :=
  { parents := List.replicate n (-1), n := n }

/-- The recursion of `UnionFind::find` with path compression.  The Rust
function recurses along parent pointers; in Lean the recursion is fueled.
Under the forest invariant maintained by the program, parent chains have
length at most `n`, so the fuel `n` used by `UnionFind.find` never runs out
(this is proved, not assumed, in the lemmas below). -/
def UnionFind.findAux : Nat → UnionFind → Nat → Nat × UnionFind
  | 0, uf, x => (x, uf)
  | fuel + 1, uf, x =>
    let px := uf.parents.getD x (-1)
    if px < 0 then (x, uf)
    else
      let r := UnionFind.findAux fuel uf px.toNat
      (r.1, { r.2 with parents := r.2.parents.set x (Int.ofNat r.1) })

/-- `UnionFind::find(x)`: root of `x`'s group, with path compression.
Returns the updated structure alongside the root (`&mut self` in Rust). -/
def UnionFind.find (uf : UnionFind) (x : Nat) : Nat × UnionFind :=
  UnionFind.findAux uf.n uf x

/-- `UnionFind::union(x, y)`: merge the groups of `x` and `y`,
attaching the smaller tree below the larger (union by size). -/
def UnionFind.union (uf : UnionFind) (x y : Nat) : UnionFind :=
  let fx := uf.find x
  let fy := fx.2.find y
  let root_x := fx.1
  let root_y := fy.1
  let uf2 := fy.2
  if root_x ≠ root_y then
    let rp := if uf2.parents.getD root_x (-1) > uf2.parents.getD root_y (-1)
      then (root_y, root_x) else (root_x, root_y)
    let p1 := uf2.parents.set rp.1
      (uf2.parents.getD rp.1 (-1) + uf2.parents.getD rp.2 (-1))
    { uf2 with parents := p1.set rp.2 (Int.ofNat rp.1) }
  else uf2

/-- `UnionFind::size(x)`: size of `x`'s group (negated root entry). -/
def UnionFind.size (uf : UnionFind) (x : Nat) : Int × UnionFind :=
  let f := uf.find x
  (-(f.2.parents.getD f.1 (-1)), f.2)

/-- `UnionFind::roots()`: all indices whose entry is negative. -/
def UnionFind.roots (uf : UnionFind) : List Nat :=
  (List.range uf.n).filter (fun i => uf.parents.getD i (-1) < 0)

/-! ## Piece data and shape operations -/

/-- `get_initial_pieces`: the eight base polyomino shapes. -/
def get_initial_pieces : List (List (List Nat)) :=
  [ [[1, 1], [1, 1], [1, 1]],
    [[1, 1, 0], [1, 0, 0], [1, 1, 0]],
    [[1, 0, 0], [1, 1, 0], [0, 1, 0], [0, 1, 0]],
    [[1, 0, 0], [1, 0, 0], [1, 1, 1]],
    [[1, 0, 0], [1, 1, 0], [1, 1, 0]],
    [[1, 0, 0], [1, 1, 0], [1, 0, 0], [1, 0, 0]],
    [[1, 1, 0], [1, 0, 0], [1, 0, 0], [1, 0, 0]],
    [[1, 1, 0], [0, 1, 0], [0, 1, 1]] ]

/-- In-bounds grid update `g[r][c] = v`.  (The Rust assignments this embeds
are all performed at indices inside the grid; `List.set` is the identity out
of bounds, where the source would instead panic.) -/
def setCell (g : List (List Nat)) (r c v : Nat) : List (List Nat) :=
  g.set r ((g.getD r []).set c v)

/-- `rotate_and_flip(shape, rot_type)`: flip horizontally when
`rot_type >= 4`, then rotate by `rot_type % 4` quarter turns, using the
source's reindexing formulas. -/
def rotate_and_flip (shape : List (List Nat)) (rot_type : Nat) : List (List Nat) :=
  let current_shape := if rot_type ≥ 4 then shape.map List.reverse else shape
  let k := rot_type % 4
  if k = 0 then current_shape
  else
    let h := current_shape.length
    let w := (current_shape.headD []).length
    let init : List (List Nat) :=
      if k % 2 = 1 then List.replicate w (List.replicate h 0)
      else List.replicate h (List.replicate w 0)
    (List.range h).foldl (fun rotated i =>
      (List.range w).foldl (fun rotated j =>
        let cell := (current_shape.getD i []).getD j 0
        if k = 1 then setCell rotated j (h - 1 - i) cell
        else if k = 2 then setCell rotated (h - 1 - i) (w - 1 - j) cell
        else setCell rotated (w - 1 - j) i cell) rotated) init

/-- Append `a` unless already present.  This models a `HashSet` insert that
reports freshness paired with a push onto the companion vector: the set and
the vector of the source always hold the same elements, so one
insertion-ordered duplicate-free list represents both. -/
def insertIfAbsent {α : Type} [DecidableEq α] (l : List α) (a : α) : List α :=
  if a ∈ l then l else l ++ [a]

/-- `get_unique_rotations(shape)`: the distinct values of
`rotate_and_flip shape i` for `i = 0..8`, in first-appearance order. -/
def get_unique_rotations (shape : List (List Nat)) : List (List (List Nat)) :=
  (List.range 8).foldl (fun unique_shapes i =>
    insertIfAbsent unique_shapes (rotate_and_flip shape i)) []

/-- `board_to_bitmask(board)`: set bit `i*7+j` for every cell equal to 1. -/
def board_to_bitmask (board : List (List Nat)) : Nat :=
  board.enum.foldl (fun mask ir =>
    ir.2.enum.foldl (fun mask jc =>
      if jc.2 = 1 then mask ||| (1 <<< (ir.1 * 7 + jc.1)) else mask) mask) 0

/-! ## Pruning (`judge_connected_component`) -/

/-- The loop over `uf.roots()` in `judge_connected_component`, with its early
`return false`s.  `size` is the `i32` of the source, embedded as `Int`. -/
def judgeRoots (board_mask : Nat) (is_size_6_piece_used : Bool) :
    List Nat → UnionFind → Bool
  | [], _ => true
  | root :: rest, uf =>
    if (board_mask >>> root) &&& 1 = 0 then
      let s := uf.size root
      if s.1 < 5 then false
      else if !is_size_6_piece_used then
        if s.1 % 5 ≠ 0 ∧ (s.1 < 6 ∨ (s.1 - 6) % 5 ≠ 0) then false
        else judgeRoots board_mask is_size_6_piece_used rest s.2
      else
        if s.1 % 5 ≠ 0 then false
        else judgeRoots board_mask is_size_6_piece_used rest s.2
    else judgeRoots board_mask is_size_6_piece_used rest uf

/-- The union-building loop of `judge_connected_component`: for every empty
cell, union it with its right neighbour (same row) and the cell below. -/
def buildUF (board_mask : Nat) : UnionFind :=
  (List.range 49).foldl (fun uf i =>
    if (board_mask >>> i) &&& 1 = 0 then
      let uf1 := if (i + 1) % 7 ≠ 0 ∧ (board_mask >>> (i + 1)) &&& 1 = 0
        then uf.union i (i + 1) else uf
      if i < 42 ∧ (board_mask >>> (i + 7)) &&& 1 = 0
        then uf1.union i (i + 7) else uf1
    else uf) (UnionFind.new 49)

/-- `judge_connected_component(board_mask, is_size_6_piece_used)`: `true`
when no isolated group of empty cells makes the board a dead end. -/
def judge_connected_component (board_mask : Nat) (is_size_6_piece_used : Bool) : Bool :=
  let uf := buildUF board_mask
  judgeRoots board_mask is_size_6_piece_used uf.roots uf

/-! ## Backtracking search (`find_solutions_recursive`)

The Rust function mutates `used_placements` (push before the recursive call,
pop after it) and appends to `solutions`.  The embedding threads both through
and returns them: the first component is the value of `used_placements` at
return, the second the value of `solutions`. -/

mutual

/-- `find_solutions_recursive`: at `piece_idx = 8` record the current
placement list as a solution; otherwise try every placement of the current
piece.  (The source would index `all_piece_placements` out of bounds for
`piece_idx > 8`; that branch is unreachable from `solve_for_date` and is
embedded as a no-op so that the function is total.) -/
def find_solutions_recursive (piece_idx : Nat) (current_board_mask : Nat)
    (used_placements : List Nat) (is_size_6_piece_used : Bool)
    (all_piece_placements : List (List Nat)) (size_6_piece_index : Nat)
    (solutions : List (List Nat)) : List Nat × List (List Nat) :=
  if piece_idx = 8 then (used_placements, solutions ++ [used_placements])
  else if h : piece_idx < 8 then
    tryPlacements piece_idx h (all_piece_placements.getD piece_idx [])
      current_board_mask used_placements is_size_6_piece_used
      all_piece_placements size_6_piece_index solutions
  else (used_placements, solutions)
termination_by (8 - piece_idx, 1, 0)

/-- The `for &placement_mask in &all_piece_placements[piece_idx]` loop body:
overlap test by bitwise AND, pruning check, push / recurse / pop. -/
def tryPlacements (piece_idx : Nat) (h : piece_idx < 8) (pms : List Nat)
    (current_board_mask : Nat) (used_placements : List Nat)
    (is_size_6_piece_used : Bool) (all_piece_placements : List (List Nat))
    (size_6_piece_index : Nat) (solutions : List (List Nat)) :
    List Nat × List (List Nat) :=
  match pms with
  | [] => (used_placements, solutions)
  | placement_mask :: rest =>
    if current_board_mask &&& placement_mask = 0 then
      let new_board_mask := current_board_mask ||| placement_mask
      let new_is_size_6_used :=
        is_size_6_piece_used || (piece_idx == size_6_piece_index)
      if judge_connected_component new_board_mask new_is_size_6_used then
        let rec1 := find_solutions_recursive (piece_idx + 1) new_board_mask
          (used_placements ++ [placement_mask]) new_is_size_6_used
          all_piece_placements size_6_piece_index solutions
        tryPlacements piece_idx h rest current_board_mask rec1.1.dropLast
          is_size_6_piece_used all_piece_placements size_6_piece_index rec1.2
      else
        tryPlacements piece_idx h rest current_board_mask used_placements
          is_size_6_piece_used all_piece_placements size_6_piece_index solutions
    else
      tryPlacements piece_idx h rest current_board_mask used_placements
        is_size_6_piece_used all_piece_placements size_6_piece_index solutions
termination_by (8 - piece_idx, 0, pms.length)

end

/-! A fuel-indexed copy of the search, used to express the termination bound
of claim C8: the recursion depth of `find_solutions_recursive` starting at
`piece_idx` is at most `9 - piece_idx` (one level per piece plus the
accepting level), so running the fueled copy with that much fuel computes
the same result as the unbounded function. -/

mutual

/-- `find_solutions_recursive` with an explicit recursion-depth budget;
exhausted fuel returns the state unchanged. -/
def find_solutions_recursive_fuel (fuel : Nat) (piece_idx : Nat)
    (current_board_mask : Nat) (used_placements : List Nat)
    (is_size_6_piece_used : Bool) (all_piece_placements : List (List Nat))
    (size_6_piece_index : Nat) (solutions : List (List Nat)) :
    List Nat × List (List Nat) :=
  match fuel with
  | 0 => (used_placements, solutions)
  | fuel + 1 =>
    if piece_idx = 8 then (used_placements, solutions ++ [used_placements])
    else if piece_idx < 8 then
      tryPlacementsFuel fuel piece_idx (all_piece_placements.getD piece_idx [])
        current_board_mask used_placements is_size_6_piece_used
        all_piece_placements size_6_piece_index solutions
    else (used_placements, solutions)
termination_by (fuel, 0, 0)

/-- The placement loop of the fueled copy. -/
def tryPlacementsFuel (fuel : Nat) (piece_idx : Nat) (pms : List Nat)
    (current_board_mask : Nat) (used_placements : List Nat)
    (is_size_6_piece_used : Bool) (all_piece_placements : List (List Nat))
    (size_6_piece_index : Nat) (solutions : List (List Nat)) :
    List Nat × List (List Nat) :=
  match pms with
  | [] => (used_placements, solutions)
  | placement_mask :: rest =>
    if current_board_mask &&& placement_mask = 0 then
      let new_board_mask := current_board_mask ||| placement_mask
      let new_is_size_6_used :=
        is_size_6_piece_used || (piece_idx == size_6_piece_index)
      if judge_connected_component new_board_mask new_is_size_6_used then
        let rec1 := find_solutions_recursive_fuel fuel (piece_idx + 1)
          new_board_mask (used_placements ++ [placement_mask]) new_is_size_6_used
          all_piece_placements size_6_piece_index solutions
        tryPlacementsFuel fuel piece_idx rest current_board_mask rec1.1.dropLast
          is_size_6_piece_used all_piece_placements size_6_piece_index rec1.2
      else
        tryPlacementsFuel fuel piece_idx rest current_board_mask used_placements
          is_size_6_piece_used all_piece_placements size_6_piece_index solutions
    else
      tryPlacementsFuel fuel piece_idx rest current_board_mask used_placements
        is_size_6_piece_used all_piece_placements size_6_piece_index solutions
termination_by (fuel, 1, pms.length)

end

/-! ## Placement enumeration (precomputation phase of `solve_for_date`) -/

/-- `piece_sizes`: cell count of each base piece. -/
def piece_sizes : List Nat :=
  get_initial_pieces.map (fun p => (p.map (fun r => r.sum)).sum)

/-- `size_6_piece_index`: index of the (unique) six-cell piece. -/
def size_6_piece_index : Nat := piece_sizes.findIdx (fun s => s == 6)

/-- The inner body of the placement loop: a 7x7 board with `shape` stamped
at offset `(r, c)`, paired with the source's `is_valid` flag (which an
occupied cell falling outside the board clears). -/
def stamp_board (shape : List (List Nat)) (r c : Nat) : List (List Nat) × Bool :=
  shape.enum.foldl (fun bv irow =>
    irow.2.enum.foldl (fun bv jcell =>
      if 7 ≤ r + irow.1 ∨ 7 ≤ c + jcell.1 then
        (bv.1, bv.2 && !(jcell.2 == 1))
      else if jcell.2 = 1 then (setCell bv.1 (r + irow.1) (c + jcell.1) 1, bv.2)
      else bv) bv)
    (List.replicate 7 (List.replicate 7 0), true)

/-- The per-piece placement enumeration of `solve_for_date`: for every
distinct orientation and every offset `(r, c)` with `r < 8 - h`,
`c < 8 - w`, stamp the shape and collect the bitmask into a set.  The
`HashSet` is embedded as an insertion-ordered duplicate-free list. -/
def piece_placements (p_shape : List (List Nat)) : List Nat :=
  (get_unique_rotations p_shape).foldl (fun placements shape =>
    let h := shape.length
    let w := (shape.headD []).length
    (List.range (8 - h)).foldl (fun placements r =>
      (List.range (8 - w)).foldl (fun placements c =>
        let bv := stamp_board shape r c
        if bv.2 then insertIfAbsent placements (board_to_bitmask bv.1)
        else placements) placements) placements) []

/-- `all_piece_placements`: one placement list per piece. -/
def all_piece_placements : List (List Nat) :=
  get_initial_pieces.map piece_placements

/-! ## Date holes and the initial board (`solve_for_date`, setup phase)

`month` and `day` are `u32` in the source, so `month - 1` and `day - 1`
wrap modulo `2^32`; the embedding keeps that wrap-around exactly.  The two
writes `initial_board[month_r][month_c] = 1` and
`initial_board[day_r][day_c] = 1` are the only indexing operations whose
indices depend on caller input; they are embedded with a guarded update
that returns `none` where the source would panic out of bounds. -/

/-- `(month - 1) / 6` with `u32` wrap-around of the subtraction. -/
def month_row (month : Nat) : Nat := ((month + (2 ^ 32 - 1)) % 2 ^ 32) / 6

/-- `(month - 1) % 6` with `u32` wrap-around of the subtraction. -/
def month_col (month : Nat) : Nat := ((month + (2 ^ 32 - 1)) % 2 ^ 32) % 6

/-- `(day - 1) / 7 + 2` with `u32` wrap-around. -/
def day_row (day : Nat) : Nat :=
  (((day + (2 ^ 32 - 1)) % 2 ^ 32) / 7 + 2) % 2 ^ 32

/-- `(day - 1) % 7` with `u32` wrap-around of the subtraction. -/
def day_col (day : Nat) : Nat := ((day + (2 ^ 32 - 1)) % 2 ^ 32) % 7

/-- Guarded grid update: `some` of the updated grid when `(r, c)` is inside
it, `none` where the source's `initial_board[r][c] = 1` would panic. -/
def setCellChecked (g : List (List Nat)) (r c v : Nat) :
    Option (List (List Nat)) :=
  if r < g.length ∧ c < (g.getD r []).length then some (setCell g r c v)
  else none

/-- The empty 7x7 board with the six fixed holes marked
(`initial_board[0][6]` ... `initial_board[6][6]` in the source). -/
def initial_board_static : List (List Nat) :=
  setCell (setCell (setCell (setCell (setCell (setCell
    (List.replicate 7 (List.replicate 7 0))
    0 6 1) 1 6 1) 6 3 1) 6 4 1) 6 5 1) 6 6 1

/-- The initial board of `solve_for_date`: static holes plus the month and
day holes, `none` when a date hole falls outside the 7x7 grid. -/
def initial_board (month day : Nat) : Option (List (List Nat)) :=
  (setCellChecked initial_board_static (month_row month) (month_col month) 1).bind
    (fun b => setCellChecked b (day_row day) (day_col day) 1)

/-- `initial_board_mask`: bitmask of the initial board. -/
def initial_board_mask (month day : Nat) : Option Nat :=
  (initial_board month day).map board_to_bitmask

/-! ## Rendering and the composed solver -/

/-- In-bounds update of a rendered (integer-valued) board. -/
def setCellI (g : List (List Int)) (r c : Nat) (v : Int) : List (List Int) :=
  g.set r ((g.getD r []).set c v)

/-- The result-conversion step of `solve_for_date`: write each piece's
1-based index at every cell its mask covers, then mark the two date holes
with `-1`. -/
def render_board (month day : Nat) (masks : List Nat) : List (List Int) :=
  let board := masks.enum.foldl (fun board pm =>
    (List.range 49).foldl (fun board i =>
      if (pm.2 >>> i) &&& 1 = 1 then
        setCellI board (i / 7) (i % 7) ((pm.1 : Int) + 1)
      else board) board)
    (List.replicate 7 (List.replicate 7 0))
  setCellI (setCellI board (month_row month) (month_col month) (-1))
    (day_row day) (day_col day) (-1)

/-- `solve_for_date(month, day)` composed from the phases above, with the
placement table a parameter so that results can be stated for every
iteration order of the source's `HashSet`.  `none` corresponds to the panic
on an out-of-range date hole; otherwise the returned list is the rendered
form of every raw solution found by the search. -/
def solve_for_date (month day : Nat) (placements : List (List Nat)) :
    Option (List (List (List Int))) :=
  (initial_board_mask month day).map (fun m0 =>
    ((find_solutions_recursive 0 m0 [] false placements
        size_6_piece_index []).2).map (render_board month day))

/-! ## Specification-side definitions -/

/-- Number of board bits set in a mask (all masks of the program live in
bits `0..48`). -/
def countBits (m : Nat) : Nat :=
  (List.range 49).countP (fun i => m.testBit i)

/-- Side condition tying a placement table to the one the source computes:
same length, duplicate-free rows, and row-wise the same set of masks as the
canonical `all_piece_placements`.  Every iteration order of the source's
`HashSet<u64>` yields a table satisfying this. -/
def PlacementsOK (alls : List (List Nat)) : Prop :=
  alls.length = 8 ∧ ∀ k < 8, (alls.getD k []).Nodup ∧
    ∀ m : Nat, m ∈ alls.getD k [] ↔ m ∈ all_piece_placements.getD k []

/-- One legal extension of a partial search state into a full solution:
`SearchExt alls sixIdx piece_idx mask six ms` says that the search at state
`(piece_idx, mask, six)` can place exactly the masks `ms` for the remaining
pieces, each taken from its placement list, disjoint from the board so far,
and passing the pruning check.  Membership in the search output is later
proved equivalent to this predicate. -/
inductive SearchExt (alls : List (List Nat)) (sixIdx : Nat) :
    Nat → Nat → Bool → List Nat → Prop
  | done (mask : Nat) (six : Bool) : SearchExt alls sixIdx 8 mask six []
  | place (piece_idx mask : Nat) (six : Bool) (m : Nat) (ms : List Nat) :
      piece_idx < 8 → m ∈ alls.getD piece_idx [] → mask &&& m = 0 →
      judge_connected_component (mask ||| m) (six || (piece_idx == sixIdx)) = true →
      SearchExt alls sixIdx (piece_idx + 1) (mask ||| m)
        (six || (piece_idx == sixIdx)) ms →
      SearchExt alls sixIdx piece_idx mask six (m :: ms)

/-! ## Generic lemmas about the insertion-fold pattern -/

theorem mem_insertIfAbsent {α : Type} [DecidableEq α] (l : List α) (b a : α) :
    a ∈ insertIfAbsent l b ↔ a ∈ l ∨ a = b := by
  unfold insertIfAbsent
  split
  · rename_i hb
    constructor
    · exact fun h => Or.inl h
    · rintro (h | rfl) <;> assumption
  · simp

theorem nodup_insertIfAbsent {α : Type} [DecidableEq α] (l : List α) (b : α)
    (h : l.Nodup) : (insertIfAbsent l b).Nodup := by
  unfold insertIfAbsent
  split
  · exact h
  · simpa [List.Nodup, List.pairwise_append] using
      ⟨h, by intro a ha rfl; simp_all⟩

theorem length_insertIfAbsent {α : Type} [DecidableEq α] (l : List α) (b : α) :
    (insertIfAbsent l b).length ≤ l.length + 1 := by
  unfold insertIfAbsent; split <;> simp

theorem mem_foldl_step {α β : Type} (step : List α → β → List α)
    (Q : β → α → Prop)
    (hstep : ∀ acc b a, a ∈ step acc b ↔ a ∈ acc ∨ Q b a) :
    ∀ (l : List β) (init : List α) (a : α),
      a ∈ l.foldl step init ↔ a ∈ init ∨ ∃ b ∈ l, Q b a := by
  intro l
  induction l with
  | nil => simp
  | cons b rest ih =>
    intro init a
    simp only [List.foldl_cons, ih, hstep, List.mem_cons]
    constructor
    · rintro ((h | h) | ⟨b', hb', h⟩)
      · exact Or.inl h
      · exact Or.inr ⟨b, Or.inl rfl, h⟩
      · exact Or.inr ⟨b', Or.inr hb', h⟩
    · rintro (h | ⟨b', (rfl | hb'), h⟩)
      · exact Or.inl (Or.inl h)
      · exact Or.inl (Or.inr h)
      · exact Or.inr ⟨b', hb', h⟩

theorem nodup_foldl_step {α β : Type} (step : List α → β → List α)
    (hstep : ∀ acc b, acc.Nodup → (step acc b).Nodup) :
    ∀ (l : List β) (init : List α), init.Nodup → (l.foldl step init).Nodup := by
  intro l
  induction l with
  | nil => intro init h; simpa using h
  | cons b rest ih => intro init h; exact ih _ (hstep _ _ h)

theorem length_foldl_step {α β : Type} (step : List α → β → List α)
    (hstep : ∀ acc b, (step acc b).length ≤ acc.length + 1) :
    ∀ (l : List β) (init : List α),
      (l.foldl step init).length ≤ init.length + l.length := by
  intro l
  induction l with
  | nil => simp
  | cons b rest ih =>
    intro init
    calc (List.foldl step init (b :: rest)).length
        ≤ (step init b).length + rest.length := ih _
      _ ≤ init.length + 1 + rest.length := by
          exact Nat.add_le_add_right (hstep _ _) _
      _ = init.length + (b :: rest).length := by simp; omega

/-! ## Claim C6: the orientation generator -/

theorem mem_get_unique_rotations (shape : List (List Nat))
    (s : List (List Nat)) :
    s ∈ get_unique_rotations shape ↔ ∃ i < 8, s = rotate_and_flip shape i := by
  unfold get_unique_rotations
  rw [mem_foldl_step _ (fun i s => s = rotate_and_flip shape i)
    (fun acc b a => mem_insertIfAbsent acc (rotate_and_flip shape b) a)]
  simp [List.mem_range]

theorem nodup_get_unique_rotations (shape : List (List Nat)) :
    (get_unique_rotations shape).Nodup :=
  nodup_foldl_step _ (fun acc _ => nodup_insertIfAbsent acc _) _ _ List.nodup_nil

/-- Claim C6: for every base shape, `get_unique_rotations` returns between 1
and 8 pairwise-distinct shapes; each is `rotate_and_flip shape i` for some
`i < 8`, and every value of `rotate_and_flip shape i` over `i < 8` occurs
(exactly once, by distinctness). -/
theorem get_unique_rotations_spec (shape : List (List Nat)) :
    (get_unique_rotations shape).Nodup ∧
    1 ≤ (get_unique_rotations shape).length ∧
    (get_unique_rotations shape).length ≤ 8 ∧
    (∀ s ∈ get_unique_rotations shape, ∃ i < 8, s = rotate_and_flip shape i) ∧
    (∀ i < 8, rotate_and_flip shape i ∈ get_unique_rotations shape) := by
  refine ⟨nodup_get_unique_rotations shape, ?_, ?_, ?_, ?_⟩
  · have h0 : rotate_and_flip shape 0 ∈ get_unique_rotations shape :=
      (mem_get_unique_rotations shape _).2 ⟨0, by omega, rfl⟩
    exact List.length_pos.2 (List.ne_nil_of_mem h0)
  · have := length_foldl_step
      (fun acc i => insertIfAbsent acc (rotate_and_flip shape i))
      (fun acc b => length_insertIfAbsent acc _) (List.range 8) []
    simpa [get_unique_rotations] using this
  · exact fun s hs => (mem_get_unique_rotations shape s).1 hs
  · exact fun i hi => (mem_get_unique_rotations shape _).2 ⟨i, hi, rfl⟩

/-! ## Structure of the backtracking search

The lemmas below are proved by induction on the remaining depth
`8 - piece_idx` (the outer recursion) with an inner induction on the
placement list (the loop). -/

theorem tryPlacements_fst (piece_idx : Nat) (h : piece_idx < 8)
    (alls : List (List Nat)) (sixIdx : Nat)
    (IH : ∀ mask used six sols,
      (find_solutions_recursive (piece_idx + 1) mask used six alls sixIdx sols).1 = used) :
    ∀ (pms : List Nat) (mask : Nat) (used : List Nat) (six : Bool)
      (sols : List (List Nat)),
      (tryPlacements piece_idx h pms mask used six alls sixIdx sols).1 = used := by
  intro pms
  induction pms with
  | nil => intro mask used six sols; rw [tryPlacements.eq_1]
  | cons m rest ih =>
    intro mask used six sols
    rw [tryPlacements.eq_2]
    dsimp only
    split
    · split
      · rw [IH]
        simpa using ih _ _ _ _
      · exact ih _ _ _ _
    · exact ih _ _ _ _

theorem find_solutions_fst_aux (d : Nat) :
    ∀ (piece_idx : Nat), 8 ≤ piece_idx + d →
    ∀ (mask : Nat) (used : List Nat) (six : Bool) (alls : List (List Nat))
      (sixIdx : Nat) (sols : List (List Nat)),
      (find_solutions_recursive piece_idx mask used six alls sixIdx sols).1 = used := by
  induction d with
  | zero =>
    intro piece_idx hpi mask used six alls sixIdx sols
    rw [find_solutions_recursive.eq_def]
    have : ¬ piece_idx < 8 := by omega
    split
    · rfl
    · simp [this]
  | succ d ih =>
    intro piece_idx hpi mask used six alls sixIdx sols
    rw [find_solutions_recursive.eq_def]
    split
    · rfl
    · split
      · exact tryPlacements_fst piece_idx (by assumption) alls sixIdx
          (fun mask used six sols => ih (piece_idx + 1) (by omega) mask used six alls sixIdx sols)
          _ _ _ _ _
      · rfl

/-- The `used_placements` vector is restored on return: every push of a
candidate is matched by a pop. -/
theorem find_solutions_fst (piece_idx : Nat) (mask : Nat) (used : List Nat)
    (six : Bool) (alls : List (List Nat)) (sixIdx : Nat)
    (sols : List (List Nat)) :
    (find_solutions_recursive piece_idx mask used six alls sixIdx sols).1 = used :=
  find_solutions_fst_aux 8 piece_idx (by omega) mask used six alls sixIdx sols

theorem tryPlacements_snd (piece_idx : Nat) (h : piece_idx < 8)
    (alls : List (List Nat)) (sixIdx : Nat)
    (IH : ∀ mask used six sols,
      (find_solutions_recursive (piece_idx + 1) mask used six alls sixIdx sols).2 =
      sols ++ (find_solutions_recursive (piece_idx + 1) mask used six alls sixIdx []).2) :
    ∀ (pms : List Nat) (mask : Nat) (used : List Nat) (six : Bool)
      (sols : List (List Nat)),
      (tryPlacements piece_idx h pms mask used six alls sixIdx sols).2 =
      sols ++ (tryPlacements piece_idx h pms mask used six alls sixIdx []).2 := by
  intro pms
  induction pms with
  | nil => intro mask used six sols; simp [tryPlacements.eq_1]
  | cons m rest ih =>
    intro mask used six sols
    rw [tryPlacements.eq_2, tryPlacements.eq_2]
    dsimp only
    split
    · split
      · rw [find_solutions_fst, find_solutions_fst, IH]
        rw [ih _ _ _ (sols ++ _), ih _ _ _ ((find_solutions_recursive _ _ _ _ _ _ []).2)]
        simp
      · exact ih _ _ _ _
    · exact ih _ _ _ _

theorem find_solutions_snd_aux (d : Nat) :
    ∀ (piece_idx : Nat), 8 ≤ piece_idx + d →
    ∀ (mask : Nat) (used : List Nat) (six : Bool) (alls : List (List Nat))
      (sixIdx : Nat) (sols : List (List Nat)),
      (find_solutions_recursive piece_idx mask used six alls sixIdx sols).2 =
      sols ++ (find_solutions_recursive piece_idx mask used six alls sixIdx []).2 := by
  induction d with
  | zero =>
    intro piece_idx hpi mask used six alls sixIdx sols
    rw [find_solutions_recursive.eq_def, find_solutions_recursive.eq_def]
    have : ¬ piece_idx < 8 := by omega
    split
    · simp
    · simp [this]
  | succ d ih =>
    intro piece_idx hpi mask used six alls sixIdx sols
    rw [find_solutions_recursive.eq_def, find_solutions_recursive.eq_def]
    split
    · simp
    · split
      · exact tryPlacements_snd piece_idx (by assumption) alls sixIdx
          (fun mask used six sols => ih (piece_idx + 1) (by omega) mask used six alls sixIdx sols)
          _ _ _ _ _
      · simp

/-- The `solutions` vector is append-only: the entries present before a call
are unchanged, and the new entries do not depend on the old ones. -/
theorem find_solutions_snd (piece_idx : Nat) (mask : Nat) (used : List Nat)
    (six : Bool) (alls : List (List Nat)) (sixIdx : Nat)
    (sols : List (List Nat)) :
    (find_solutions_recursive piece_idx mask used six alls sixIdx sols).2 =
    sols ++ (find_solutions_recursive piece_idx mask used six alls sixIdx []).2 :=
  find_solutions_snd_aux 8 piece_idx (by omega) mask used six alls sixIdx sols

/-- Claim C7: across every call to `find_solutions_recursive`, the
`used_placements` vector returns to its entry value (each push is matched by
a pop on every exit path), and the `solutions` vector is append-only. -/
theorem find_solutions_recursive_frame (piece_idx : Nat) (mask : Nat)
    (used : List Nat) (six : Bool) (alls : List (List Nat)) (sixIdx : Nat)
    (sols : List (List Nat)) :
    (find_solutions_recursive piece_idx mask used six alls sixIdx sols).1 = used ∧
    ∃ t, (find_solutions_recursive piece_idx mask used six alls sixIdx sols).2 =
      sols ++ t :=
  ⟨find_solutions_fst piece_idx mask used six alls sixIdx sols,
   ⟨_, find_solutions_snd piece_idx mask used six alls sixIdx sols⟩⟩

/-! ## The fueled search agrees with the search (depth bound) -/

theorem tryPlacementsFuel_eq (fuel piece_idx : Nat) (h : piece_idx < 8)
    (alls : List (List Nat)) (sixIdx : Nat)
    (IH : ∀ mask used six sols,
      find_solutions_recursive_fuel fuel (piece_idx + 1) mask used six alls sixIdx sols =
      find_solutions_recursive (piece_idx + 1) mask used six alls sixIdx sols) :
    ∀ (pms : List Nat) (mask : Nat) (used : List Nat) (six : Bool)
      (sols : List (List Nat)),
      tryPlacementsFuel fuel piece_idx pms mask used six alls sixIdx sols =
      tryPlacements piece_idx h pms mask used six alls sixIdx sols := by
  intro pms
  induction pms with
  | nil => intro mask used six sols; rw [tryPlacementsFuel.eq_1, tryPlacements.eq_1]
  | cons m rest ih =>
    intro mask used six sols
    rw [tryPlacementsFuel.eq_2, tryPlacements.eq_2]
    dsimp only
    split
    · split
      · rw [IH, ih]
      · exact ih _ _ _ _
    · exact ih _ _ _ _

/-- Fuel `9 - piece_idx` suffices: the recursion depth of the search is
bounded by one level per remaining piece plus the accepting level. -/
theorem find_solutions_fuel_eq :
    ∀ (fuel piece_idx : Nat), 8 < piece_idx + fuel →
    ∀ (mask : Nat) (used : List Nat) (six : Bool) (alls : List (List Nat))
      (sixIdx : Nat) (sols : List (List Nat)),
      find_solutions_recursive_fuel fuel piece_idx mask used six alls sixIdx sols =
      find_solutions_recursive piece_idx mask used six alls sixIdx sols := by
  intro fuel
  induction fuel with
  | zero =>
    intro piece_idx hpi mask used six alls sixIdx sols
    rw [find_solutions_recursive_fuel.eq_1, find_solutions_recursive.eq_def]
    have h8 : ¬ piece_idx = 8 := by omega
    have hlt : ¬ piece_idx < 8 := by omega
    simp [h8, hlt]
  | succ fuel ih =>
    intro piece_idx hpi mask used six alls sixIdx sols
    rw [find_solutions_recursive_fuel.eq_2, find_solutions_recursive.eq_def]
    split
    · rfl
    · split
      · rename_i hne hlt
        exact tryPlacementsFuel_eq fuel piece_idx hlt alls sixIdx
          (fun mask used six sols => ih (piece_idx + 1) (by omega) mask used six alls sixIdx sols)
          _ _ _ _ _
      · rename_i hne hlt
        rfl

/-! ## Characterization of the search output -/

theorem mem_tryPlacements_iff (piece_idx : Nat) (h : piece_idx < 8)
    (alls : List (List Nat)) (sixIdx : Nat)
    (IHmem : ∀ mask used six (sol : List Nat),
      sol ∈ (find_solutions_recursive (piece_idx + 1) mask used six alls sixIdx []).2 ↔
      ∃ ms, sol = used ++ ms ∧
        SearchExt alls sixIdx (piece_idx + 1) mask six ms) :
    ∀ (pms : List Nat) (mask : Nat) (used : List Nat) (six : Bool)
      (sols : List (List Nat)) (sol : List Nat),
      sol ∈ (tryPlacements piece_idx h pms mask used six alls sixIdx sols).2 ↔
      sol ∈ sols ∨ ∃ m ∈ pms, mask &&& m = 0 ∧
        judge_connected_component (mask ||| m) (six || (piece_idx == sixIdx)) = true ∧
        ∃ ms, sol = used ++ m :: ms ∧
          SearchExt alls sixIdx (piece_idx + 1) (mask ||| m)
            (six || (piece_idx == sixIdx)) ms := by
  intro pms
  induction pms with
  | nil => intro mask used six sols sol; simp [tryPlacements.eq_1]
  | cons m rest ih =>
    intro mask used six sols sol
    rw [tryPlacements.eq_2]
    dsimp only
    split
    · rename_i hdisj
      split
      · rename_i hjudge
        rw [show (find_solutions_recursive (piece_idx + 1) (mask ||| m)
              (used ++ [m]) (six || (piece_idx == sixIdx)) alls sixIdx sols).1.dropLast = used by
            rw [find_solutions_fst]; exact List.dropLast_concat ..]
        rw [show (find_solutions_recursive (piece_idx + 1) (mask ||| m)
              (used ++ [m]) (six || (piece_idx == sixIdx)) alls sixIdx sols).2 =
            sols ++ (find_solutions_recursive (piece_idx + 1) (mask ||| m)
              (used ++ [m]) (six || (piece_idx == sixIdx)) alls sixIdx []).2 from
            find_solutions_snd ..]
        rw [ih]
        simp only [List.mem_append, List.mem_cons]
        constructor
        · rintro ((hs | hT) | ⟨m', hm', hrest⟩)
          · exact Or.inl hs
          · obtain ⟨ms, hsol, hext⟩ := (IHmem _ _ _ _).1 hT
            exact Or.inr ⟨m, Or.inl rfl, hdisj, hjudge, ms, by simpa using hsol, hext⟩
          · exact Or.inr ⟨m', Or.inr hm', hrest⟩
        · rintro (hs | ⟨m', (rfl | hm'), hd, hj, ms, hsol, hext⟩)
          · exact Or.inl (Or.inl hs)
          · exact Or.inl (Or.inr ((IHmem _ _ _ _).2 ⟨ms, by simpa using hsol, hext⟩))
          · exact Or.inr ⟨m', hm', hd, hj, ms, hsol, hext⟩
      · rename_i hjudge
        rw [ih]
        simp only [List.mem_cons]
        constructor
        · rintro (hs | ⟨m', hm', hrest⟩)
          · exact Or.inl hs
          · exact Or.inr ⟨m', Or.inr hm', hrest⟩
        · rintro (hs | ⟨m', (rfl | hm'), hd, hj, hrest⟩)
          · exact Or.inl hs
          · exact absurd hj hjudge
          · exact Or.inr ⟨m', hm', hd, hj, hrest⟩
    · rename_i hdisj
      rw [ih]
      simp only [List.mem_cons]
      constructor
      · rintro (hs | ⟨m', hm', hrest⟩)
        · exact Or.inl hs
        · exact Or.inr ⟨m', Or.inr hm', hrest⟩
      · rintro (hs | ⟨m', (rfl | hm'), hd, hj, hrest⟩)
        · exact Or.inl hs
        · exact absurd hd hdisj
        · exact Or.inr ⟨m', hm', hd, hj, hrest⟩

theorem mem_find_solutions_iff_aux (d : Nat) :
    ∀ (piece_idx : Nat), 8 ≤ piece_idx + d →
    ∀ (mask : Nat) (used : List Nat) (six : Bool) (alls : List (List Nat))
      (sixIdx : Nat) (sol : List Nat),
      sol ∈ (find_solutions_recursive piece_idx mask used six alls sixIdx []).2 ↔
      ∃ ms, sol = used ++ ms ∧ SearchExt alls sixIdx piece_idx mask six ms := by
  induction d with
  | zero =>
    intro piece_idx hpi mask used six alls sixIdx sol
    rw [find_solutions_recursive.eq_def]
    have hlt : ¬ piece_idx < 8 := by omega
    split
    · rename_i h8
      subst h8
      simp only [List.nil_append, List.mem_singleton]
      constructor
      · rintro rfl; exact ⟨[], by simp, SearchExt.done mask six⟩
      · rintro ⟨ms, rfl, hext⟩
        cases hext with
        | done => simp
        | place => omega
    · simp only [dif_neg hlt, List.not_mem_nil, false_iff, not_exists]
      rintro ms ⟨rfl, hext⟩
      cases hext with
      | done => omega
      | place => rename_i h1 _ _ _ _; omega
  | succ d ih =>
    intro piece_idx hpi mask used six alls sixIdx sol
    rw [find_solutions_recursive.eq_def]
    split
    · rename_i h8
      subst h8
      simp only [List.nil_append, List.mem_singleton]
      constructor
      · rintro rfl; exact ⟨[], by simp, SearchExt.done mask six⟩
      · rintro ⟨ms, rfl, hext⟩
        cases hext with
        | done => simp
        | place => omega
    · split
      · rename_i h8 hlt
        rw [mem_tryPlacements_iff piece_idx hlt alls sixIdx
          (fun mask used six sol => ih (piece_idx + 1) (by omega) mask used six alls sixIdx sol)]
        simp only [List.not_mem_nil, false_or]
        constructor
        · rintro ⟨m, hm, hd, hj, ms, hsol, hext⟩
          exact ⟨m :: ms, hsol, SearchExt.place piece_idx mask six m ms hlt hm hd hj hext⟩
        · rintro ⟨ms, rfl, hext⟩
          cases hext with
          | done => omega
          | place _ _ _ m ms' h1 h2 h3 h4 h5 =>
            exact ⟨m, h2, h3, h4, ms', rfl, h5⟩
      · rename_i h8 hlt
        simp only [List.not_mem_nil, false_iff, not_exists]
        rintro ms ⟨rfl, hext⟩
        cases hext with
        | done => omega
        | place => rename_i h1 _ _ _ _; omega

/-- Membership in the search output is equivalent to being a legal
extension (`SearchExt`) of the starting state. -/
theorem mem_find_solutions_iff (piece_idx : Nat) (mask : Nat) (used : List Nat)
    (six : Bool) (alls : List (List Nat)) (sixIdx : Nat) (sol : List Nat) :
    sol ∈ (find_solutions_recursive piece_idx mask used six alls sixIdx []).2 ↔
    ∃ ms, sol = used ++ ms ∧ SearchExt alls sixIdx piece_idx mask six ms :=
  mem_find_solutions_iff_aux 8 piece_idx (by omega) mask used six alls sixIdx sol

/-! ## Counting board bits -/

theorem countP_or_disjoint (l : List Nat) (p q : Nat → Bool)
    (h : ∀ t ∈ l, ¬(p t = true ∧ q t = true)) :
    l.countP (fun t => p t || q t) = l.countP p + l.countP q := by
  induction l with
  | nil => simp
  | cons a l ih =>
    rw [List.countP_cons, List.countP_cons, List.countP_cons,
      ih (fun t ht => h t (List.mem_cons_of_mem a ht))]
    have ha := h a (List.mem_cons_self a l)
    cases hp : p a <;> cases hq : q a <;> simp_all <;> omega

theorem countP_decide_eq (p : Nat) :
    ∀ (l : List Nat), l.Nodup → p ∈ l →
      l.countP (fun t => decide (p = t)) = 1 := by
  intro l
  induction l with
  | nil => intro _ h; cases h
  | cons a l ih =>
    intro hnd hp
    rw [List.countP_cons]
    rcases List.mem_cons.1 hp with rfl | hmem
    · have h0 : l.countP (fun t => decide (p = t)) = 0 :=
        List.countP_eq_zero.2 (fun t ht => by
          simp only [decide_eq_true_eq]
          rintro rfl; exact (List.nodup_cons.1 hnd).1 ht)
      simp [h0]
    · have hne : p ≠ a := by rintro rfl; exact (List.nodup_cons.1 hnd).1 hmem
      rw [ih (List.nodup_cons.1 hnd).2 hmem]
      simp [hne]

/-- Adding one fresh board bit increments the count. -/
theorem countBits_or_single (m p : Nat) (hp : p < 49)
    (hm : m.testBit p = false) :
    countBits (m ||| 1 <<< p) = countBits m + 1 := by
  unfold countBits
  rw [List.countP_congr (q := fun t => m.testBit t || decide (p = t))
    (fun t _ => by rw [Nat.testBit_lor, Nat.one_shiftLeft, Nat.testBit_two_pow])]
  rw [countP_or_disjoint _ _ _ (fun t _ => by
      rintro ⟨h1, h2⟩
      rw [decide_eq_true_eq] at h2
      subst h2; rw [hm] at h1; cases h1)]
  rw [countP_decide_eq p _ (List.nodup_range 49) (List.mem_range.2 hp)]

theorem countBits_or_disjoint (a b : Nat) (h : a &&& b = 0) :
    countBits (a ||| b) = countBits a + countBits b := by
  unfold countBits
  rw [List.countP_congr (q := fun t => a.testBit t || b.testBit t)
    (fun t _ => by rw [Nat.testBit_lor])]
  exact countP_or_disjoint _ _ _ (fun t _ => by
    rintro ⟨h1, h2⟩
    have h3 := Nat.testBit_land a b t
    rw [h, h1, h2, Nat.zero_testBit] at h3
    simp at h3)

/-- A 49-bit mask with 49 set board bits is the full board. -/
theorem countBits_full (m : Nat) (hm : m < 2 ^ 49) (hc : countBits m = 49) :
    m = 2 ^ 49 - 1 := by
  have hall : ∀ t ∈ List.range 49, m.testBit t = true := by
    have := List.countP_eq_length (p := fun t => m.testBit t)
      (l := List.range 49)
    unfold countBits at hc
    rw [List.length_range] at this
    exact fun t ht => this.1 hc t ht
  apply Nat.eq_of_testBit_eq
  intro i
  by_cases hi : i < 49
  · rw [hall i (List.mem_range.2 hi), Nat.testBit_two_pow_sub_one]
    simp [hi]
  · rw [Nat.testBit_lt_two_pow
      (lt_of_lt_of_le hm (Nat.pow_le_pow_right (by omega) (by omega))),
      Nat.testBit_two_pow_sub_one]
    simp [hi]

/-! ## Characterization of `board_to_bitmask` -/

theorem btb_row_testBit (row : List Nat) :
    ∀ (j0 i0 mask t : Nat),
      ((row.enumFrom j0).foldl (fun mask jc =>
        if jc.2 = 1 then mask ||| (1 <<< (i0 * 7 + jc.1)) else mask) mask).testBit t
      = (mask.testBit t ||
        (row.enumFrom j0).any (fun jc => jc.2 == 1 && i0 * 7 + jc.1 == t)) := by
  induction row with
  | nil => intro j0 i0 mask t; simp
  | cons x rest ih =>
    intro j0 i0 mask t
    rw [List.enumFrom_cons]
    simp only [List.foldl_cons, List.any_cons]
    rw [ih]
    by_cases hx : x = 1
    · subst hx
      rw [if_pos rfl, Nat.testBit_lor, Nat.one_shiftLeft, Nat.testBit_two_pow]
      by_cases ht2 : i0 * 7 + j0 = t
      · simp [ht2]
      · have hb2 : (i0 * 7 + j0 == t) = false := by simp [ht2]
        simp [ht2, hb2]
    · have hb : (x == 1) = false := by simp [hx]
      rw [if_neg hx, hb]
      simp

theorem btb_testBit_aux (board : List (List Nat)) :
    ∀ (i0 mask t : Nat),
      ((board.enumFrom i0).foldl (fun mask ir =>
        ir.2.enum.foldl (fun mask jc =>
          if jc.2 = 1 then mask ||| (1 <<< (ir.1 * 7 + jc.1)) else mask) mask)
        mask).testBit t
      = (mask.testBit t || (board.enumFrom i0).any (fun ir =>
          ir.2.enum.any (fun jc => jc.2 == 1 && ir.1 * 7 + jc.1 == t))) := by
  induction board with
  | nil => intro i0 mask t; simp
  | cons row rest ih =>
    intro i0 mask t
    rw [List.enumFrom_cons]
    simp only [List.foldl_cons, List.any_cons]
    rw [ih, show row.enum = row.enumFrom 0 from rfl, btb_row_testBit]
    simp [Bool.or_assoc]

theorem btb_testBit (board : List (List Nat)) (t : Nat) :
    (board_to_bitmask board).testBit t =
    board.enum.any (fun ir =>
      ir.2.enum.any (fun jc => jc.2 == 1 && ir.1 * 7 + jc.1 == t)) := by
  unfold board_to_bitmask
  rw [show board.enum = board.enumFrom 0 from rfl, btb_testBit_aux]
  simp [Nat.zero_testBit]

theorem getD_eq_getElem {α : Type} (l : List α) (i : Nat) (d : α)
    (h : i < l.length) : l.getD i d = l[i] := by
  simp [List.getD_eq_getElem?_getD, List.getElem?_eq_getElem h]

theorem getD_set_eq {α : Type} (l : List α) (i : Nat) (x d : α)
    (h : i < l.length) : (l.set i x).getD i d = x := by
  simp [List.getD_eq_getElem?_getD, List.getElem?_set_self h]

theorem getD_set_ne {α : Type} (l : List α) (i j : Nat) (x d : α)
    (h : i ≠ j) : (l.set i x).getD j d = l.getD j d := by
  simp [List.getD_eq_getElem?_getD, List.getElem?_set_ne h]

/-- Bitmasks of boards that fit the 7x7 grid use only bits `0..48`. -/
theorem btb_lt (g : List (List Nat)) (hg : g.length ≤ 7)
    (hrow : ∀ row ∈ g, row.length ≤ 7) :
    board_to_bitmask g < 2 ^ 49 := by
  apply Nat.lt_pow_two_of_testBit
  intro i hi
  rw [btb_testBit]
  rw [List.any_eq_false]
  rintro ⟨a, row⟩ hmem hcontra
  rw [List.any_eq_true] at hcontra
  obtain ⟨⟨b, x⟩, hmem2, hx⟩ := hcontra
  simp only [Bool.and_eq_true, beq_iff_eq] at hx
  obtain ⟨ha, harow⟩ := List.getElem?_eq_some.1 (List.mem_enum_iff_getElem?.1 hmem)
  obtain ⟨hb, hbx⟩ := List.getElem?_eq_some.1 (List.mem_enum_iff_getElem?.1 hmem2)
  dsimp only at ha harow hb hbx
  have hrl : row.length ≤ 7 := hrow row (by rw [← harow]; exact List.getElem_mem ha)
  omega

/-- On a 7x7 grid, bit `t` of the bitmask is the cell `(t / 7, t % 7)`. -/
theorem btb_testBit_grid (g : List (List Nat)) (hg : g.length = 7)
    (hrow : ∀ row ∈ g, row.length = 7) (t : Nat) :
    (board_to_bitmask g).testBit t = true ↔
    t < 49 ∧ (g.getD (t / 7) []).getD (t % 7) 0 = 1 := by
  rw [btb_testBit, List.any_eq_true]
  constructor
  · rintro ⟨⟨a, row⟩, hmem, hin⟩
    rw [List.any_eq_true] at hin
    obtain ⟨⟨b, x⟩, hmem2, hx⟩ := hin
    simp only [Bool.and_eq_true, beq_iff_eq] at hx
    obtain ⟨hx1, hpos⟩ := hx
    obtain ⟨ha, harow⟩ := List.getElem?_eq_some.1 (List.mem_enum_iff_getElem?.1 hmem)
    obtain ⟨hb, hbx⟩ := List.getElem?_eq_some.1 (List.mem_enum_iff_getElem?.1 hmem2)
    dsimp only at ha harow hb hbx
    have hrl : row.length = 7 := hrow row (by rw [← harow]; exact List.getElem_mem ha)
    have ha7 : a < 7 := by omega
    have hb7 : b < 7 := by omega
    have ht : t < 49 := by omega
    have hdiv : t / 7 = a := by omega
    have hmod : t % 7 = b := by omega
    refine ⟨ht, ?_⟩
    rw [hdiv, hmod]
    rw [show g.getD a [] = g[a] from getD_eq_getElem g a [] ha, harow,
      getD_eq_getElem row b 0 (by omega), hbx, hx1]
  · rintro ⟨ht, hcell⟩
    have ha : t / 7 < g.length := by omega
    have hrl : (g[t / 7]).length = 7 := hrow _ (List.getElem_mem ha)
    have hb : t % 7 < (g[t / 7]).length := by omega
    refine ⟨(t / 7, g[t / 7]), List.mem_enum_iff_getElem?.2 (by simp), ?_⟩
    rw [List.any_eq_true]
    refine ⟨(t % 7, g[t / 7][t % 7]), List.mem_enum_iff_getElem?.2 (by simp), ?_⟩
    simp only [Bool.and_eq_true, beq_iff_eq]
    rw [getD_eq_getElem _ _ _ ha, getD_eq_getElem _ _ _ hb] at hcell
    exact ⟨hcell, by omega⟩

/-- Setting a cell to 1 on a 7x7 grid ORs in the corresponding bit. -/
theorem btb_setCell (g : List (List Nat)) (a b : Nat) (hg : g.length = 7)
    (hrow : ∀ row ∈ g, row.length = 7) (ha : a < 7) (hb : b < 7) :
    board_to_bitmask (setCell g a b 1) =
    board_to_bitmask g ||| 1 <<< (a * 7 + b) := by
  have hg' : (setCell g a b 1).length = 7 := by simp [setCell, hg]
  have hrow' : ∀ row ∈ setCell g a b 1, row.length = 7 := by
    intro row hm
    rcases List.mem_or_eq_of_mem_set hm with h | rfl
    · exact hrow row h
    · rw [List.length_set]
      exact hrow _ (by
        rw [getD_eq_getElem _ _ _ (by omega)]
        exact List.getElem_mem (by omega))
  apply Nat.eq_of_testBit_eq
  intro t
  rw [Nat.testBit_lor, Nat.one_shiftLeft, Nat.testBit_two_pow]
  by_cases ht : t < 49
  · have hab : a * 7 + b < 49 := by omega
    rw [Bool.eq_iff_iff, btb_testBit_grid _ hg' hrow' t, Bool.or_eq_true,
      decide_eq_true_eq]
    rw [show ((board_to_bitmask g).testBit t = true) ↔
        (t < 49 ∧ (g.getD (t / 7) []).getD (t % 7) 0 = 1) from
      btb_testBit_grid g hg hrow t]
    by_cases heq : a * 7 + b = t
    · have hdiv : t / 7 = a := by omega
      have hmod : t % 7 = b := by omega
      rw [hdiv, hmod]
      unfold setCell
      rw [getD_set_eq _ _ _ _ (by omega),
        getD_set_eq _ _ _ _ (by rw [getD_eq_getElem _ _ _ (by omega)]; rw [hrow _ (List.getElem_mem (by omega))]; omega)]
      simp [heq, ht]
    · constructor
      · rintro ⟨ht', hcell⟩
        refine Or.inl ⟨ht', ?_⟩
        unfold setCell at hcell
        by_cases hd : t / 7 = a
        · rw [hd] at hcell ⊢
          rw [getD_set_eq _ _ _ _ (by omega)] at hcell
          have hm : t % 7 ≠ b := by omega
          rwa [getD_set_ne _ _ _ _ _ (fun h => hm h.symm)] at hcell
        · rwa [getD_set_ne _ _ _ _ _ (fun h => hd h.symm)] at hcell
      · rintro (⟨ht', hcell⟩ | heq')
        · refine ⟨ht', ?_⟩
          unfold setCell
          by_cases hd : t / 7 = a
          · rw [hd] at hcell ⊢
            rw [getD_set_eq _ _ _ _ (by omega)]
            have hm : t % 7 ≠ b := by omega
            rwa [getD_set_ne _ _ _ _ _ (fun h => hm h.symm)]
          · rwa [getD_set_ne _ _ _ _ _ (fun h => hd h.symm)]
        · exact absurd heq' heq
  · have h1 : (board_to_bitmask (setCell g a b 1)).testBit t = false :=
      Nat.testBit_lt_two_pow (lt_of_lt_of_le (btb_lt _ (by omega) (fun r hr => (hrow' r hr).le)) (Nat.pow_le_pow_right (by omega) (by omega)))
    have h2 : (board_to_bitmask g).testBit t = false :=
      Nat.testBit_lt_two_pow (lt_of_lt_of_le (btb_lt _ (by omega) (fun r hr => (hrow r hr).le)) (Nat.pow_le_pow_right (by omega) (by omega)))
    rw [h1, h2]
    have : a * 7 + b ≠ t := by omega
    simp [this]

/-! ## The bit image of stamping a shape

`stamp_mask` replays the stamping loop of `solve_for_date` directly on the
bitmask; `stamp_ok` replays its `is_valid` flag.  Both are proved equal to
the grid-level `stamp_board` below. -/

/-- Bitmask of the board produced by stamping `shape` at `(r, c)`. -/
def stamp_mask (shape : List (List Nat)) (r c : Nat) : Nat :=
  shape.enum.foldl (fun m ir =>
    ir.2.enum.foldl (fun m jc =>
      if 7 ≤ r + ir.1 ∨ 7 ≤ c + jc.1 then m
      else if jc.2 = 1 then m ||| 1 <<< ((r + ir.1) * 7 + (c + jc.1))
      else m) m) 0

/-- The `is_valid` flag of stamping: no occupied cell falls off the board. -/
def stamp_ok (shape : List (List Nat)) (r c : Nat) : Bool :=
  shape.enum.all (fun ir => ir.2.enum.all (fun jc =>
    if 7 ≤ r + ir.1 ∨ 7 ≤ c + jc.1 then !(jc.2 == 1) else true))

theorem stamp_row_aux (row : List Nat) :
    ∀ (j0 a c : Nat) (g : List (List Nat)) (v : Bool),
      g.length = 7 → (∀ rw ∈ g, rw.length = 7) →
      (((row.enumFrom j0).foldl (fun bv jc =>
          if 7 ≤ a ∨ 7 ≤ c + jc.1 then (bv.1, bv.2 && !(jc.2 == 1))
          else if jc.2 = 1 then (setCell bv.1 a (c + jc.1) 1, bv.2)
          else bv) (g, v)).1.length = 7) ∧
      (∀ rw ∈ ((row.enumFrom j0).foldl (fun bv jc =>
          if 7 ≤ a ∨ 7 ≤ c + jc.1 then (bv.1, bv.2 && !(jc.2 == 1))
          else if jc.2 = 1 then (setCell bv.1 a (c + jc.1) 1, bv.2)
          else bv) (g, v)).1, rw.length = 7) ∧
      board_to_bitmask ((row.enumFrom j0).foldl (fun bv jc =>
          if 7 ≤ a ∨ 7 ≤ c + jc.1 then (bv.1, bv.2 && !(jc.2 == 1))
          else if jc.2 = 1 then (setCell bv.1 a (c + jc.1) 1, bv.2)
          else bv) (g, v)).1 =
        (row.enumFrom j0).foldl (fun m jc =>
          if 7 ≤ a ∨ 7 ≤ c + jc.1 then m
          else if jc.2 = 1 then m ||| 1 <<< (a * 7 + (c + jc.1)) else m)
          (board_to_bitmask g) ∧
      ((row.enumFrom j0).foldl (fun bv jc =>
          if 7 ≤ a ∨ 7 ≤ c + jc.1 then (bv.1, bv.2 && !(jc.2 == 1))
          else if jc.2 = 1 then (setCell bv.1 a (c + jc.1) 1, bv.2)
          else bv) (g, v)).2 =
        (v && (row.enumFrom j0).all (fun jc =>
          if 7 ≤ a ∨ 7 ≤ c + jc.1 then !(jc.2 == 1) else true)) := by
  induction row with
  | nil => intro j0 a c g v hg hrow; exact ⟨hg, hrow, rfl, by simp⟩
  | cons x rest ih =>
    intro j0 a c g v hg hrow
    rw [List.enumFrom_cons]
    simp only [List.foldl_cons, List.all_cons]
    by_cases hguard : 7 ≤ a ∨ 7 ≤ c + j0
    · simp only [if_pos hguard]
      obtain ⟨h1, h2, h3, h4⟩ := ih (j0 + 1) a c g (v && !(x == 1)) hg hrow
      exact ⟨h1, h2, h3, by rw [h4, Bool.and_assoc]⟩
    · simp only [if_neg hguard]
      have ha : a < 7 := by omega
      have hc : c + j0 < 7 := by omega
      by_cases hx : x = 1
      · simp only [if_pos hx]
        have hg' : (setCell g a (c + j0) 1).length = 7 := by simp [setCell, hg]
        have hrow' : ∀ rw ∈ setCell g a (c + j0) 1, rw.length = 7 := by
          intro rw hm
          rcases List.mem_or_eq_of_mem_set hm with h | rfl
          · exact hrow rw h
          · rw [List.length_set]
            exact hrow _ (by
              rw [getD_eq_getElem _ _ _ (by omega)]
              exact List.getElem_mem (by omega))
        obtain ⟨h1, h2, h3, h4⟩ := ih (j0 + 1) a c (setCell g a (c + j0) 1) v hg' hrow'
        refine ⟨h1, h2, ?_, ?_⟩
        · rw [h3, btb_setCell g a (c + j0) hg hrow ha hc]
        · rw [h4]; simp
      · simp only [if_neg hx]
        obtain ⟨h1, h2, h3, h4⟩ := ih (j0 + 1) a c g v hg hrow
        exact ⟨h1, h2, h3, by rw [h4]; simp⟩

theorem stamp_shape_aux (sh : List (List Nat)) :
    ∀ (i0 r c : Nat) (g : List (List Nat)) (v : Bool),
      g.length = 7 → (∀ rw ∈ g, rw.length = 7) →
      (((sh.enumFrom i0).foldl (fun bv irow =>
          irow.2.enum.foldl (fun bv jc =>
            if 7 ≤ r + irow.1 ∨ 7 ≤ c + jc.1 then (bv.1, bv.2 && !(jc.2 == 1))
            else if jc.2 = 1 then (setCell bv.1 (r + irow.1) (c + jc.1) 1, bv.2)
            else bv) bv) (g, v)).1.length = 7) ∧
      (∀ rw ∈ ((sh.enumFrom i0).foldl (fun bv irow =>
          irow.2.enum.foldl (fun bv jc =>
            if 7 ≤ r + irow.1 ∨ 7 ≤ c + jc.1 then (bv.1, bv.2 && !(jc.2 == 1))
            else if jc.2 = 1 then (setCell bv.1 (r + irow.1) (c + jc.1) 1, bv.2)
            else bv) bv) (g, v)).1, rw.length = 7) ∧
      board_to_bitmask ((sh.enumFrom i0).foldl (fun bv irow =>
          irow.2.enum.foldl (fun bv jc =>
            if 7 ≤ r + irow.1 ∨ 7 ≤ c + jc.1 then (bv.1, bv.2 && !(jc.2 == 1))
            else if jc.2 = 1 then (setCell bv.1 (r + irow.1) (c + jc.1) 1, bv.2)
            else bv) bv) (g, v)).1 =
        (sh.enumFrom i0).foldl (fun m ir =>
          ir.2.enum.foldl (fun m jc =>
            if 7 ≤ r + ir.1 ∨ 7 ≤ c + jc.1 then m
            else if jc.2 = 1 then m ||| 1 <<< ((r + ir.1) * 7 + (c + jc.1))
            else m) m) (board_to_bitmask g) ∧
      ((sh.enumFrom i0).foldl (fun bv irow =>
          irow.2.enum.foldl (fun bv jc =>
            if 7 ≤ r + irow.1 ∨ 7 ≤ c + jc.1 then (bv.1, bv.2 && !(jc.2 == 1))
            else if jc.2 = 1 then (setCell bv.1 (r + irow.1) (c + jc.1) 1, bv.2)
            else bv) bv) (g, v)).2 =
        (v && (sh.enumFrom i0).all (fun ir => ir.2.enum.all (fun jc =>
          if 7 ≤ r + ir.1 ∨ 7 ≤ c + jc.1 then !(jc.2 == 1) else true))) := by
  induction sh with
  | nil => intro i0 r c g v hg hrow; exact ⟨hg, hrow, rfl, by simp⟩
  | cons row rest ih =>
    intro i0 r c g v hg hrow
    rw [List.enumFrom_cons]
    simp only [List.foldl_cons, List.all_cons]
    dsimp only
    have hrowlem := stamp_row_aux row 0 (r + i0) c g v hg hrow
    rw [show row.enum = row.enumFrom 0 from rfl]
    obtain ⟨h1, h2, h3, h4⟩ := hrowlem
    obtain ⟨g1, g2, g3, g4⟩ := ih (i0 + 1) r c _ _ h1 h2
    refine ⟨g1, g2, ?_, ?_⟩
    · rw [g3, h3]
    · rw [g4, h4, Bool.and_assoc]

/-- The grid-level stamping of the source equals its bit image, fits the
board, and its `is_valid` flag is `stamp_ok`. -/
theorem stamp_board_spec (sh : List (List Nat)) (r c : Nat) :
    board_to_bitmask (stamp_board sh r c).1 = stamp_mask sh r c ∧
    (stamp_board sh r c).2 = stamp_ok sh r c ∧
    (stamp_board sh r c).1.length = 7 ∧
    (∀ rw ∈ (stamp_board sh r c).1, rw.length = 7) := by
  have hz : (List.replicate 7 (List.replicate 7 (0 : Nat))).length = 7 := by simp
  have hz2 : ∀ rw ∈ List.replicate 7 (List.replicate 7 (0 : Nat)), rw.length = 7 := by
    intro rw hm
    rw [List.eq_of_mem_replicate hm]; simp
  obtain ⟨h1, h2, h3, h4⟩ := stamp_shape_aux sh 0 r c
    (List.replicate 7 (List.replicate 7 0)) true hz hz2
  have hb0 : board_to_bitmask (List.replicate 7 (List.replicate 7 0)) = 0 := by
    decide
  refine ⟨?_, ?_, h1, h2⟩
  · unfold stamp_board stamp_mask
    rw [hb0] at h3
    exact h3
  · unfold stamp_board stamp_ok
    rw [Bool.true_and] at h4
    exact h4


/-! ## Counting the bits of a valid stamp -/

/-- Number of occupied cells of a shape. -/
def onesCount (shape : List (List Nat)) : Nat :=
  (shape.map (fun row => row.countP (fun x => x == 1))).sum

theorem foldl_const {α β : Type} : ∀ (l : List β) (m : α),
    l.foldl (fun m _ => m) m = m := by
  intro l
  induction l with
  | nil => intro m; rfl
  | cons x rest ih => intro m; rw [List.foldl_cons]; exact ih m

theorem count_row_mask (row : List Nat) :
    ∀ (j0 a c m : Nat), a < 7 →
      m < 2 ^ (a * 7 + c + j0) →
      ((row.enumFrom j0).all (fun jc =>
        if 7 ≤ a ∨ 7 ≤ c + jc.1 then !(jc.2 == 1) else true) = true) →
      countBits ((row.enumFrom j0).foldl (fun m jc =>
          if 7 ≤ a ∨ 7 ≤ c + jc.1 then m
          else if jc.2 = 1 then m ||| 1 <<< (a * 7 + (c + jc.1)) else m) m)
        = countBits m + row.countP (fun x => x == 1) ∧
      ∀ t, ((row.enumFrom j0).foldl (fun m jc =>
          if 7 ≤ a ∨ 7 ≤ c + jc.1 then m
          else if jc.2 = 1 then m ||| 1 <<< (a * 7 + (c + jc.1)) else m) m).testBit t = true →
        m.testBit t = true ∨ (a * 7 ≤ t ∧ t < a * 7 + 7) := by
  induction row with
  | nil =>
    intro j0 a c m ha hm hok
    exact ⟨by simp, fun t ht => Or.inl ht⟩
  | cons x rest ih =>
    intro j0 a c m ha hm hok
    rw [List.enumFrom_cons] at hok ⊢
    simp only [List.all_cons, Bool.and_eq_true] at hok
    simp only [List.foldl_cons]
    rw [List.countP_cons]
    by_cases hguard : 7 ≤ a ∨ 7 ≤ c + j0
    · simp only [if_pos hguard] at hok ⊢
      have hx : ¬ x = 1 := by
        intro h; rw [h] at hok; simpa using hok.1
    
      obtain ⟨k1, k2⟩ := ih (j0 + 1) a c m ha
        (lt_of_lt_of_le hm (Nat.pow_le_pow_right (by omega) (by omega))) hok.2
      refine ⟨?_, k2⟩
      rw [k1]
      simp [hx]
    · simp only [if_neg hguard] at hok ⊢
      have hc : c + j0 < 7 := by omega
      by_cases hx : x = 1
      · simp only [if_pos hx]
        have hpos : a * 7 + (c + j0) < 49 := by omega
        have hfresh : m.testBit (a * 7 + (c + j0)) = false :=
          Nat.testBit_lt_two_pow (by
            have : a * 7 + c + j0 = a * 7 + (c + j0) := by omega
            rw [← this]; exact hm)
        have hm1 : m ||| 1 <<< (a * 7 + (c + j0)) < 2 ^ (a * 7 + c + (j0 + 1)) := by
          apply Nat.or_lt_two_pow
          · exact lt_of_lt_of_le hm (Nat.pow_le_pow_right (by omega) (by omega))
          · rw [Nat.one_shiftLeft]
            exact Nat.pow_lt_pow_right (by omega) (by omega)
        obtain ⟨k1, k2⟩ := ih (j0 + 1) a c _ ha hm1 hok.2
        constructor
        · rw [k1, countBits_or_single m _ hpos hfresh]
          simp [hx]; omega
        · intro t ht
          rcases k2 t ht with h | h
          · rw [Nat.testBit_lor, Nat.one_shiftLeft, Nat.testBit_two_pow] at h
            rcases Bool.or_eq_true_iff.1 h with h' | h'
            · exact Or.inl h'
            · right
              rw [decide_eq_true_eq] at h'
              omega
          · exact Or.inr h
      · simp only [if_neg hx]
        obtain ⟨k1, k2⟩ := ih (j0 + 1) a c m ha
          (lt_of_lt_of_le hm (Nat.pow_le_pow_right (by omega) (by omega))) hok.2
        refine ⟨?_, k2⟩
        rw [k1]
        simp [hx]

theorem count_shape_mask (sh : List (List Nat)) :
    ∀ (i0 r c m : Nat),
      (∀ t, m.testBit t = true → t < (r + i0) * 7) →
      ((sh.enumFrom i0).all (fun ir => ir.2.enum.all (fun jc =>
          if 7 ≤ r + ir.1 ∨ 7 ≤ c + jc.1 then !(jc.2 == 1) else true)) = true) →
      countBits ((sh.enumFrom i0).foldl (fun m ir =>
          ir.2.enum.foldl (fun m jc =>
            if 7 ≤ r + ir.1 ∨ 7 ≤ c + jc.1 then m
            else if jc.2 = 1 then m ||| 1 <<< ((r + ir.1) * 7 + (c + jc.1)) else m) m) m)
        = countBits m + (sh.map (fun row => row.countP (fun x => x == 1))).sum ∧
      ∀ t, ((sh.enumFrom i0).foldl (fun m ir =>
          ir.2.enum.foldl (fun m jc =>
            if 7 ≤ r + ir.1 ∨ 7 ≤ c + jc.1 then m
            else if jc.2 = 1 then m ||| 1 <<< ((r + ir.1) * 7 + (c + jc.1)) else m) m) m).testBit t = true →
        m.testBit t = true ∨ t < 49 := by
  induction sh with
  | nil =>
    intro i0 r c m hm hok
    exact ⟨by simp, fun t ht => Or.inl ht⟩
  | cons row rest ih =>
    intro i0 r c m hm hok
    rw [List.enumFrom_cons] at hok ⊢
    simp only [List.all_cons, Bool.and_eq_true] at hok
    simp only [List.foldl_cons, List.map_cons, List.sum_cons]
    by_cases ha : r + i0 < 7
    · have hm' : m < 2 ^ ((r + i0) * 7 + c + 0) := by
        apply Nat.lt_pow_two_of_testBit
        intro i hi
        by_cases hbit : m.testBit i = true
        · have := hm i hbit; omega
        · exact Bool.not_eq_true _ ▸ hbit
      obtain ⟨k1, k2⟩ := count_row_mask row 0 (r + i0) c m ha hm'
        (by rw [show row.enum = row.enumFrom 0 from rfl] at hok; exact hok.1)
      obtain ⟨g1, g2⟩ := ih (i0 + 1) r c _
        (fun t ht => by
          rcases k2 t ht with h | h
          · have := hm t h; omega
          · omega)
        hok.2
      constructor
      · rw [show row.enum = row.enumFrom 0 from rfl, g1, k1]
        omega
      · intro t ht
        rcases g2 t ht with h | h
        · rcases k2 t h with h' | h'
          · exact Or.inl h'
          · right; omega
        · exact Or.inr h
    · have hskip : row.enum.foldl (fun m jc =>
          if 7 ≤ r + i0 ∨ 7 ≤ c + jc.1 then m
          else if jc.2 = 1 then m ||| 1 <<< ((r + i0) * 7 + (c + jc.1)) else m) m = m := by
        rw [List.foldl_ext _ (fun m _ => m) m
          (fun acc x _ => by rw [if_pos (Or.inl (by omega))])]
        exact foldl_const _ m
      have hcount : row.countP (fun x => x == 1) = 0 := by
        rw [List.countP_eq_zero]
        intro y hy
        obtain ⟨j, hj, hy2⟩ := List.mem_iff_getElem.1 hy
        have := (List.all_eq_true.1 hok.1) (j, row[j])
          (List.mem_enum_iff_getElem?.2 (by simp))
        rw [if_pos (Or.inl (by omega))] at this
        simp only [Bool.not_eq_eq_eq_not, Bool.not_true] at this
        rw [← hy2]
        simpa using this
      obtain ⟨g1, g2⟩ := ih (i0 + 1) r c m
        (fun t ht => by have := hm t ht; omega) hok.2
      constructor
      · rw [hskip, g1, hcount]; omega
      · intro t ht
        rw [hskip] at ht
        exact g2 t ht

/-- Every valid stamp has as many set bits as the shape has occupied cells,
and fits in 49 bits. -/
theorem stamp_mask_count (sh : List (List Nat)) (r c : Nat)
    (hok : stamp_ok sh r c = true) :
    countBits (stamp_mask sh r c) = onesCount sh ∧
    stamp_mask sh r c < 2 ^ 49 := by
  obtain ⟨h1, h2⟩ := count_shape_mask sh 0 r c 0
    (fun t ht => by rw [Nat.zero_testBit] at ht; cases ht) hok
  constructor
  · have h0 : countBits 0 = 0 := by
      unfold countBits
      rw [List.countP_eq_zero]
      intro t _
      simp [Nat.zero_testBit]
    unfold stamp_mask onesCount
    rw [h0, Nat.zero_add] at h1
    exact h1
  · apply Nat.lt_pow_two_of_testBit
    intro i hi
    by_cases hbit : (stamp_mask sh r c).testBit i = true
    · rcases h2 i hbit with h | h
      · rw [Nat.zero_testBit] at h; cases h
      · omega
    · exact Bool.not_eq_true _ ▸ hbit

/-! ## Characterization of the placement lists -/

theorem mem_piece_placements_iff (shape : List (List Nat)) (m : Nat) :
    m ∈ piece_placements shape ↔
    ∃ sh ∈ get_unique_rotations shape, ∃ r < 8 - sh.length,
      ∃ c < 8 - (sh.headD []).length,
        (stamp_board sh r c).2 = true ∧
        m = board_to_bitmask (stamp_board sh r c).1 := by
  have hinner : ∀ (sh : List (List Nat)) (r : Nat) (acc : List Nat) (a : Nat),
      a ∈ (List.range (8 - (sh.headD []).length)).foldl (fun placements c =>
        if (stamp_board sh r c).2 then
          insertIfAbsent placements (board_to_bitmask (stamp_board sh r c).1)
        else placements) acc ↔
      a ∈ acc ∨ ∃ c < 8 - (sh.headD []).length,
        (stamp_board sh r c).2 = true ∧
        a = board_to_bitmask (stamp_board sh r c).1 := by
    intro sh r acc a
    rw [mem_foldl_step _ (fun c a => (stamp_board sh r c).2 = true ∧
        a = board_to_bitmask (stamp_board sh r c).1)
      (fun acc c a => by
        by_cases hv : (stamp_board sh r c).2 = true
        · rw [if_pos hv, mem_insertIfAbsent]
          simp [hv]
        · rw [if_neg hv]
          simp [hv])]
    simp only [List.mem_range]
  have hmid : ∀ (sh : List (List Nat)) (acc : List Nat) (a : Nat),
      a ∈ (List.range (8 - sh.length)).foldl (fun placements r =>
        (List.range (8 - (sh.headD []).length)).foldl (fun placements c =>
          if (stamp_board sh r c).2 then
            insertIfAbsent placements (board_to_bitmask (stamp_board sh r c).1)
          else placements) placements) acc ↔
      a ∈ acc ∨ ∃ r < 8 - sh.length, ∃ c < 8 - (sh.headD []).length,
        (stamp_board sh r c).2 = true ∧
        a = board_to_bitmask (stamp_board sh r c).1 := by
    intro sh acc a
    rw [mem_foldl_step _ (fun r a => ∃ c < 8 - (sh.headD []).length,
        (stamp_board sh r c).2 = true ∧
        a = board_to_bitmask (stamp_board sh r c).1)
      (fun acc r a => hinner sh r acc a)]
    simp only [List.mem_range]
  unfold piece_placements
  rw [mem_foldl_step _ (fun sh a => ∃ r < 8 - sh.length,
      ∃ c < 8 - (sh.headD []).length,
        (stamp_board sh r c).2 = true ∧
        a = board_to_bitmask (stamp_board sh r c).1)
    (fun acc sh a => hmid sh acc a)]
  simp

theorem nodup_piece_placements (shape : List (List Nat)) :
    (piece_placements shape).Nodup := by
  unfold piece_placements
  apply nodup_foldl_step _ ?hs _ _ List.nodup_nil
  case hs =>
    intro acc sh hacc
    apply nodup_foldl_step _ ?hs2 _ _ hacc
    case hs2 =>
      intro acc2 r hacc2
      apply nodup_foldl_step _ ?hs3 _ _ hacc2
      case hs3 =>
        intro acc3 c hacc3
        by_cases hv : (stamp_board sh r c).2 = true
        · rw [if_pos hv]; exact nodup_insertIfAbsent _ _ hacc3
        · rw [if_neg hv]; exact hacc3

/-- Facts about the concrete orientations of the eight pieces: bounding box
at most 7 in either direction, rectangular rows, and cell count equal to the
piece size. -/
theorem rotations_facts : ∀ k < 8,
    ∀ sh ∈ get_unique_rotations (get_initial_pieces.getD k []),
      1 ≤ sh.length ∧ sh.length ≤ 7 ∧ (sh.headD []).length ≤ 7 ∧
      (∀ row ∈ sh, row.length = (sh.headD []).length) ∧
      onesCount sh = piece_sizes.getD k 0 := by decide

theorem stamp_ok_of_bounds (sh : List (List Nat)) (r c : Nat)
    (hrect : ∀ row ∈ sh, row.length = (sh.headD []).length)
    (hr : r + sh.length ≤ 7) (hc : c + (sh.headD []).length ≤ 7) :
    stamp_ok sh r c = true := by
  unfold stamp_ok
  rw [List.all_eq_true]
  intro ir hir
  rw [List.all_eq_true]
  intro jc hjc
  obtain ⟨hi, hirow⟩ := List.getElem?_eq_some.1 (List.mem_enum_iff_getElem?.1 hir)
  obtain ⟨hj, hjcell⟩ := List.getElem?_eq_some.1 (List.mem_enum_iff_getElem?.1 hjc)
  have hrl : ir.2.length = (sh.headD []).length :=
    hrect _ (by rw [← hirow]; exact List.getElem_mem hi)
  have hng : ¬(7 ≤ r + ir.1 ∨ 7 ≤ c + jc.1) := by
    rw [not_or]
    constructor <;> [skip; skip] <;> omega
  rw [if_neg hng]

theorem all_piece_placements_getD (k : Nat) (hk : k < 8) :
    all_piece_placements.getD k [] =
    piece_placements (get_initial_pieces.getD k []) := by
  have hlen : get_initial_pieces.length = 8 := rfl
  unfold all_piece_placements
  rw [getD_eq_getElem _ _ _ (by rw [List.length_map, hlen]; omega),
    List.getElem_map, getD_eq_getElem _ _ _ (by omega)]

/-- Every placement mask of piece `k` covers exactly the piece's cell count
and fits in 49 bits. -/
theorem placements_count (k : Nat) (hk : k < 8) (m : Nat)
    (hm : m ∈ all_piece_placements.getD k []) :
    countBits m = piece_sizes.getD k 0 ∧ m < 2 ^ 49 := by
  rw [all_piece_placements_getD k hk, mem_piece_placements_iff] at hm
  obtain ⟨sh, hsh, r, hr, c, hc, hok, rfl⟩ := hm
  obtain ⟨hpos, hh, hw, hrect, hones⟩ := rotations_facts k hk sh hsh
  obtain ⟨hbtb, hokk, hl7, hr7⟩ := stamp_board_spec sh r c
  rw [hbtb]
  have hok2 : stamp_ok sh r c = true := by rw [← hokk]; exact hok
  obtain ⟨hc1, hc2⟩ := stamp_mask_count sh r c hok2
  rw [hc1, hones]
  exact ⟨rfl, hc2⟩

/-- Claim C5: for each piece `k`, the placement list contains exactly the
bitmasks of each distinct orientation stamped at every offset keeping it
fully inside the 7x7 board, with no duplicates; every mask uses only bits
`0..48` and has popcount equal to the piece's cell count. -/
theorem all_piece_placements_spec : ∀ k < 8,
    (all_piece_placements.getD k []).Nodup ∧
    (∀ m, m ∈ all_piece_placements.getD k [] ↔
      ∃ sh ∈ get_unique_rotations (get_initial_pieces.getD k []),
        ∃ r ≤ 7 - sh.length, ∃ c ≤ 7 - (sh.headD []).length,
          m = board_to_bitmask (stamp_board sh r c).1) ∧
    (∀ m ∈ all_piece_placements.getD k [],
      m < 2 ^ 49 ∧ countBits m = piece_sizes.getD k 0) := by
  intro k hk
  refine ⟨?_, ?_, ?_⟩
  · rw [all_piece_placements_getD k hk]
    exact nodup_piece_placements _
  · intro m
    rw [all_piece_placements_getD k hk, mem_piece_placements_iff]
    constructor
    · rintro ⟨sh, hsh, r, hr, c, hc, hok, rfl⟩
      obtain ⟨hpos, hh, hw, hrect, hones⟩ := rotations_facts k hk sh hsh
      exact ⟨sh, hsh, r, by omega, c, by omega, rfl⟩
    · rintro ⟨sh, hsh, r, hr, c, hc, rfl⟩
      obtain ⟨hpos, hh, hw, hrect, hones⟩ := rotations_facts k hk sh hsh
      refine ⟨sh, hsh, r, by omega, c, by omega, ?_, rfl⟩
      obtain ⟨hbtb, hokk, hl7, hr7⟩ := stamp_board_spec sh r c
      rw [hokk]
      exact stamp_ok_of_bounds sh r c hrect (by omega) (by omega)
  · intro m hm
    obtain ⟨h1, h2⟩ := placements_count k hk m hm
    exact ⟨h2, h1⟩

/-- Witness for C5 at the first piece. -/
theorem all_piece_placements_spec_witness :
    0 < 8 ∧
    ((all_piece_placements.getD 0 []).Nodup ∧
    (∀ m, m ∈ all_piece_placements.getD 0 [] ↔
      ∃ sh ∈ get_unique_rotations (get_initial_pieces.getD 0 []),
        ∃ r ≤ 7 - sh.length, ∃ c ≤ 7 - (sh.headD []).length,
          m = board_to_bitmask (stamp_board sh r c).1) ∧
    (∀ m ∈ all_piece_placements.getD 0 [],
      m < 2 ^ 49 ∧ countBits m = piece_sizes.getD 0 0)) :=
  ⟨by omega, all_piece_placements_spec 0 (by omega)⟩

/-! ## The blocked cells of a date -/

/-- The six fixed holes set by `solve_for_date` (in source order). -/
def staticCells : List (Nat × Nat) :=
  [(0, 6), (1, 6), (6, 3), (6, 4), (6, 5), (6, 6)]

/-- Exhaustive check over every valid date: the two date holes land inside
the 7x7 board, avoid the static holes and each other, and the initial mask
exists with exactly 8 set bits inside bits `0..48`. -/
theorem date_check : ∀ m < 12, ∀ d < 31,
    month_row (m + 1) < 7 ∧ month_col (m + 1) < 7 ∧
    day_row (d + 1) < 7 ∧ day_col (d + 1) < 7 ∧
    (month_row (m + 1), month_col (m + 1)) ∉ staticCells ∧
    (day_row (d + 1), day_col (d + 1)) ∉ staticCells ∧
    (month_row (m + 1), month_col (m + 1)) ≠ (day_row (d + 1), day_col (d + 1)) ∧
    (initial_board_mask (m + 1) (d + 1)).isSome = true ∧
    countBits ((initial_board_mask (m + 1) (d + 1)).getD 0) = 8 ∧
    (initial_board_mask (m + 1) (d + 1)).getD 0 < 2 ^ 49 := by decide

/-- Restatement of `date_check` for a date given by bounds. -/
theorem date_check' (month day : Nat) (hm1 : 1 ≤ month) (hm2 : month ≤ 12)
    (hd1 : 1 ≤ day) (hd2 : day ≤ 31) :
    month_row month < 7 ∧ month_col month < 7 ∧
    day_row day < 7 ∧ day_col day < 7 ∧
    (month_row month, month_col month) ∉ staticCells ∧
    (day_row day, day_col day) ∉ staticCells ∧
    (month_row month, month_col month) ≠ (day_row day, day_col day) ∧
    (initial_board_mask month day).isSome = true ∧
    countBits ((initial_board_mask month day).getD 0) = 8 ∧
    (initial_board_mask month day).getD 0 < 2 ^ 49 := by
  have h := date_check (month - 1) (by omega) (day - 1) (by omega)
  rw [show month - 1 + 1 = month by omega, show day - 1 + 1 = day by omega] at h
  exact h

/-- Claim C4: for every month 1..12 and day 1..31, all computed grid
indices stay inside the 7x7 board, the three groups of blocked cells are
pairwise distinct, and the initial blocked mask has exactly 8 bits set. -/
theorem solve_for_date_blocked_cells (month day : Nat)
    (hm1 : 1 ≤ month) (hm2 : month ≤ 12) (hd1 : 1 ≤ day) (hd2 : day ≤ 31) :
    month_row month < 7 ∧ month_col month < 7 ∧
    day_row day < 7 ∧ day_col day < 7 ∧
    (month_row month, month_col month) ∉ staticCells ∧
    (day_row day, day_col day) ∉ staticCells ∧
    (month_row month, month_col month) ≠ (day_row day, day_col day) ∧
    ∃ m0, initial_board_mask month day = some m0 ∧ countBits m0 = 8 := by
  obtain ⟨h1, h2, h3, h4, h5, h6, h7, h8, h9, h10⟩ :=
    date_check' month day hm1 hm2 hd1 hd2
  refine ⟨h1, h2, h3, h4, h5, h6, h7, ?_⟩
  obtain ⟨m0, hm0⟩ := Option.isSome_iff_exists.1 h8
  refine ⟨m0, hm0, ?_⟩
  rw [hm0] at h9
  simpa using h9

/-- Witness for C4 at January 1. -/
theorem solve_for_date_blocked_cells_witness :
    (1 ≤ 1 ∧ 1 ≤ 12 ∧ 1 ≤ 31) ∧
    (month_row 1 < 7 ∧ month_col 1 < 7 ∧
    day_row 1 < 7 ∧ day_col 1 < 7 ∧
    (month_row 1, month_col 1) ∉ staticCells ∧
    (day_row 1, day_col 1) ∉ staticCells ∧
    (month_row 1, month_col 1) ≠ (day_row 1, day_col 1) ∧
    ∃ m0, initial_board_mask 1 1 = some m0 ∧ countBits m0 = 8) :=
  ⟨⟨le_refl 1, by omega, by omega⟩,
   solve_for_date_blocked_cells 1 1 (by omega) (by omega) (by omega) (by omega)⟩

/-- Claim C10: for month 0 or day 0 the `u32` subtraction `month - 1` /
`day - 1` wraps around, the computed row lands far outside the 7x7 board,
and the guarded embedding of the grid write fails (`none`) where the source
would panic; for every valid date the write succeeds. -/
theorem invalid_date_out_of_bounds :
    month_row 0 = 715827882 ∧ day_row 0 = 613566758 ∧
    initial_board_mask 0 1 = none ∧ initial_board_mask 1 0 = none ∧
    ((List.range 12).all (fun m => (List.range 31).all (fun d =>
      (initial_board_mask (m + 1) (d + 1)).isSome)) = true) := by
  refine ⟨by decide, by decide, by decide, by decide, ?_⟩
  rw [List.all_eq_true]
  intro m hm
  rw [List.all_eq_true]
  intro d hd
  exact (date_check m (List.mem_range.1 hm) d (List.mem_range.1 hd)).2.2.2.2.2.2.2.1

/-! ## Exact cover of every emitted solution -/

theorem or_eq_zero_iff_nat (a b : Nat) : a ||| b = 0 ↔ a = 0 ∧ b = 0 := by
  constructor
  · intro h
    constructor <;> apply Nat.eq_of_testBit_eq <;> intro i
    · have := congrArg (fun x => x.testBit i) h
      simp only [Nat.testBit_lor, Nat.zero_testBit] at this ⊢
      cases ha : a.testBit i
      · simp
      · rw [ha] at this; simp at this
    · have := congrArg (fun x => x.testBit i) h
      simp only [Nat.testBit_lor, Nat.zero_testBit] at this ⊢
      cases hb : b.testBit i
      · simp
      · rw [hb] at this; simp at this
  · rintro ⟨rfl, rfl⟩; rfl

theorem or_and_zero (a b c : Nat) :
    (a ||| b) &&& c = 0 ↔ a &&& c = 0 ∧ b &&& c = 0 := by
  rw [Nat.and_distrib_right, or_eq_zero_iff_nat]

/-- `SearchExt` derivations respect the placement tables up to membership. -/
theorem searchExt_congr (alls1 alls2 : List (List Nat)) (sixIdx : Nat)
    (h : ∀ k, k < 8 → ∀ m : Nat, m ∈ alls1.getD k [] → m ∈ alls2.getD k []) :
    ∀ {piece_idx mask : Nat} {six : Bool} {ms : List Nat},
      SearchExt alls1 sixIdx piece_idx mask six ms →
      SearchExt alls2 sixIdx piece_idx mask six ms := by
  intro piece_idx mask six ms hext
  induction hext with
  | done mask six => exact SearchExt.done mask six
  | place piece_idx mask six m ms h1 h2 h3 h4 _ ih =>
    exact SearchExt.place piece_idx mask six m ms h1 (h piece_idx h1 m h2) h3 h4 ih

/-- Structure of a legal extension: it supplies one placement per remaining
piece, pairwise disjoint and disjoint from the board, and its bits add up
piece size by piece size. -/
theorem searchExt_facts (alls : List (List Nat)) (sixIdx : Nat)
    (halls : ∀ k, k < 8 → ∀ m ∈ alls.getD k [],
      countBits m = piece_sizes.getD k 0 ∧ m < 2 ^ 49) :
    ∀ {piece_idx mask : Nat} {six : Bool} {ms : List Nat},
      SearchExt alls sixIdx piece_idx mask six ms →
      mask < 2 ^ 49 →
      ms.length = 8 - piece_idx ∧
      (mask :: ms).Pairwise (fun a b => a &&& b = 0) ∧
      countBits (ms.foldl (fun acc m => acc ||| m) mask) =
        countBits mask + (piece_sizes.drop piece_idx).sum ∧
      ms.foldl (fun acc m => acc ||| m) mask < 2 ^ 49 := by
  intro piece_idx mask six ms hext
  induction hext with
  | done mask six =>
    intro hmask
    refine ⟨by simp, by simp, ?_, hmask⟩
    have hd : (piece_sizes.drop 8).sum = 0 := by decide
    simp [hd]
  | place piece_idx mask six m ms h1 h2 h3 h4 h5 ih =>
    intro hmask
    obtain ⟨hcb, hmlt⟩ := halls piece_idx h1 m h2
    have hor : mask ||| m < 2 ^ 49 := Nat.or_lt_two_pow hmask hmlt
    obtain ⟨k1, k2, k3, k4⟩ := ih hor
    have hps : piece_sizes.length = 8 := by decide
    refine ⟨?_, ?_, ?_, by simpa using k4⟩
    · simp only [List.length_cons, k1]; omega
    · rw [List.pairwise_cons] at k2 ⊢
      obtain ⟨khead, ktail⟩ := k2
      refine ⟨?_, ?_⟩
      · intro x hx
        rcases List.mem_cons.1 hx with rfl | hx2
        · exact h3
        · exact ((or_and_zero mask m x).1 (khead x hx2)).1
      · rw [List.pairwise_cons]
        refine ⟨?_, ktail⟩
        intro x hx
        exact ((or_and_zero mask m x).1 (khead x hx)).2
    · simp only [List.foldl_cons]
      rw [k3, countBits_or_disjoint mask m h3, hcb]
      have hdrop : piece_sizes.drop piece_idx =
          piece_sizes[piece_idx] :: piece_sizes.drop (piece_idx + 1) :=
        List.drop_eq_getElem_cons (by omega)
      rw [hdrop, List.sum_cons, getD_eq_getElem _ _ _ (by omega)]
      omega

/-- The canonical placement table satisfies its own side condition. -/
theorem placementsOK_canonical : PlacementsOK all_piece_placements := by
  refine ⟨?_, ?_⟩
  · unfold all_piece_placements
    rw [List.length_map]
    rfl
  · intro k hk
    refine ⟨?_, fun m => Iff.rfl⟩
    rw [all_piece_placements_getD k hk]
    exact nodup_piece_placements _

theorem placements_count_of_OK (alls : List (List Nat)) (hall : PlacementsOK alls) :
    ∀ k, k < 8 → ∀ m ∈ alls.getD k [],
      countBits m = piece_sizes.getD k 0 ∧ m < 2 ^ 49 := by
  intro k hk m hm
  exact placements_count k hk m (((hall.2 k hk).2 m).1 hm)

/-- Claim C1: every solution emitted by the search for a valid date, joined
with the initial blocked mask, covers all 49 board bits exactly once: the
OR of the 8 placement masks with the blocked mask is the full board, and
the blocked mask and the placements are pairwise disjoint. -/
theorem solution_exact_cover (month day : Nat)
    (hm1 : 1 ≤ month) (hm2 : month ≤ 12) (hd1 : 1 ≤ day) (hd2 : day ≤ 31)
    (alls : List (List Nat)) (hall : PlacementsOK alls)
    (m0 : Nat) (h0 : initial_board_mask month day = some m0)
    (sol : List Nat)
    (hsol : sol ∈ (find_solutions_recursive 0 m0 [] false alls
      size_6_piece_index []).2) :
    sol.length = 8 ∧
    sol.foldl (fun acc m => acc ||| m) m0 = 2 ^ 49 - 1 ∧
    (m0 :: sol).Pairwise (fun a b => a &&& b = 0) := by
  obtain ⟨ms, hms, hext⟩ := (mem_find_solutions_iff 0 m0 [] false alls
    size_6_piece_index sol).1 hsol
  rw [List.nil_append] at hms
  subst hms
  have hd := date_check' month day hm1 hm2 hd1 hd2
  have hm0c : countBits m0 = 8 := by
    have := hd.2.2.2.2.2.2.2.2.1
    rw [h0] at this
    simpa using this
  have hm0lt : m0 < 2 ^ 49 := by
    have := hd.2.2.2.2.2.2.2.2.2
    rw [h0] at this
    simpa using this
  obtain ⟨k1, k2, k3, k4⟩ := searchExt_facts alls size_6_piece_index
    (placements_count_of_OK alls hall) hext hm0lt
  refine ⟨by simpa using k1, ?_, k2⟩
  have hsum : (piece_sizes.drop 0).sum = 41 := by decide
  rw [hsum, hm0c] at k3
  exact countBits_full _ k4 k3

/-! ## Order independence (determinism up to list order) -/

/-- Claim C9: for a fixed date, the set of rendered boards produced by the
search does not depend on the iteration order of the placement sets: any
two placement tables holding the same masks per piece (in any order)
produce the same boards up to membership. -/
theorem solve_for_date_order_independent (month day : Nat)
    (alls1 alls2 : List (List Nat))
    (h1 : PlacementsOK alls1) (h2 : PlacementsOK alls2) :
    (solve_for_date month day alls1).isSome =
      (solve_for_date month day alls2).isSome ∧
    ∀ b, (∃ l1, solve_for_date month day alls1 = some l1 ∧ b ∈ l1) ↔
         (∃ l2, solve_for_date month day alls2 = some l2 ∧ b ∈ l2) := by
  have hmem : ∀ k, k < 8 → ∀ m : Nat,
      (m ∈ alls1.getD k [] ↔ m ∈ alls2.getD k []) := by
    intro k hk m
    rw [(h1.2 k hk).2 m, (h2.2 k hk).2 m]
  unfold solve_for_date
  cases hinit : initial_board_mask month day with
  | none => simp
  | some m0 =>
    refine ⟨rfl, ?_⟩
    simp only [Option.map_some', Option.some.injEq]
    intro b
    constructor
    · rintro ⟨l1, rfl, hb⟩
      refine ⟨_, rfl, ?_⟩
      rw [List.mem_map] at hb ⊢
      obtain ⟨sol, hsol, rfl⟩ := hb
      refine ⟨sol, ?_, rfl⟩
      rw [mem_find_solutions_iff] at hsol ⊢
      obtain ⟨ms, hms, hext⟩ := hsol
      exact ⟨ms, hms, searchExt_congr alls1 alls2 _
        (fun k hk m hm => (hmem k hk m).1 hm) hext⟩
    · rintro ⟨l2, rfl, hb⟩
      refine ⟨_, rfl, ?_⟩
      rw [List.mem_map] at hb ⊢
      obtain ⟨sol, hsol, rfl⟩ := hb
      refine ⟨sol, ?_, rfl⟩
      rw [mem_find_solutions_iff] at hsol ⊢
      obtain ⟨ms, hms, hext⟩ := hsol
      exact ⟨ms, hms, searchExt_congr alls2 alls1 _
        (fun k hk m hm => (hmem k hk m).2 hm) hext⟩

/-- Witness for C9 with the canonical table on both sides. -/
theorem solve_for_date_order_independent_witness :
    (PlacementsOK all_piece_placements ∧ PlacementsOK all_piece_placements) ∧
    ((solve_for_date 1 1 all_piece_placements).isSome =
      (solve_for_date 1 1 all_piece_placements).isSome ∧
    ∀ b, (∃ l1, solve_for_date 1 1 all_piece_placements = some l1 ∧ b ∈ l1) ↔
         (∃ l2, solve_for_date 1 1 all_piece_placements = some l2 ∧ b ∈ l2)) :=
  ⟨⟨placementsOK_canonical, placementsOK_canonical⟩,
   solve_for_date_order_independent 1 1 all_piece_placements all_piece_placements
     placementsOK_canonical placementsOK_canonical⟩

/-! ## Termination of the search -/

/-- Claim C8: the search terminates because each call moves `piece_idx`
toward the base case 8: a fuel bound of `9 - piece_idx` levels reproduces
the unbounded recursion exactly, and `solve_for_date` on any valid date
(and any placement table) returns a result. -/
theorem search_terminates :
    (∀ (fuel piece_idx : Nat), 8 < piece_idx + fuel →
      ∀ (mask : Nat) (used : List Nat) (six : Bool) (alls : List (List Nat))
        (sixIdx : Nat) (sols : List (List Nat)),
        find_solutions_recursive_fuel fuel piece_idx mask used six alls sixIdx sols =
        find_solutions_recursive piece_idx mask used six alls sixIdx sols) ∧
    (∀ (month day : Nat) (alls : List (List Nat)),
      1 ≤ month → month ≤ 12 → 1 ≤ day → day ≤ 31 →
      ∃ sols, solve_for_date month day alls = some sols) := by
  constructor
  · exact find_solutions_fuel_eq
  · intro month day alls hm1 hm2 hd1 hd2
    have h := (date_check' month day hm1 hm2 hd1 hd2).2.2.2.2.2.2.2.1
    obtain ⟨m0, hm0⟩ := Option.isSome_iff_exists.1 h
    refine ⟨((find_solutions_recursive 0 m0 [] false alls
      size_6_piece_index []).2).map (render_board month day), ?_⟩
    unfold solve_for_date
    rw [hm0]
    rfl

/-- Witness for C8. -/
theorem search_terminates_witness :
    (8 < 8 + 9 ∧
      find_solutions_recursive_fuel 9 8 0 [] false [] 0 [] =
      find_solutions_recursive 8 0 [] false [] 0 []) ∧
    ((1 ≤ 1 ∧ 1 ≤ 12 ∧ 1 ≤ 31) ∧
      ∃ sols, solve_for_date 1 1 [] = some sols) :=
  ⟨⟨by omega, search_terminates.1 9 8 (by omega) 0 [] false [] 0 []⟩,
   ⟨⟨by omega, by omega, by omega⟩,
    search_terminates.2 1 1 [] (by omega) (by omega) (by omega) (by omega)⟩⟩

/-! ## A concrete solution of the January 1 puzzle

The masks below form one raw solution found by the search for month 1,
day 1 (initial mask 527765581357121).  Each mask is exhibited as a stamp of
one orientation of its piece, and the pruning check is verified on every
prefix, so the list is a legal `SearchExt` and hence a member of the
search output. -/

/-- One raw solution for January 1, in piece order. -/
def exSol : List Nat :=
  [792624, 26527328632832, 117637120, 30200037376, 1550,
   4501396258816, 4125316087808, 12616064]

theorem exSol_mem0 : (792624 : Nat) ∈ all_piece_placements.getD 0 [] := by
  rw [all_piece_placements_getD 0 (by omega), mem_piece_placements_iff]
  exact ⟨[[1, 1], [1, 1], [1, 1]], by decide, 0, by decide, 4, by decide,
    by decide, by decide⟩

theorem exSol_mem1 : (26527328632832 : Nat) ∈ all_piece_placements.getD 1 [] := by
  rw [all_piece_placements_getD 1 (by omega), mem_piece_placements_iff]
  exact ⟨[[0, 1, 1], [0, 0, 1], [0, 1, 1]], by decide, 4, by decide, 0, by decide,
    by decide, by decide⟩

theorem exSol_mem2 : (117637120 : Nat) ∈ all_piece_placements.getD 2 [] := by
  rw [all_piece_placements_getD 2 (by omega), mem_piece_placements_iff]
  exact ⟨[[1, 1, 0, 0], [0, 1, 1, 1], [0, 0, 0, 0]], by decide, 2, by decide,
    2, by decide, by decide, by decide⟩

theorem exSol_mem3 : (30200037376 : Nat) ∈ all_piece_placements.getD 3 [] := by
  rw [all_piece_placements_getD 3 (by omega), mem_piece_placements_iff]
  exact ⟨[[0, 0, 1], [0, 0, 1], [1, 1, 1]], by decide, 2, by decide, 4, by decide,
    by decide, by decide⟩

theorem exSol_mem4 : (1550 : Nat) ∈ all_piece_placements.getD 4 [] := by
  rw [all_piece_placements_getD 4 (by omega), mem_piece_placements_iff]
  exact ⟨[[1, 1, 1], [0, 1, 1], [0, 0, 0]], by decide, 0, by decide, 1, by decide,
    by decide, by decide⟩

theorem exSol_mem5 : (4501396258816 : Nat) ∈ all_piece_placements.getD 5 [] := by
  rw [all_piece_placements_getD 5 (by omega), mem_piece_placements_iff]
  exact ⟨[[1, 0, 0], [1, 0, 0], [1, 1, 0], [1, 0, 0]], by decide, 3, by decide,
    0, by decide, by decide, by decide⟩

theorem exSol_mem6 : (4125316087808 : Nat) ∈ all_piece_placements.getD 6 [] := by
  rw [all_piece_placements_getD 6 (by omega), mem_piece_placements_iff]
  exact ⟨[[0, 0, 0, 0], [1, 0, 0, 0], [1, 1, 1, 1]], by decide, 3, by decide,
    3, by decide, by decide, by decide⟩

theorem exSol_mem7 : (12616064 : Nat) ∈ all_piece_placements.getD 7 [] := by
  rw [all_piece_placements_getD 7 (by omega), mem_piece_placements_iff]
  exact ⟨[[1, 1, 0], [0, 1, 0], [0, 1, 1]], by decide, 1, by decide, 0, by decide,
    by decide, by decide⟩

theorem exSol_searchExt :
    SearchExt all_piece_placements size_6_piece_index 0 527765581357121 false
      exSol := by
  refine SearchExt.place 0 _ _ _ _ (by omega) exSol_mem0 (by decide) (by decide) ?_
  refine SearchExt.place 1 _ _ _ _ (by omega) exSol_mem1 (by decide) (by decide) ?_
  refine SearchExt.place 2 _ _ _ _ (by omega) exSol_mem2 (by decide) (by decide) ?_
  refine SearchExt.place 3 _ _ _ _ (by omega) exSol_mem3 (by decide) (by decide) ?_
  refine SearchExt.place 4 _ _ _ _ (by omega) exSol_mem4 (by decide) (by decide) ?_
  refine SearchExt.place 5 _ _ _ _ (by omega) exSol_mem5 (by decide) (by decide) ?_
  refine SearchExt.place 6 _ _ _ _ (by omega) exSol_mem6 (by decide) (by decide) ?_
  refine SearchExt.place 7 _ _ _ _ (by omega) exSol_mem7 (by decide) (by decide) ?_
  exact SearchExt.done _ _

theorem exSol_mem_output :
    exSol ∈ (find_solutions_recursive 0 527765581357121 [] false
      all_piece_placements size_6_piece_index []).2 :=
  (mem_find_solutions_iff 0 527765581357121 [] false all_piece_placements
    size_6_piece_index exSol).2 ⟨exSol, rfl, exSol_searchExt⟩

/-- Witness for C1: the January 1 solution `exSol`. -/
theorem solution_exact_cover_witness :
    ((1 : Nat) ≤ 1 ∧ (1 : Nat) ≤ 12 ∧ (1 : Nat) ≤ 31 ∧
      PlacementsOK all_piece_placements ∧
      initial_board_mask 1 1 = some 527765581357121 ∧
      exSol ∈ (find_solutions_recursive 0 527765581357121 [] false
        all_piece_placements size_6_piece_index []).2) ∧
    (exSol.length = 8 ∧
      exSol.foldl (fun acc m => acc ||| m) 527765581357121 = 2 ^ 49 - 1 ∧
      ((527765581357121 : Nat) :: exSol).Pairwise (fun a b => a &&& b = 0)) :=
  ⟨⟨le_refl 1, by omega, by omega, placementsOK_canonical, by decide,
    exSol_mem_output⟩,
   solution_exact_cover 1 1 (by omega) (by omega) (by omega) (by omega)
     all_piece_placements placementsOK_canonical 527765581357121 (by decide)
     exSol exSol_mem_output⟩

/-! ## Value-level view of the rendering loop -/

theorem bit_one_iff_testBit (m i : Nat) :
    ((m >>> i) &&& 1 = 1) ↔ m.testBit i = true := by
  rw [Nat.and_one_is_mod, Nat.shiftRight_eq_div_pow, Nat.testBit_to_div_mod,
    decide_eq_true_eq]

theorem bit_zero_iff_testBit (m i : Nat) :
    ((m >>> i) &&& 1 = 0) ↔ m.testBit i = false := by
  rw [Nat.and_one_is_mod, Nat.shiftRight_eq_div_pow, Nat.testBit_to_div_mod]
  simp only [decide_eq_false_iff_not]
  omega

/-- The value the rendering loop leaves at board bit `i` before the date
holes are marked: the 1-based index of the last listed mask covering `i`,
or 0 if none does. -/
def cellVal (masks : List Nat) (i : Nat) : Int :=
  masks.enum.foldl (fun v km =>
    if (km.2 >>> i) &&& 1 = 1 then (km.1 : Int) + 1 else v) 0

theorem setCellI_length (g : List (List Int)) (r c : Nat) (v : Int) :
    (setCellI g r c v).length = g.length := by
  simp [setCellI]

theorem setCellI_rows (g : List (List Int)) (r c : Nat) (v : Int)
    (hrow : ∀ rw ∈ g, rw.length = 7) :
    ∀ rw ∈ setCellI g r c v, rw.length = 7 := by
  by_cases hr : r < g.length
  · intro rw hm
    rcases List.mem_or_eq_of_mem_set hm with h | rfl
    · exact hrow rw h
    · rw [List.length_set]
      exact hrow _ (by rw [getD_eq_getElem _ _ _ hr]; exact List.getElem_mem hr)
  · intro rw hm
    unfold setCellI at hm
    rw [List.set_eq_of_length_le (by omega)] at hm
    exact hrow rw hm

theorem setCellI_getD (g : List (List Int)) (r c : Nat) (v : Int)
    (hg : g.length = 7) (hrow : ∀ rw ∈ g, rw.length = 7)
    (a b : Nat) (ha : a < 7) (hb : b < 7) :
    ((setCellI g r c v).getD a []).getD b 0 =
    if r = a ∧ c = b then v else (g.getD a []).getD b 0 := by
  unfold setCellI
  by_cases hra : r = a
  · subst hra
    rw [getD_set_eq _ _ _ _ (by omega)]
    by_cases hcb : c = b
    · subst hcb
      rw [getD_set_eq _ _ _ _ (by
        rw [getD_eq_getElem _ _ _ (by omega)]
        rw [hrow _ (List.getElem_mem (by omega))]
        omega)]
      rw [if_pos ⟨rfl, rfl⟩]
    · rw [getD_set_ne _ _ _ _ _ hcb, if_neg (by tauto)]
  · rw [getD_set_ne _ _ _ _ _ hra, if_neg (by tauto)]

theorem renderMaskFold_shape (pm : Nat) (w : Int) :
    ∀ (l : List Nat) (g : List (List Int)), g.length = 7 →
      (∀ rw ∈ g, rw.length = 7) →
      ((l.foldl (fun board i =>
        if (pm >>> i) &&& 1 = 1 then setCellI board (i / 7) (i % 7) w
        else board) g).length = 7 ∧
      ∀ rw ∈ l.foldl (fun board i =>
        if (pm >>> i) &&& 1 = 1 then setCellI board (i / 7) (i % 7) w
        else board) g, rw.length = 7) := by
  intro l
  induction l with
  | nil => intro g hg hrow; exact ⟨hg, hrow⟩
  | cons i rest ih =>
    intro g hg hrow
    rw [List.foldl_cons]
    by_cases hbit : (pm >>> i) &&& 1 = 1
    · rw [if_pos hbit]
      exact ih _ (by rw [setCellI_length, hg]) (setCellI_rows _ _ _ _ hrow)
    · rw [if_neg hbit]
      exact ih g hg hrow

theorem renderMaskFold_val (pm : Nat) (w : Int) :
    ∀ (l : List Nat), (∀ i ∈ l, i < 49) → l.Nodup →
    ∀ (g : List (List Int)), g.length = 7 → (∀ rw ∈ g, rw.length = 7) →
    ∀ (a b : Nat), a < 7 → b < 7 →
    ((l.foldl (fun board i =>
        if (pm >>> i) &&& 1 = 1 then setCellI board (i / 7) (i % 7) w
        else board) g).getD a []).getD b 0 =
      (if (a * 7 + b) ∈ l ∧ (pm >>> (a * 7 + b)) &&& 1 = 1 then w
       else (g.getD a []).getD b 0) := by
  intro l
  induction l with
  | nil => intro _ _ g hg hrow a b ha hb; simp
  | cons i rest ih =>
    intro hlt hnd g hg hrow a b ha hb
    have hi : i < 49 := hlt i (List.mem_cons_self i rest)
    rw [List.foldl_cons]
    by_cases hbit : (pm >>> i) &&& 1 = 1
    · rw [if_pos hbit]
      rw [ih (fun j hj => hlt j (List.mem_cons_of_mem i hj))
        (List.nodup_cons.1 hnd).2 _
        (by rw [setCellI_length, hg]) (setCellI_rows _ _ _ _ hrow) a b ha hb]
      by_cases hieq : i = a * 7 + b
      · have hda : i / 7 = a := by omega
        have hdb : i % 7 = b := by omega
        have hnotmem : (a * 7 + b) ∉ rest := hieq ▸ (List.nodup_cons.1 hnd).1
        rw [if_neg (fun hh => hnotmem hh.1),
          setCellI_getD _ _ _ _ hg hrow a b ha hb,
          if_pos (⟨hda, hdb⟩ : i / 7 = a ∧ i % 7 = b),
          if_pos (⟨by rw [← hieq]; exact List.mem_cons_self i rest,
            by rw [← hieq]; exact hbit⟩ :
            (a * 7 + b) ∈ i :: rest ∧ (pm >>> (a * 7 + b)) &&& 1 = 1)]
      · rw [setCellI_getD _ _ _ _ hg hrow a b ha hb,
          if_neg (show ¬(i / 7 = a ∧ i % 7 = b) by rintro ⟨h1, h2⟩; omega)]
        refine if_congr ⟨fun hh => ⟨List.mem_cons_of_mem i hh.1, hh.2⟩,
          fun hh => ⟨?_, hh.2⟩⟩ rfl rfl
        rcases List.mem_cons.1 hh.1 with h' | h'
        · exact absurd h'.symm hieq
        · exact h'
    · rw [if_neg hbit]
      rw [ih (fun j hj => hlt j (List.mem_cons_of_mem i hj))
        (List.nodup_cons.1 hnd).2 g hg hrow a b ha hb]
      by_cases hieq : i = a * 7 + b
      · refine if_congr ⟨fun hh => absurd (hieq ▸ hh.2) hbit,
          fun hh => absurd (hieq ▸ hh.2) hbit⟩ rfl rfl
      · refine if_congr ⟨fun hh => ⟨List.mem_cons_of_mem i hh.1, hh.2⟩,
          fun hh => ⟨?_, hh.2⟩⟩ rfl rfl
        rcases List.mem_cons.1 hh.1 with h' | h'
        · exact absurd h'.symm hieq
        · exact h'

theorem renderPiecesFold (masks : List Nat) :
    ∀ (k0 : Nat) (g : List (List Int)), g.length = 7 →
      (∀ rw ∈ g, rw.length = 7) →
      (((masks.enumFrom k0).foldl (fun board pm =>
        (List.range 49).foldl (fun board i =>
          if (pm.2 >>> i) &&& 1 = 1 then
            setCellI board (i / 7) (i % 7) ((pm.1 : Int) + 1)
          else board) board) g).length = 7 ∧
      (∀ rw ∈ (masks.enumFrom k0).foldl (fun board pm =>
        (List.range 49).foldl (fun board i =>
          if (pm.2 >>> i) &&& 1 = 1 then
            setCellI board (i / 7) (i % 7) ((pm.1 : Int) + 1)
          else board) board) g, rw.length = 7) ∧
      (∀ (a b : Nat), a < 7 → b < 7 →
        (((masks.enumFrom k0).foldl (fun board pm =>
          (List.range 49).foldl (fun board i =>
            if (pm.2 >>> i) &&& 1 = 1 then
              setCellI board (i / 7) (i % 7) ((pm.1 : Int) + 1)
            else board) board) g).getD a []).getD b 0 =
          (masks.enumFrom k0).foldl (fun v km =>
            if (km.2 >>> (a * 7 + b)) &&& 1 = 1 then (km.1 : Int) + 1 else v)
            ((g.getD a []).getD b 0))) := by
  induction masks with
  | nil => intro k0 g hg hrow; exact ⟨hg, hrow, fun a b _ _ => rfl⟩
  | cons m rest ih =>
    intro k0 g hg hrow
    rw [List.enumFrom_cons]
    simp only [List.foldl_cons]
    obtain ⟨s1, s2⟩ := renderMaskFold_shape m ((k0 : Int) + 1) (List.range 49) g hg hrow
    obtain ⟨t1, t2, t3⟩ := ih (k0 + 1) ((List.range 49).foldl (fun board i =>
        if (m >>> i) &&& 1 = 1 then setCellI board (i / 7) (i % 7) ((k0 : Int) + 1)
        else board) g) s1 s2
    refine ⟨t1, t2, ?_⟩
    intro a b ha hb
    rw [t3 a b ha hb,
      renderMaskFold_val m ((k0 : Int) + 1) (List.range 49)
        (fun i hi => List.mem_range.1 hi) (List.nodup_range 49) g hg hrow a b ha hb,
      if_congr (and_iff_right (List.mem_range.2 (by omega : a * 7 + b < 49))) rfl rfl]

theorem render_board_cell (month day : Nat) (masks : List Nat)
    (a b : Nat) (ha : a < 7) (hb : b < 7) :
    ((render_board month day masks).getD a []).getD b 0 =
    if day_row day = a ∧ day_col day = b then -1
    else if month_row month = a ∧ month_col month = b then -1
    else cellVal masks (a * 7 + b) := by
  unfold render_board
  rw [show masks.enum = masks.enumFrom 0 from rfl]
  obtain ⟨p1, p2, p3⟩ := renderPiecesFold masks 0
    (List.replicate 7 (List.replicate 7 0)) (by simp)
    (fun rw hm => by rw [List.eq_of_mem_replicate hm]; simp)
  rw [setCellI_getD _ _ _ _ (by rw [setCellI_length]; exact p1)
    (setCellI_rows _ _ _ _ p2) a b ha hb]
  by_cases hd : day_row day = a ∧ day_col day = b
  · rw [if_pos hd, if_pos hd]
  · rw [if_neg hd, if_neg hd]
    rw [setCellI_getD _ _ _ _ p1 p2 a b ha hb]
    by_cases hm : month_row month = a ∧ month_col month = b
    · rw [if_pos hm, if_pos hm]
    · rw [if_neg hm, if_neg hm]
      rw [p3 a b ha hb]
      have hz : ((List.replicate 7 (List.replicate 7 (0 : Int))).getD a []).getD b 0 = 0 := by
        have h1 : (List.replicate 7 (List.replicate 7 (0 : Int))).getD a [] =
            List.replicate 7 (0 : Int) := by
          rw [getD_eq_getElem (List.replicate 7 (List.replicate 7 (0 : Int))) a []
            (by simpa using ha)]
          exact List.getElem_replicate _ _
        rw [h1, getD_eq_getElem (List.replicate 7 (0 : Int)) b 0 (by simpa using hb)]
        exact List.getElem_replicate _ _
      rw [hz]
      rfl

theorem cellVal_from_nocover (i : Nat) :
    ∀ (l : List (Nat × Nat)) (v : Int),
      (∀ km ∈ l, ¬((km.2 >>> i) &&& 1 = 1)) →
      l.foldl (fun v km =>
        if (km.2 >>> i) &&& 1 = 1 then (km.1 : Int) + 1 else v) v = v := by
  intro l
  induction l with
  | nil => intro v _; rfl
  | cons km rest ih =>
    intro v h
    rw [List.foldl_cons, if_neg (h km (List.mem_cons_self _ _))]
    exact ih v (fun x hx => h x (List.mem_cons_of_mem _ hx))

theorem cellVal_zero (masks : List Nat) (i : Nat)
    (h : ∀ m ∈ masks, ¬((m >>> i) &&& 1 = 1)) : cellVal masks i = 0 := by
  unfold cellVal
  apply cellVal_from_nocover
  intro km hkm
  apply h
  obtain ⟨hlt, hget⟩ := List.getElem?_eq_some.1 (List.mem_enum_iff_getElem?.1 hkm)
  rw [← hget]
  exact List.getElem_mem hlt

theorem cellVal_from_cover (i : Nat) (masks : List Nat) :
    ∀ (k0 : Nat) (v : Int) (k : Nat), k < masks.length →
      ((masks.getD k 0 >>> i) &&& 1 = 1) →
      (∀ j, j < masks.length → j ≠ k → ¬((masks.getD j 0 >>> i) &&& 1 = 1)) →
      (masks.enumFrom k0).foldl (fun v km =>
        if (km.2 >>> i) &&& 1 = 1 then (km.1 : Int) + 1 else v) v =
      ((k0 + k : Nat) : Int) + 1 := by
  induction masks with
  | nil => intro k0 v k hk; simp at hk
  | cons m rest ih =>
    intro k0 v k hk hcov huni
    rw [List.enumFrom_cons, List.foldl_cons]
    cases k with
    | zero =>
      rw [if_pos (by simpa using hcov)]
      rw [cellVal_from_nocover i _ _ ?_]
      · simp
      · intro km hkm
        obtain ⟨hge, hget⟩ :=
          List.mk_mem_enumFrom_iff_le_and_getElem?_sub.1 (by
            rw [show km = (km.1, km.2) from rfl] at hkm; exact hkm)
        obtain ⟨hlt, hget2⟩ := List.getElem?_eq_some.1 hget
        have hj := huni (km.1 - (k0 + 1) + 1) (by simpa using hlt) (by omega)
        rw [show ((m :: rest).getD (km.1 - (k0 + 1) + 1) 0) =
            rest.getD (km.1 - (k0 + 1)) 0 from rfl,
          getD_eq_getElem _ _ _ hlt, hget2] at hj
        exact hj
    | succ j =>
      rw [if_neg (by
        have := huni 0 (by omega) (by omega)
        simpa using this)]
      have hres := ih (k0 + 1) v j (by simpa using hk)
        (by simpa using hcov)
        (fun j' hj' hne => by
          have := huni (j' + 1) (by simpa using hj') (by omega)
          simpa using this)
      rw [hres, show k0 + 1 + j = k0 + (j + 1) by omega]

theorem cellVal_unique_cover (masks : List Nat) (i : Nat)
    (hpair : masks.Pairwise (fun a b => a &&& b = 0))
    (k : Nat) (hk : k < masks.length)
    (hcov : (masks.getD k 0).testBit i = true) :
    cellVal masks i = (k : Int) + 1 := by
  have huni : ∀ j, j < masks.length → j ≠ k →
      ¬((masks.getD j 0 >>> i) &&& 1 = 1) := by
    intro j hj hjk hcontra
    rw [bit_one_iff_testBit] at hcontra
    have hpg := List.pairwise_iff_getElem.1 hpair
    have hdisj : masks[j] &&& masks[k] = 0 ∨ masks[k] &&& masks[j] = 0 := by
      rcases Nat.lt_or_ge j k with h | h
      · exact Or.inl (hpg j k hj hk h)
      · exact Or.inr (hpg k j hk hj (by omega))
    rw [getD_eq_getElem _ _ _ hj] at hcontra
    rw [getD_eq_getElem _ _ _ hk] at hcov
    rcases hdisj with h | h
    · have hland := Nat.testBit_land masks[j] masks[k] i
      rw [h, Nat.zero_testBit, hcontra, hcov] at hland
      simp at hland
    · have hland := Nat.testBit_land masks[k] masks[j] i
      rw [h, Nat.zero_testBit, hcontra, hcov] at hland
      simp at hland
  unfold cellVal
  rw [show masks.enum = masks.enumFrom 0 from rfl]
  rw [cellVal_from_cover i masks 0 0 k hk
    (by rw [bit_one_iff_testBit, getD_eq_getElem _ _ _ hk]
        rw [getD_eq_getElem _ _ _ hk] at hcov
        exact hcov) huni]
  simp

theorem foldl_or_testBit (ms : List Nat) :
    ∀ (mask i : Nat),
      (ms.foldl (fun acc m => acc ||| m) mask).testBit i =
      (mask.testBit i || ms.any (fun m => m.testBit i)) := by
  induction ms with
  | nil => intro mask i; simp
  | cons m rest ih =>
    intro mask i
    rw [List.foldl_cons, ih, List.any_cons, Nat.testBit_lor, Bool.or_assoc]

/-! ## The initial board, cell by cell -/

theorem setCell_length (g : List (List Nat)) (r c v : Nat) :
    (setCell g r c v).length = g.length := by
  simp [setCell]

theorem setCell_rows (g : List (List Nat)) (r c v : Nat)
    (hrow : ∀ rw ∈ g, rw.length = 7) :
    ∀ rw ∈ setCell g r c v, rw.length = 7 := by
  by_cases hr : r < g.length
  · intro rw hm
    rcases List.mem_or_eq_of_mem_set hm with h | rfl
    · exact hrow rw h
    · rw [List.length_set]
      exact hrow _ (by rw [getD_eq_getElem _ _ _ hr]; exact List.getElem_mem hr)
  · intro rw hm
    unfold setCell at hm
    rw [List.set_eq_of_length_le (by omega)] at hm
    exact hrow rw hm

theorem setCell_getD (g : List (List Nat)) (r c v : Nat)
    (hg : g.length = 7) (hrow : ∀ rw ∈ g, rw.length = 7)
    (a b : Nat) (ha : a < 7) (hb : b < 7) :
    ((setCell g r c v).getD a []).getD b 0 =
    if r = a ∧ c = b then v else (g.getD a []).getD b 0 := by
  unfold setCell
  by_cases hra : r = a
  · subst hra
    rw [getD_set_eq _ _ _ _ (by omega)]
    by_cases hcb : c = b
    · subst hcb
      rw [getD_set_eq _ _ _ _ (by
        rw [getD_eq_getElem _ _ _ (by omega)]
        rw [hrow _ (List.getElem_mem (by omega))]
        omega)]
      rw [if_pos ⟨rfl, rfl⟩]
    · rw [getD_set_ne _ _ _ _ _ hcb, if_neg (by tauto)]
  · rw [getD_set_ne _ _ _ _ _ hra, if_neg (by tauto)]

theorem initial_board_static_facts :
    initial_board_static.length = 7 ∧
    (∀ rw ∈ initial_board_static, rw.length = 7) ∧
    ∀ a, a < 7 → ∀ b, b < 7 →
      (((initial_board_static.getD a []).getD b 0 = 1) ↔
        (a, b) ∈ staticCells) := by
  decide

theorem initial_board_some (month day : Nat)
    (hm7 : month_row month < 7) (hmc7 : month_col month < 7)
    (hd7 : day_row day < 7) (hdc7 : day_col day < 7) :
    initial_board month day = some (setCell (setCell initial_board_static
      (month_row month) (month_col month) 1) (day_row day) (day_col day) 1) := by
  obtain ⟨hlen, hrows, _⟩ := initial_board_static_facts
  unfold initial_board setCellChecked
  rw [if_pos (⟨by rw [hlen]; exact hm7, by
    rw [getD_eq_getElem _ _ _ (by omega)]
    rw [hrows _ (List.getElem_mem (by omega))]
    exact hmc7⟩ : _ ∧ _)]
  rw [Option.some_bind]
  have hlt : day_row day <
      (setCell initial_board_static (month_row month) (month_col month) 1).length := by
    rw [setCell_length, hlen]; exact hd7
  rw [if_pos (⟨hlt, by
    rw [getD_eq_getElem _ _ _ hlt]
    rw [setCell_rows _ _ _ _ hrows _ (List.getElem_mem hlt)]
    exact hdc7⟩ : _ ∧ _)]

theorem initial_mask_testBit (month day m0 : Nat)
    (hm7 : month_row month < 7) (hmc7 : month_col month < 7)
    (hd7 : day_row day < 7) (hdc7 : day_col day < 7)
    (h0 : initial_board_mask month day = some m0) (i : Nat) :
    (m0.testBit i = true ↔
      i < 49 ∧ ((i / 7, i % 7) ∈ staticCells ∨
       (i / 7, i % 7) = (month_row month, month_col month) ∨
       (i / 7, i % 7) = (day_row day, day_col day))) := by
  unfold initial_board_mask at h0
  rw [initial_board_some month day hm7 hmc7 hd7 hdc7, Option.map_some'] at h0
  injection h0 with h0
  subst h0
  obtain ⟨hlen, hrows, hstat⟩ := initial_board_static_facts
  have hlen2 : (setCell initial_board_static (month_row month)
      (month_col month) 1).length = 7 := by rw [setCell_length, hlen]
  have hrows2 := setCell_rows initial_board_static (month_row month)
    (month_col month) 1 hrows
  have hlen3 : (setCell (setCell initial_board_static (month_row month)
      (month_col month) 1) (day_row day) (day_col day) 1).length = 7 := by
    rw [setCell_length, hlen2]
  have hrows3 := setCell_rows _ (day_row day) (day_col day) 1 hrows2
  rw [btb_testBit_grid _ hlen3 hrows3 i]
  constructor
  · rintro ⟨hi, hcell⟩
    refine ⟨hi, ?_⟩
    have h7a : i / 7 < 7 := by omega
    have h7b : i % 7 < 7 := by omega
    rw [setCell_getD _ _ _ _ hlen2 hrows2 _ _ h7a h7b] at hcell
    by_cases hdc : day_row day = i / 7 ∧ day_col day = i % 7
    · right; right; rw [Prod.mk.injEq]; exact ⟨hdc.1.symm, hdc.2.symm⟩
    · rw [if_neg hdc] at hcell
      rw [setCell_getD _ _ _ _ hlen hrows _ _ h7a h7b] at hcell
      by_cases hmc : month_row month = i / 7 ∧ month_col month = i % 7
      · right; left; rw [Prod.mk.injEq]; exact ⟨hmc.1.symm, hmc.2.symm⟩
      · rw [if_neg hmc] at hcell
        left; exact (hstat _ h7a _ h7b).1 hcell
  · rintro ⟨hi, hcase⟩
    have h7a : i / 7 < 7 := by omega
    have h7b : i % 7 < 7 := by omega
    refine ⟨hi, ?_⟩
    rw [setCell_getD _ _ _ _ hlen2 hrows2 _ _ h7a h7b]
    by_cases hdc : day_row day = i / 7 ∧ day_col day = i % 7
    · rw [if_pos hdc]
    · rw [if_neg hdc]
      rw [setCell_getD _ _ _ _ hlen hrows _ _ h7a h7b]
      by_cases hmc : month_row month = i / 7 ∧ month_col month = i % 7
      · rw [if_pos hmc]
      · rw [if_neg hmc]
        rcases hcase with h | h | h
        · exact (hstat _ h7a _ h7b).2 h
        · rw [Prod.mk.injEq] at h
          exact absurd ⟨h.1.symm, h.2.symm⟩ hmc
        · rw [Prod.mk.injEq] at h
          exact absurd ⟨h.1.symm, h.2.symm⟩ hdc

/-! ## Claim C3: the rendered boards -/

/-- Amended claim C3: in every rendered board returned by `solve_for_date`,
the six static holes hold the sentinel `0`, the two date holes hold the
sentinel `-1` (two distinct sentinels, not one common value), and every
other cell holds the 1-based index of the piece whose placement mask covers
it. -/
theorem rendered_board_holes_and_indices (month day : Nat)
    (hm1 : 1 ≤ month) (hm2 : month ≤ 12) (hd1 : 1 ≤ day) (hd2 : day ≤ 31)
    (alls : List (List Nat)) (hall : PlacementsOK alls)
    (boards : List (List (List Int)))
    (hb : solve_for_date month day alls = some boards)
    (b : List (List Int)) (hbin : b ∈ boards) :
    ∃ sol ∈ (find_solutions_recursive 0 ((initial_board_mask month day).getD 0)
        [] false alls size_6_piece_index []).2,
      b = render_board month day sol ∧
      (∀ rc ∈ staticCells, (b.getD rc.1 []).getD rc.2 0 = 0) ∧
      (b.getD (month_row month) []).getD (month_col month) 0 = -1 ∧
      (b.getD (day_row day) []).getD (day_col day) 0 = -1 ∧
      ∀ a, a < 7 → ∀ c, c < 7 → (a, c) ∉ staticCells →
        (a, c) ≠ (month_row month, month_col month) →
        (a, c) ≠ (day_row day, day_col day) →
        ∃ k, k < 8 ∧ (sol.getD k 0).testBit (a * 7 + c) = true ∧
          (b.getD a []).getD c 0 = (k : Int) + 1 := by
  obtain ⟨h1, h2, h3, h4, h5, h6, h7, h8, h9, h10⟩ :=
    date_check' month day hm1 hm2 hd1 hd2
  obtain ⟨m0, hm0⟩ := Option.isSome_iff_exists.1 h8
  unfold solve_for_date at hb
  rw [hm0, Option.map_some'] at hb
  injection hb with hb
  subst hb
  obtain ⟨sol, hsolmem, hbeq⟩ := List.mem_map.1 hbin
  subst hbeq
  have hgd : (initial_board_mask month day).getD 0 = m0 := by rw [hm0]; rfl
  rw [hgd]
  have hm0c : countBits m0 = 8 := by rw [hm0] at h9; simpa using h9
  have hm0lt : m0 < 2 ^ 49 := by rw [hm0] at h10; simpa using h10
  obtain ⟨ms, hms, hext⟩ := (mem_find_solutions_iff 0 m0 [] false alls
    size_6_piece_index sol).1 hsolmem
  rw [List.nil_append] at hms
  subst hms
  obtain ⟨k1, k2, k3, k4⟩ := searchExt_facts alls size_6_piece_index
    (placements_count_of_OK alls hall) hext hm0lt
  have hlen8 : sol.length = 8 := by simpa using k1
  have hful : sol.foldl (fun acc m => acc ||| m) m0 = 2 ^ 49 - 1 := by
    have hsum : (piece_sizes.drop 0).sum = 41 := by decide
    rw [hsum, hm0c] at k3
    exact countBits_full _ k4 k3
  have hpc := List.pairwise_cons.1 k2
  have hbit := initial_mask_testBit month day m0 h1 h2 h3 h4 hm0
  refine ⟨sol, hsolmem, rfl, ?_, ?_, ?_, ?_⟩
  · intro rc hrc
    have hrc7 : rc.1 < 7 ∧ rc.2 < 7 := by
      have hall7 : ∀ p ∈ staticCells, p.1 < 7 ∧ p.2 < 7 := by decide
      exact hall7 rc hrc
    rw [render_board_cell month day sol rc.1 rc.2 hrc7.1 hrc7.2]
    rw [if_neg (fun hcc => h6 (by rw [hcc.1, hcc.2]; exact hrc))]
    rw [if_neg (fun hcc => h5 (by rw [hcc.1, hcc.2]; exact hrc))]
    apply cellVal_zero
    intro m hm hcontr
    rw [bit_one_iff_testBit] at hcontr
    have hm0b : m0.testBit (rc.1 * 7 + rc.2) = true := by
      rw [hbit]
      refine ⟨by omega, Or.inl ?_⟩
      rw [show (rc.1 * 7 + rc.2) / 7 = rc.1 by omega,
        show (rc.1 * 7 + rc.2) % 7 = rc.2 by omega]
      exact hrc
    have hl := Nat.testBit_land m0 m (rc.1 * 7 + rc.2)
    rw [hpc.1 m hm, Nat.zero_testBit, hm0b, hcontr] at hl
    simp at hl
  · rw [render_board_cell month day sol (month_row month) (month_col month) h1 h2]
    rw [if_neg (fun hcc => h7 (by
      rw [Prod.mk.injEq]; exact ⟨hcc.1.symm, hcc.2.symm⟩))]
    rw [if_pos ⟨rfl, rfl⟩]
  · rw [render_board_cell month day sol (day_row day) (day_col day) h3 h4]
    rw [if_pos ⟨rfl, rfl⟩]
  · intro a ha c hc hnst hnm hnd
    have hdm : (a * 7 + c) / 7 = a := by omega
    have hmm : (a * 7 + c) % 7 = c := by omega
    have hm0f : m0.testBit (a * 7 + c) = false := by
      rw [← Bool.not_eq_true, hbit]
      rintro ⟨-, hcase⟩
      rw [hdm, hmm] at hcase
      rcases hcase with h | h | h
      · exact hnst h
      · exact hnm h
      · exact hnd h
    have hcov : sol.any (fun m => m.testBit (a * 7 + c)) = true := by
      have hor := foldl_or_testBit sol m0 (a * 7 + c)
      rw [hful, hm0f, Bool.false_or] at hor
      rw [← hor, Nat.testBit_two_pow_sub_one]
      simp only [decide_eq_true_eq]
      omega
    obtain ⟨m, hmmem, hmbit⟩ := List.any_eq_true.1 hcov
    obtain ⟨k, hk, hkm⟩ := List.getElem_of_mem hmmem
    refine ⟨k, by omega, ?_, ?_⟩
    · rw [getD_eq_getElem _ _ _ hk, hkm]
      simpa using hmbit
    · rw [render_board_cell month day sol a c ha hc]
      rw [if_neg (fun hcc => hnd (by
        rw [Prod.mk.injEq]; exact ⟨hcc.1.symm, hcc.2.symm⟩))]
      rw [if_neg (fun hcc => hnm (by
        rw [Prod.mk.injEq]; exact ⟨hcc.1.symm, hcc.2.symm⟩))]
      exact cellVal_unique_cover sol (a * 7 + c) hpc.2 k hk
        (by rw [getD_eq_getElem _ _ _ hk, hkm]; simpa using hmbit)

/-- Witness for the amended C3: the January 1 board rendered from `exSol`. -/
theorem rendered_board_holes_and_indices_witness :
    (solve_for_date 1 1 all_piece_placements = some
        (((find_solutions_recursive 0 527765581357121 [] false
          all_piece_placements size_6_piece_index []).2).map (render_board 1 1)) ∧
      render_board 1 1 exSol ∈
        ((find_solutions_recursive 0 527765581357121 [] false
          all_piece_placements size_6_piece_index []).2).map (render_board 1 1)) ∧
    (∃ sol ∈ (find_solutions_recursive 0 ((initial_board_mask 1 1).getD 0)
        [] false all_piece_placements size_6_piece_index []).2,
      render_board 1 1 exSol = render_board 1 1 sol ∧
      (∀ rc ∈ staticCells,
        ((render_board 1 1 exSol).getD rc.1 []).getD rc.2 0 = 0) ∧
      ((render_board 1 1 exSol).getD (month_row 1) []).getD (month_col 1) 0 = -1 ∧
      ((render_board 1 1 exSol).getD (day_row 1) []).getD (day_col 1) 0 = -1 ∧
      ∀ a, a < 7 → ∀ c, c < 7 → (a, c) ∉ staticCells →
        (a, c) ≠ (month_row 1, month_col 1) →
        (a, c) ≠ (day_row 1, day_col 1) →
        ∃ k, k < 8 ∧ (sol.getD k 0).testBit (a * 7 + c) = true ∧
          ((render_board 1 1 exSol).getD a []).getD c 0 = (k : Int) + 1) :=
  have hsolve : solve_for_date 1 1 all_piece_placements = some
      (((find_solutions_recursive 0 527765581357121 [] false
        all_piece_placements size_6_piece_index []).2).map (render_board 1 1)) := by
    unfold solve_for_date
    rw [show initial_board_mask 1 1 = some 527765581357121 from by decide]
    rfl
  have hmem : render_board 1 1 exSol ∈
      ((find_solutions_recursive 0 527765581357121 [] false
        all_piece_placements size_6_piece_index []).2).map (render_board 1 1) :=
    List.mem_map_of_mem _ exSol_mem_output
  ⟨⟨hsolve, hmem⟩,
   rendered_board_holes_and_indices 1 1 (by omega) (by omega) (by omega)
     (by omega) all_piece_placements placementsOK_canonical _ hsolve _ hmem⟩

/-- Counterexample to C3 as stated: in a board returned by
`solve_for_date 1 1`, the static hole at `(0, 6)` holds `0` while the date
hole at `(0, 0)` (January's month cell) holds `-1` — the eight blocked
cells do not share one common sentinel value. -/
theorem render_board_two_sentinels :
    ∃ boards, solve_for_date 1 1 all_piece_placements = some boards ∧
      ∃ b ∈ boards,
        (b.getD 0 []).getD 6 0 = 0 ∧ (b.getD 0 []).getD 0 0 = -1 := by
  refine ⟨((find_solutions_recursive 0 527765581357121 [] false
      all_piece_placements size_6_piece_index []).2).map (render_board 1 1),
    ?_, render_board 1 1 exSol, List.mem_map_of_mem _ exSol_mem_output, ?_, ?_⟩
  · unfold solve_for_date
    rw [show initial_board_mask 1 1 = some 527765581357121 from by decide]
    rfl
  · decide
  · decide

/-! ## Claim C2: correctness of the union-find and the pruning rule

The abstraction of a `parents` array is the root reached by chasing parent
pointers.  `IsPath p x l r` records the chain of nodes visited from `x` to
its root `r`; `rootD` computes the root with fuel `p.length`, which the
forest invariant `PGood` proves sufficient. -/

/-- Chase parent pointers for at most `fuel` steps. -/
def chase (p : List Int) : Nat → Nat → Nat
  | 0, x => x
  | fuel + 1, x =>
    let px := p.getD x (-1)
    if px < 0 then x else chase p fuel px.toNat

/-- The root of `x` in parents array `p`. -/
def rootD (p : List Int) (x : Nat) : Nat := chase p p.length x

/-- The chain of parent pointers from `x` down to its root `r`, listing
every visited node. -/
inductive IsPath (p : List Int) : Nat → List Nat → Nat → Prop
  | root (x : Nat) : p.getD x (-1) < 0 → IsPath p x [x] x
  | step (x : Nat) (l : List Nat) (r : Nat) :
      0 ≤ p.getD x (-1) →
      IsPath p (p.getD x (-1)).toNat l r →
      IsPath p x (x :: l) r

theorem isPath_det (p : List Int) (x : Nat) (l : List Nat) (r : Nat)
    (h : IsPath p x l r) :
    ∀ l2 r2, IsPath p x l2 r2 → l = l2 ∧ r = r2 := by
  induction h with
  | root x hx =>
    intro l2 r2 h2
    cases h2 with
    | root => exact ⟨rfl, rfl⟩
    | step _ _ _ hge => omega
  | step x l r hge hrec ih =>
    intro l2 r2 h2
    cases h2 with
    | root _ hx => omega
    | step a b c d e =>
      obtain ⟨hl, hr⟩ := ih _ _ e
      exact ⟨by rw [hl], hr⟩

theorem isPath_root_entry (p : List Int) (x : Nat) (l : List Nat) (r : Nat)
    (h : IsPath p x l r) : p.getD r (-1) < 0 := by
  induction h with
  | root x hx => exact hx
  | step x l r hge hrec ih => exact ih

theorem isPath_drop (p : List Int) (x : Nat) (l : List Nat) (r : Nat)
    (h : IsPath p x l r) :
    ∀ i, i < l.length → ∃ hi : i < l.length, IsPath p (l.get ⟨i, hi⟩) (l.drop i) r := by
  induction h with
  | root x hx =>
    intro i hi
    have : i = 0 := by simpa using hi
    subst this
    exact ⟨by simp, IsPath.root x hx⟩
  | step x l r hge hrec ih =>
    intro i hi
    cases i with
    | zero => exact ⟨hi, IsPath.step x l r hge hrec⟩
    | succ j =>
      have hj : j < l.length := by simpa using hi
      obtain ⟨hj2, hp⟩ := ih j hj
      exact ⟨hi, by simpa using hp⟩

theorem isPath_nodup (p : List Int) (x : Nat) (l : List Nat) (r : Nat)
    (h : IsPath p x l r) : l.Nodup := by
  rw [List.Nodup, List.pairwise_iff_getElem]
  intro i j hi hj hij
  intro hcontra
  obtain ⟨hi2, hpi⟩ := isPath_drop p x l r h i hi
  obtain ⟨hj2, hpj⟩ := isPath_drop p x l r h j hj
  have hstart : l.get ⟨i, hi2⟩ = l.get ⟨j, hj2⟩ := by
    simpa using hcontra
  rw [hstart] at hpi
  obtain ⟨hl, _⟩ := isPath_det p _ _ _ hpi (l.drop j) r hpj
  have : l.length - i = l.length - j := by
    rw [← List.length_drop, ← List.length_drop, hl]
  omega

theorem isPath_mem_lt (p : List Int) (x : Nat) (l : List Nat) (r : Nat)
    (h : IsPath p x l r) (hx : x < p.length)
    (hin : ∀ z, z < p.length → 0 ≤ p.getD z (-1) →
      (p.getD z (-1)).toNat < p.length) :
    ∀ y ∈ l, y < p.length := by
  induction h with
  | root x hx2 =>
    intro y hy
    rw [List.mem_singleton] at hy
    omega
  | step x l r hge hrec ih =>
    intro y hy
    rcases List.mem_cons.1 hy with rfl | hy2
    · exact hx
    · exact ih (hin x hx hge) y hy2

theorem isPath_length_le (p : List Int) (x : Nat) (l : List Nat) (r : Nat)
    (h : IsPath p x l r) (hx : x < p.length)
    (hin : ∀ z, z < p.length → 0 ≤ p.getD z (-1) →
      (p.getD z (-1)).toNat < p.length) :
    l.length ≤ p.length := by
  have hsub : l ⊆ List.range p.length := by
    intro y hy
    rw [List.mem_range]
    exact isPath_mem_lt p x l r h hx hin y hy
  have := (List.subperm_of_subset (isPath_nodup p x l r h) hsub).length_le
  simpa using this

theorem chase_eq_of_path (p : List Int) (x : Nat) (l : List Nat) (r : Nat)
    (h : IsPath p x l r) :
    ∀ fuel, l.length ≤ fuel + 1 → chase p fuel x = r := by
  induction h with
  | root x hx =>
    intro fuel _
    cases fuel with
    | zero => rfl
    | succ f =>
      unfold chase
      rw [if_pos hx]
  | step x l r hge hrec ih =>
    intro fuel hf
    have hl1 : 1 ≤ l.length := by
      cases hrec with
      | root => simp
      | step => simp
    cases fuel with
    | zero =>
      exfalso
      rw [List.length_cons] at hf
      omega
    | succ f =>
      unfold chase
      rw [if_neg (by omega)]
      exact ih f (by simpa using hf)

theorem isPath_root_mem (p : List Int) (x : Nat) (l : List Nat) (r : Nat)
    (h : IsPath p x l r) : r ∈ l := by
  induction h with
  | root x hx => exact List.mem_singleton_self x
  | step x l r hge hrec ih => exact List.mem_cons_of_mem x ih

/-- Forest invariant: every node reaches a root along parent pointers, and
every parent pointer stays inside the array. -/
def PGood (p : List Int) : Prop :=
  (∀ x, x < p.length → ∃ l r, IsPath p x l r) ∧
  (∀ z, z < p.length → 0 ≤ p.getD z (-1) → (p.getD z (-1)).toNat < p.length)

/-- Size invariant: every root entry stores the negated count of the nodes
it represents. -/
def PSizes (p : List Int) : Prop :=
  ∀ r, r < p.length → p.getD r (-1) < 0 →
    p.getD r (-1) =
      -(((List.range p.length).countP (fun x => rootD p x = r) : Int))

theorem rootD_of_entry_neg (p : List Int) (x : Nat)
    (hx : p.getD x (-1) < 0) : rootD p x = x := by
  unfold rootD
  rcases hn : p.length with _ | k
  · rfl
  · unfold chase
    rw [if_pos hx]

theorem getD_out (p : List Int) (x : Nat) (hx : p.length ≤ x) :
    p.getD x (-1) = -1 := by
  rw [List.getD_eq_getElem?_getD, List.getElem?_eq_none hx]
  rfl

theorem rootD_out (p : List Int) (x : Nat) (hx : p.length ≤ x) :
    rootD p x = x :=
  rootD_of_entry_neg p x (by rw [getD_out p x hx]; omega)

theorem rootD_path (p : List Int) (hg : PGood p) (x : Nat) (hx : x < p.length) :
    ∃ l, IsPath p x l (rootD p x) := by
  obtain ⟨l, r, h⟩ := hg.1 x hx
  have hc := chase_eq_of_path p x l r h p.length
    (by have := isPath_length_le p x l r h hx hg.2; omega)
  unfold rootD
  rw [hc]
  exact ⟨l, h⟩

theorem rootD_is_root (p : List Int) (hg : PGood p) (x : Nat) :
    p.getD (rootD p x) (-1) < 0 := by
  by_cases hx : x < p.length
  · obtain ⟨l, h⟩ := rootD_path p hg x hx
    exact isPath_root_entry p x l _ h
  · rw [rootD_out p x (by omega), getD_out p x (by omega)]
    omega

theorem rootD_lt (p : List Int) (hg : PGood p) (x : Nat) (hx : x < p.length) :
    rootD p x < p.length := by
  obtain ⟨l, h⟩ := rootD_path p hg x hx
  exact isPath_mem_lt p x l _ h hx hg.2 _ (isPath_root_mem p x l _ h)

theorem rootD_idem (p : List Int) (hg : PGood p) (x : Nat) :
    rootD p (rootD p x) = rootD p x :=
  rootD_of_entry_neg p _ (rootD_is_root p hg x)

theorem rootD_eq_of_path (p : List Int) (hg : PGood p) (x : Nat)
    (l : List Nat) (r : Nat) (h : IsPath p x l r) (hx : x < p.length) :
    rootD p x = r := by
  obtain ⟨l2, h2⟩ := rootD_path p hg x hx
  exact (isPath_det p x l2 _ h2 l r h).2

theorem replicate_neg_getD (n x : Nat) :
    (List.replicate n (-1 : Int)).getD x (-1) = -1 := by
  by_cases hx : x < n
  · rw [getD_eq_getElem _ _ _ (by simpa using hx)]
    exact List.getElem_replicate _ _
  · exact getD_out _ _ (by simpa using hx)

theorem PGood_new (n : Nat) : PGood (List.replicate n (-1 : Int)) := by
  constructor
  · intro x hx
    exact ⟨[x], x, IsPath.root x (by rw [replicate_neg_getD]; omega)⟩
  · intro z hz hge
    rw [replicate_neg_getD] at hge
    omega

theorem rootD_new (n x : Nat) : rootD (List.replicate n (-1 : Int)) x = x :=
  rootD_of_entry_neg _ _ (by rw [replicate_neg_getD]; omega)

theorem countP_range_eq (r n : Nat) :
    (List.range n).countP (fun x => x = r) = if r < n then 1 else 0 := by
  induction n with
  | zero => simp
  | succ k ih =>
    rw [List.range_succ, List.countP_append, ih, List.countP_cons,
      List.countP_nil]
    by_cases h2 : r = k
    · subst h2
      rw [if_neg (lt_irrefl r), if_pos (Nat.lt_succ_self r),
        if_pos (show (decide (r = r)) = true by simp)]
    · by_cases h1 : r < k
      · rw [if_pos h1, if_pos (show r < k + 1 by omega),
          if_neg (show ¬((decide (k = r)) = true) by
            simp only [decide_eq_true_eq]; omega)]
      · rw [if_neg h1, if_neg (show ¬(r < k + 1) by omega),
          if_neg (show ¬((decide (k = r)) = true) by
            simp only [decide_eq_true_eq]; omega)]

theorem PSizes_new (n : Nat) : PSizes (List.replicate n (-1 : Int)) := by
  intro r hr hneg
  rw [replicate_neg_getD]
  simp only [List.length_replicate] at hr ⊢
  rw [List.countP_congr (q := fun x => x = r) (fun x _ => by rw [rootD_new])]
  rw [countP_range_eq, if_pos hr]
  norm_num

/-! Path compression: pointing a non-root node directly at its root
preserves every node's root, the root set, and all root entries. -/

theorem isPath_set_to_root (p : List Int) (x r : Nat) (lx : List Nat)
    (hx : x < p.length) (hge : 0 ≤ p.getD x (-1))
    (hpath : IsPath p x lx r) :
    ∀ y l2 r2, IsPath p y l2 r2 →
      ∃ l3, IsPath (p.set x (Int.ofNat r)) y l3 r2 := by
  have hroot : p.getD r (-1) < 0 := isPath_root_entry p x lx r hpath
  have hrx : r ≠ x := fun hc => by rw [hc] at hroot; omega
  intro y l2 r2 h
  induction h with
  | root y hy =>
    have hyx : x ≠ y := fun hc => by rw [hc] at hge; omega
    exact ⟨[y], IsPath.root y (by rw [getD_set_ne _ _ _ _ _ hyx]; exact hy)⟩
  | step y l r2 hge2 hrec ih =>
    by_cases hyx : y = x
    · subst hyx
      have hdet := isPath_det p y _ _ (IsPath.step y l r2 hge2 hrec) lx r hpath
      obtain ⟨-, hr2⟩ := hdet
      rw [hr2]
      refine ⟨[y, r], IsPath.step y [r] r ?_ ?_⟩
      · rw [getD_set_eq _ _ _ _ hx]
        exact Int.ofNat_nonneg r
      · rw [getD_set_eq _ _ _ _ hx,
          show (Int.ofNat r).toNat = r from rfl]
        exact IsPath.root r (by
          rw [getD_set_ne _ _ _ _ _ (fun hc => hrx hc.symm)]
          exact hroot)
    · obtain ⟨l3, h3⟩ := ih
      refine ⟨y :: l3, IsPath.step y l3 r2 ?_ ?_⟩
      · rw [getD_set_ne _ _ _ _ _ (fun hc => hyx hc.symm)]
        exact hge2
      · rw [getD_set_ne _ _ _ _ _ (fun hc => hyx hc.symm)]
        exact h3

theorem set_to_root_facts (p : List Int) (x r : Nat) (lx : List Nat)
    (hx : x < p.length) (hge : 0 ≤ p.getD x (-1))
    (hpath : IsPath p x lx r) (hg : PGood p) :
    PGood (p.set x (Int.ofNat r)) ∧
    (∀ z, rootD (p.set x (Int.ofNat r)) z = rootD p z) ∧
    (∀ z, ((p.set x (Int.ofNat r)).getD z (-1) < 0 ↔ p.getD z (-1) < 0)) ∧
    (∀ z, p.getD z (-1) < 0 →
      (p.set x (Int.ofNat r)).getD z (-1) = p.getD z (-1)) := by
  have hrlt : r < p.length :=
    isPath_mem_lt p x lx r hpath hx hg.2 r (isPath_root_mem p x lx r hpath)
  have hlen : (p.set x (Int.ofNat r)).length = p.length := by simp
  have hentry : ∀ z, z ≠ x →
      (p.set x (Int.ofNat r)).getD z (-1) = p.getD z (-1) :=
    fun z hz => getD_set_ne _ _ _ _ _ (fun hc => hz hc.symm)
  have hgood : PGood (p.set x (Int.ofNat r)) := by
    constructor
    · intro y hy
      rw [hlen] at hy
      obtain ⟨l2, r2, h2⟩ := hg.1 y hy
      obtain ⟨l3, h3⟩ := isPath_set_to_root p x r lx hx hge hpath y l2 r2 h2
      exact ⟨l3, r2, h3⟩
    · intro z hz hge2
      rw [hlen] at hz
      by_cases hzx : z = x
      · subst hzx
        rw [getD_set_eq _ _ _ _ hx,
          show (Int.ofNat r).toNat = r from rfl, hlen]
        exact hrlt
      · rw [hentry z hzx] at hge2
        rw [hentry z hzx, hlen]
        exact hg.2 z hz hge2
  refine ⟨hgood, ?_, ?_, ?_⟩
  · intro z
    by_cases hz : z < p.length
    · obtain ⟨l2, r2, h2⟩ := hg.1 z hz
      obtain ⟨l3, h3⟩ := isPath_set_to_root p x r lx hx hge hpath z l2 r2 h2
      rw [rootD_eq_of_path p hg z l2 r2 h2 hz,
        rootD_eq_of_path _ hgood z l3 r2 h3 (by rw [hlen]; exact hz)]
    · rw [rootD_out p z (by omega), rootD_out _ z (by rw [hlen]; omega)]
  · intro z
    by_cases hzx : z = x
    · subst hzx
      rw [getD_set_eq _ _ _ _ hx]
      exact ⟨fun hc => absurd hc (not_lt.2 (Int.ofNat_nonneg r)),
        fun hc => absurd hc (not_lt.2 hge)⟩
    · rw [hentry z hzx]
  · intro z hz
    by_cases hzx : z = x
    · subst hzx
      exact absurd hz (not_lt.2 hge)
    · exact hentry z hzx

theorem isPath_set_root_neg (p : List Int) (a : Nat) (v : Int)
    (ha : p.getD a (-1) < 0) (hv : v < 0) :
    ∀ y l2 r2, IsPath p y l2 r2 → IsPath (p.set a v) y l2 r2 := by
  intro y l2 r2 h
  induction h with
  | root y hy =>
    by_cases hya : y = a
    · subst hya
      by_cases hal : y < p.length
      · exact IsPath.root y (by rw [getD_set_eq _ _ _ _ hal]; exact hv)
      · exact IsPath.root y
          (by rw [List.set_eq_of_length_le (by omega)]; exact hy)
    · exact IsPath.root y
        (by rw [getD_set_ne _ _ _ _ _ (fun hc => hya hc.symm)]; exact hy)
  | step y l r2 hge hrec ih =>
    have hya : y ≠ a := fun hc => by rw [hc] at hge; omega
    exact IsPath.step y l r2
      (by rw [getD_set_ne _ _ _ _ _ (fun hc => hya hc.symm)]; exact hge)
      (by rw [getD_set_ne _ _ _ _ _ (fun hc => hya hc.symm)]; exact ih)

theorem set_root_neg_facts (p : List Int) (a : Nat) (v : Int)
    (ha : p.getD a (-1) < 0) (hv : v < 0) (hal : a < p.length)
    (hg : PGood p) :
    PGood (p.set a v) ∧
    (∀ z, rootD (p.set a v) z = rootD p z) ∧
    (∀ z, ((p.set a v).getD z (-1) < 0 ↔ p.getD z (-1) < 0)) ∧
    (∀ z, z ≠ a → (p.set a v).getD z (-1) = p.getD z (-1)) ∧
    (p.set a v).getD a (-1) = v := by
  have hlen : (p.set a v).length = p.length := by simp
  have hne : ∀ z, z ≠ a → (p.set a v).getD z (-1) = p.getD z (-1) :=
    fun z hz => getD_set_ne _ _ _ _ _ (fun hc => hz hc.symm)
  have hea : (p.set a v).getD a (-1) = v := getD_set_eq _ _ _ _ hal
  have hgood : PGood (p.set a v) := by
    constructor
    · intro y hy
      rw [hlen] at hy
      obtain ⟨l2, r2, h2⟩ := hg.1 y hy
      exact ⟨l2, r2, isPath_set_root_neg p a v ha hv y l2 r2 h2⟩
    · intro z hz hge2
      rw [hlen] at hz
      by_cases hza : z = a
      · subst hza
        rw [hea] at hge2
        omega
      · rw [hne z hza] at hge2
        rw [hne z hza, hlen]
        exact hg.2 z hz hge2
  refine ⟨hgood, ?_, ?_, hne, hea⟩
  · intro z
    by_cases hz : z < p.length
    · obtain ⟨l2, r2, h2⟩ := hg.1 z hz
      rw [rootD_eq_of_path p hg z l2 r2 h2 hz,
        rootD_eq_of_path _ hgood z l2 r2
          (isPath_set_root_neg p a v ha hv z l2 r2 h2)
          (by rw [hlen]; exact hz)]
    · rw [rootD_out p z (by omega), rootD_out _ z (by rw [hlen]; omega)]
  · intro z
    by_cases hza : z = a
    · subst hza
      rw [hea]
      exact ⟨fun _ => ha, fun _ => hv⟩
    · rw [hne z hza]

theorem isPath_set_root_to_root (p : List Int) (a b : Nat)
    (ha : p.getD a (-1) < 0) (hb : p.getD b (-1) < 0) (hab : a ≠ b)
    (hbl : b < p.length) :
    ∀ y l2 r2, IsPath p y l2 r2 →
      (r2 = b → IsPath (p.set b (Int.ofNat a)) y (l2 ++ [a]) a) ∧
      (r2 ≠ b → IsPath (p.set b (Int.ofNat a)) y l2 r2) := by
  intro y l2 r2 h
  induction h with
  | root y hy =>
    constructor
    · rintro rfl
      exact IsPath.step y [a] a
        (by rw [getD_set_eq _ _ _ _ hbl]; exact Int.ofNat_nonneg a)
        (by rw [getD_set_eq _ _ _ _ hbl,
              show (Int.ofNat a).toNat = a from rfl]
            exact IsPath.root a
              (by rw [getD_set_ne _ _ _ _ _ (fun hc => hab hc.symm)]
                  exact ha))
    · intro hyb
      exact IsPath.root y
        (by rw [getD_set_ne _ _ _ _ _ (fun hc => hyb hc.symm)]; exact hy)
  | step y l r2 hge hrec ih =>
    have hyb : y ≠ b := fun hc => by
      rw [hc] at hge
      omega
    constructor
    · intro hr2
      exact IsPath.step y (l ++ [a]) a
        (by rw [getD_set_ne _ _ _ _ _ (fun hc => hyb hc.symm)]; exact hge)
        (by rw [getD_set_ne _ _ _ _ _ (fun hc => hyb hc.symm)]
            exact ih.1 hr2)
    · intro hr2
      exact IsPath.step y l r2
        (by rw [getD_set_ne _ _ _ _ _ (fun hc => hyb hc.symm)]; exact hge)
        (by rw [getD_set_ne _ _ _ _ _ (fun hc => hyb hc.symm)]
            exact ih.2 hr2)

theorem set_root_to_root_facts (p : List Int) (a b : Nat)
    (ha : p.getD a (-1) < 0) (hb : p.getD b (-1) < 0) (hab : a ≠ b)
    (hal : a < p.length) (hbl : b < p.length) (hg : PGood p) :
    PGood (p.set b (Int.ofNat a)) ∧
    (∀ z, rootD (p.set b (Int.ofNat a)) z =
      if rootD p z = b then a else rootD p z) ∧
    (∀ z, z ≠ b →
      ((p.set b (Int.ofNat a)).getD z (-1) < 0 ↔ p.getD z (-1) < 0)) ∧
    (∀ z, z ≠ b → (p.set b (Int.ofNat a)).getD z (-1) = p.getD z (-1)) ∧
    (p.set b (Int.ofNat a)).getD b (-1) = Int.ofNat a := by
  have hlen : (p.set b (Int.ofNat a)).length = p.length := by simp
  have hne : ∀ z, z ≠ b →
      (p.set b (Int.ofNat a)).getD z (-1) = p.getD z (-1) :=
    fun z hz => getD_set_ne _ _ _ _ _ (fun hc => hz hc.symm)
  have heb : (p.set b (Int.ofNat a)).getD b (-1) = Int.ofNat a :=
    getD_set_eq _ _ _ _ hbl
  have hgood : PGood (p.set b (Int.ofNat a)) := by
    constructor
    · intro y hy
      rw [hlen] at hy
      obtain ⟨l2, r2, h2⟩ := hg.1 y hy
      have htr := isPath_set_root_to_root p a b ha hb hab hbl y l2 r2 h2
      by_cases hr2 : r2 = b
      · exact ⟨l2 ++ [a], a, htr.1 hr2⟩
      · exact ⟨l2, r2, htr.2 hr2⟩
    · intro z hz hge2
      rw [hlen] at hz
      by_cases hzb : z = b
      · subst hzb
        rw [heb, show (Int.ofNat a).toNat = a from rfl, hlen]
        exact hal
      · rw [hne z hzb] at hge2
        rw [hne z hzb, hlen]
        exact hg.2 z hz hge2
  refine ⟨hgood, ?_, ?_, hne, heb⟩
  · intro z
    by_cases hz : z < p.length
    · obtain ⟨l2, r2, h2⟩ := hg.1 z hz
      have he2 : rootD p z = r2 := rootD_eq_of_path p hg z l2 r2 h2 hz
      have htr := isPath_set_root_to_root p a b ha hb hab hbl z l2 r2 h2
      by_cases hr2 : r2 = b
      · rw [rootD_eq_of_path _ hgood z (l2 ++ [a]) a (htr.1 hr2)
            (by rw [hlen]; exact hz),
          he2, if_pos hr2]
      · rw [rootD_eq_of_path _ hgood z l2 r2 (htr.2 hr2)
            (by rw [hlen]; exact hz),
          he2, if_neg hr2]
    · rw [rootD_out _ z (by rw [hlen]; omega), rootD_out p z (by omega),
        if_neg (by omega)]
  · intro z hz
    rw [hne z hz]

theorem findAux_spec (uf : UnionFind) (hg : PGood uf.parents)
    (x : Nat) (l : List Nat) (r : Nat) (h : IsPath uf.parents x l r) :
    ∀ fuel, l.length ≤ fuel + 1 →
      (UnionFind.findAux fuel uf x).1 = r ∧
      (UnionFind.findAux fuel uf x).2.n = uf.n ∧
      (UnionFind.findAux fuel uf x).2.parents.length = uf.parents.length ∧
      PGood (UnionFind.findAux fuel uf x).2.parents ∧
      (∀ z, rootD (UnionFind.findAux fuel uf x).2.parents z =
        rootD uf.parents z) ∧
      (∀ z, ((UnionFind.findAux fuel uf x).2.parents.getD z (-1) < 0 ↔
        uf.parents.getD z (-1) < 0)) ∧
      (∀ z, uf.parents.getD z (-1) < 0 →
        (UnionFind.findAux fuel uf x).2.parents.getD z (-1) =
          uf.parents.getD z (-1)) := by
  induction h with
  | root y hy =>
    intro fuel hf
    cases fuel with
    | zero =>
      exact ⟨rfl, rfl, rfl, hg, fun z => rfl, fun z => Iff.rfl, fun z _ => rfl⟩
    | succ f =>
      unfold UnionFind.findAux
      rw [if_pos hy]
      exact ⟨rfl, rfl, rfl, hg, fun z => rfl, fun z => Iff.rfl, fun z _ => rfl⟩
  | step y l r hge hrec ih =>
    intro fuel hf
    have hl1 : 1 ≤ l.length := by
      cases hrec <;> simp
    cases fuel with
    | zero =>
      exfalso
      rw [List.length_cons] at hf
      omega
    | succ f =>
      have hy : ¬(uf.parents.getD y (-1) < 0) := by omega
      unfold UnionFind.findAux
      rw [if_neg hy]
      dsimp only
      obtain ⟨ih1, ih2, ih3, ih4, ih5, ih6, ih7⟩ := ih f
        (by rw [List.length_cons] at hf; omega)
      rw [ih1]
      have hylt : y < uf.parents.length := by
        by_contra hc
        rw [getD_out _ _ (by omega)] at hge
        omega
      have hrooty : rootD uf.parents y = r :=
        rootD_eq_of_path uf.parents hg y (y :: l) r
          (IsPath.step y l r hge hrec) hylt
      have hsignF : ¬((UnionFind.findAux f uf
          (uf.parents.getD y (-1)).toNat).2.parents.getD y (-1) < 0) :=
        fun hc => hy ((ih6 y).1 hc)
      obtain ⟨l3, hpath3⟩ := rootD_path _ ih4 y (by rw [ih3]; exact hylt)
      rw [ih5 y, hrooty] at hpath3
      obtain ⟨s1, s2, s3, s4⟩ := set_to_root_facts _ y r l3
        (by rw [ih3]; exact hylt) (not_lt.1 hsignF) hpath3 ih4
      refine ⟨rfl, ih2, ?_, s1, ?_, ?_, ?_⟩
      · rw [List.length_set]
        exact ih3
      · intro z
        rw [s2 z, ih5 z]
      · intro z
        exact (s3 z).trans (ih6 z)
      · intro z hz
        exact (s4 z ((ih6 z).2 hz)).trans (ih7 z hz)

theorem findAux_at_root (uf : UnionFind) (fuel x : Nat)
    (hroot : uf.parents.getD x (-1) < 0) :
    UnionFind.findAux fuel uf x = (x, uf) := by
  cases fuel with
  | zero => rfl
  | succ f =>
    unfold UnionFind.findAux
    rw [if_pos hroot]

theorem find_spec (uf : UnionFind) (hgn : uf.parents.length = uf.n)
    (hg : PGood uf.parents) (x : Nat) :
    (uf.find x).1 = rootD uf.parents x ∧
    (uf.find x).2.n = uf.n ∧
    (uf.find x).2.parents.length = uf.parents.length ∧
    PGood (uf.find x).2.parents ∧
    (∀ z, rootD (uf.find x).2.parents z = rootD uf.parents z) ∧
    (∀ z, ((uf.find x).2.parents.getD z (-1) < 0 ↔
      uf.parents.getD z (-1) < 0)) ∧
    (∀ z, uf.parents.getD z (-1) < 0 →
      (uf.find x).2.parents.getD z (-1) = uf.parents.getD z (-1)) := by
  unfold UnionFind.find
  by_cases hx : x < uf.parents.length
  · obtain ⟨l, hpath⟩ := rootD_path uf.parents hg x hx
    have hlen := isPath_length_le uf.parents x l _ hpath hx hg.2
    rw [hgn] at hlen
    exact findAux_spec uf hg x l _ hpath uf.n (by omega)
  · have hpath : IsPath uf.parents x [x] x :=
      IsPath.root x (by rw [getD_out _ _ (by omega)]; omega)
    have hspec := findAux_spec uf hg x [x] x hpath uf.n (by simp)
    rw [rootD_out uf.parents x (by omega)]
    exact hspec

theorem PSizes_transfer (p q : List Int) (hlen : q.length = p.length)
    (hroot : ∀ z, (q.getD z (-1) < 0 ↔ p.getD z (-1) < 0))
    (hval : ∀ z, p.getD z (-1) < 0 → q.getD z (-1) = p.getD z (-1))
    (hr : ∀ z, rootD q z = rootD p z) (hs : PSizes p) : PSizes q := by
  intro r hrlen hrneg
  rw [hlen] at hrlen
  have hpneg := (hroot r).1 hrneg
  have hcnt : (List.range p.length).countP (fun x => rootD q x = r) =
      (List.range p.length).countP (fun x => rootD p x = r) :=
    List.countP_congr (fun x _ => by rw [hr x])
  rw [hval r hpneg, hs r hrlen hpneg, hlen, hcnt]

theorem link_roots_facts (p : List Int) (a b : Nat)
    (ha : p.getD a (-1) < 0) (hb : p.getD b (-1) < 0) (hab : a ≠ b)
    (hal : a < p.length) (hbl : b < p.length) (hg : PGood p)
    (hs : PSizes p) :
    ((p.set a (p.getD a (-1) + p.getD b (-1))).set b
        (Int.ofNat a)).length = p.length ∧
    PGood ((p.set a (p.getD a (-1) + p.getD b (-1))).set b (Int.ofNat a)) ∧
    PSizes ((p.set a (p.getD a (-1) + p.getD b (-1))).set b (Int.ofNat a)) ∧
    (∀ z, rootD ((p.set a (p.getD a (-1) + p.getD b (-1))).set b
        (Int.ofNat a)) z =
      if rootD p z = b then a else rootD p z) := by
  obtain ⟨c1, c2, c3, c4, c5⟩ := set_root_neg_facts p a
    (p.getD a (-1) + p.getD b (-1)) ha (by omega) hal hg
  have hlen1 : (p.set a (p.getD a (-1) + p.getD b (-1))).length = p.length :=
    by simp
  have hb1 : (p.set a (p.getD a (-1) + p.getD b (-1))).getD b (-1) < 0 := by
    rw [c4 b (fun hc => hab hc.symm)]
    exact hb
  have ha1 : (p.set a (p.getD a (-1) + p.getD b (-1))).getD a (-1) < 0 := by
    rw [c5]
    omega
  obtain ⟨d1, d2, d3, d4, d5⟩ := set_root_to_root_facts
    (p.set a (p.getD a (-1) + p.getD b (-1))) a b ha1 hb1 hab
    (by rw [hlen1]; exact hal) (by rw [hlen1]; exact hbl) c1
  have hlen2 : ((p.set a (p.getD a (-1) + p.getD b (-1))).set b
      (Int.ofNat a)).length = p.length := by
    rw [List.length_set, hlen1]
  have hroot2 : ∀ z, rootD ((p.set a (p.getD a (-1) + p.getD b (-1))).set b
      (Int.ofNat a)) z = if rootD p z = b then a else rootD p z := by
    intro z
    rw [d2 z, c2 z]
  refine ⟨hlen2, d1, ?_, hroot2⟩
  intro r hrl hrneg
  rw [hlen2] at hrl
  by_cases hrb : r = b
  · subst hrb
    rw [d5] at hrneg
    exact absurd hrneg (not_lt.2 (Int.ofNat_nonneg a))
  · have hentry : ((p.set a (p.getD a (-1) + p.getD b (-1))).set b
        (Int.ofNat a)).getD r (-1) =
        (p.set a (p.getD a (-1) + p.getD b (-1))).getD r (-1) :=
      d4 r hrb
    by_cases hra : r = a
    · subst hra
      rw [hentry, c5]
      have hca := hs r hal ha
      have hcb := hs b hbl hb
      have hcnt : (List.range ((p.set r (p.getD r (-1) + p.getD b (-1))).set b
          (Int.ofNat r)).length).countP
          (fun z => rootD ((p.set r (p.getD r (-1) + p.getD b (-1))).set b
            (Int.ofNat r)) z = r) =
          (List.range p.length).countP (fun z => rootD p z = r) +
          (List.range p.length).countP (fun z => rootD p z = b) := by
        rw [hlen2]
        rw [List.countP_congr
          (q := fun z => decide (rootD p z = r) || decide (rootD p z = b))
          (fun z _ => by
            rw [hroot2 z]
            by_cases hzb : rootD p z = b <;> simp [hzb])]
        exact countP_or_disjoint _ _ _ (fun t _ => by
          rintro ⟨h1, h2⟩
          rw [decide_eq_true_eq] at h1 h2
          rw [h1] at h2
          exact hab h2)
      rw [hcnt, hca, hcb]
      push_cast
      ring
    · rw [hentry, c4 r hra] at hrneg ⊢
      have hcnt : (List.range ((p.set a (p.getD a (-1) + p.getD b (-1))).set b
          (Int.ofNat a)).length).countP
          (fun z => rootD ((p.set a (p.getD a (-1) + p.getD b (-1))).set b
            (Int.ofNat a)) z = r) =
          (List.range p.length).countP (fun z => rootD p z = r) := by
        rw [hlen2]
        refine List.countP_congr (fun z _ => ?_)
        rw [hroot2 z]
        have h1 : ¬(a = r) := fun hc => hra hc.symm
        have h2 : ¬(b = r) := fun hc => hrb hc.symm
        by_cases hzb : rootD p z = b <;> simp [hzb, h1, h2]
      rw [hcnt]
      exact hs r hrl hrneg

theorem merge_root_iff (g : Nat → Nat) (a b z w x y : Nat)
    (hset : (a = g x ∧ b = g y) ∨ (a = g y ∧ b = g x)) :
    ((if g z = b then a else g z) = if g w = b then a else g w) ↔
    (g z = g w ∨ (g z = g x ∧ g y = g w) ∨ (g z = g y ∧ g x = g w)) := by
  rcases hset with ⟨ha, hb⟩ | ⟨ha, hb⟩ <;> split_ifs <;> omega

theorem union_spec (uf : UnionFind) (x y : Nat)
    (hgn : uf.parents.length = uf.n) (hg : PGood uf.parents)
    (hs : PSizes uf.parents) (hx : x < uf.n) (hy : y < uf.n) :
    (uf.union x y).n = uf.n ∧
    (uf.union x y).parents.length = uf.parents.length ∧
    PGood (uf.union x y).parents ∧
    PSizes (uf.union x y).parents ∧
    (∀ z w, rootD (uf.union x y).parents z = rootD (uf.union x y).parents w ↔
      (rootD uf.parents z = rootD uf.parents w ∨
       (rootD uf.parents z = rootD uf.parents x ∧
        rootD uf.parents y = rootD uf.parents w) ∨
       (rootD uf.parents z = rootD uf.parents y ∧
        rootD uf.parents x = rootD uf.parents w))) := by
  have hxl : x < uf.parents.length := by rw [hgn]; exact hx
  have hyl : y < uf.parents.length := by rw [hgn]; exact hy
  obtain ⟨a1, a2, a3, a4, a5, a6, a7⟩ := find_spec uf hgn hg x
  obtain ⟨b1, b2, b3, b4, b5, b6, b7⟩ := find_spec (uf.find x).2
    ((a3.trans hgn).trans a2.symm) a4 y
  have hry1 : ((uf.find x).2.find y).1 = rootD uf.parents y := by
    rw [b1, a5 y]
  have e2n : ((uf.find x).2.find y).2.n = uf.n := b2.trans a2
  have e2len : ((uf.find x).2.find y).2.parents.length = uf.parents.length :=
    b3.trans a3
  have e2r : ∀ z, rootD ((uf.find x).2.find y).2.parents z =
      rootD uf.parents z := fun z => (b5 z).trans (a5 z)
  have e2sign : ∀ z, (((uf.find x).2.find y).2.parents.getD z (-1) < 0 ↔
      uf.parents.getD z (-1) < 0) := fun z => (b6 z).trans (a6 z)
  have e2val : ∀ z, uf.parents.getD z (-1) < 0 →
      ((uf.find x).2.find y).2.parents.getD z (-1) =
        uf.parents.getD z (-1) :=
    fun z hz => (b7 z ((a6 z).2 hz)).trans (a7 z hz)
  have e2s : PSizes ((uf.find x).2.find y).2.parents :=
    PSizes_transfer uf.parents _ e2len e2sign e2val e2r hs
  have hxroot : ((uf.find x).2.find y).2.parents.getD
      ((uf.find x).1) (-1) < 0 := by
    rw [a1]
    exact (e2sign _).2 (rootD_is_root uf.parents hg x)
  have hyroot : ((uf.find x).2.find y).2.parents.getD
      (((uf.find x).2.find y).1) (-1) < 0 := by
    rw [hry1]
    exact (e2sign _).2 (rootD_is_root uf.parents hg y)
  have hxlt2 : (uf.find x).1 < ((uf.find x).2.find y).2.parents.length := by
    rw [a1, e2len]
    exact rootD_lt uf.parents hg x hxl
  have hylt2 : ((uf.find x).2.find y).1 <
      ((uf.find x).2.find y).2.parents.length := by
    rw [hry1, e2len]
    exact rootD_lt uf.parents hg y hyl
  by_cases hne : (uf.find x).1 ≠ ((uf.find x).2.find y).1
  · by_cases hcmp : ((uf.find x).2.find y).2.parents.getD
        ((uf.find x).1) (-1) >
        ((uf.find x).2.find y).2.parents.getD
          (((uf.find x).2.find y).1) (-1)
    · obtain ⟨k1, k2, k3, k4⟩ := link_roots_facts
        ((uf.find x).2.find y).2.parents
        (((uf.find x).2.find y).1) ((uf.find x).1)
        hyroot hxroot (fun hc => hne hc.symm) hylt2 hxlt2 b4 e2s
      unfold UnionFind.union
      dsimp only
      rw [if_pos hne, if_pos hcmp]
      dsimp only
      refine ⟨e2n, k1.trans e2len, k2, k3, ?_⟩
      intro z w
      rw [k4 z, k4 w, e2r z, e2r w]
      exact merge_root_iff (rootD uf.parents) _ _ z w x y
        (Or.inr ⟨hry1, a1⟩)
    · obtain ⟨k1, k2, k3, k4⟩ := link_roots_facts
        ((uf.find x).2.find y).2.parents
        ((uf.find x).1) (((uf.find x).2.find y).1)
        hxroot hyroot hne hxlt2 hylt2 b4 e2s
      unfold UnionFind.union
      dsimp only
      rw [if_pos hne, if_neg hcmp]
      dsimp only
      refine ⟨e2n, k1.trans e2len, k2, k3, ?_⟩
      intro z w
      rw [k4 z, k4 w, e2r z, e2r w]
      exact merge_root_iff (rootD uf.parents) _ _ z w x y
        (Or.inl ⟨a1, hry1⟩)
  · unfold UnionFind.union
    dsimp only
    rw [if_neg hne]
    have heq : rootD uf.parents x = rootD uf.parents y := by
      rw [← a1, ← hry1]
      exact not_ne_iff.1 hne
    refine ⟨e2n, e2len, b4, e2s, ?_⟩
    intro z w
    rw [e2r z, e2r w]
    constructor
    · exact fun h => Or.inl h
    · intro h
      rcases h with h | ⟨h1, h2⟩ | ⟨h1, h2⟩ <;> omega

/-! ## Equivalence-closure toolkit -/

theorem eqvGen_of_equivalence {α : Type} (E : α → α → Prop)
    (he : Equivalence E) (a b : α) : Relation.EqvGen E a b ↔ E a b := by
  constructor
  · intro h
    induction h with
    | rel u v h => exact h
    | refl u => exact he.refl u
    | symm u v _ ih => exact he.symm ih
    | trans u v w _ _ ih1 ih2 => exact he.trans ih1 ih2
  · exact Relation.EqvGen.rel a b

theorem eqvGen_congr {α : Type} (R S : α → α → Prop)
    (h : ∀ a b, R a b ↔ S a b) (a b : α) :
    Relation.EqvGen R a b ↔ Relation.EqvGen S a b :=
  ⟨fun hg => Relation.EqvGen.mono (fun u v hr => (h u v).1 hr) hg,
   fun hg => Relation.EqvGen.mono (fun u v hs => (h u v).2 hs) hg⟩

theorem eqvGen_flatten {α : Type} (R S : α → α → Prop) (a b : α) :
    Relation.EqvGen (fun u v => Relation.EqvGen R u v ∨ S u v) a b ↔
    Relation.EqvGen (fun u v => R u v ∨ S u v) a b := by
  constructor
  · intro h
    induction h with
    | rel u v h =>
      rcases h with h | h
      · exact Relation.EqvGen.mono (fun c d hc => Or.inl hc) h
      · exact Relation.EqvGen.rel u v (Or.inr h)
    | refl u => exact Relation.EqvGen.refl u
    | symm u v _ ih => exact Relation.EqvGen.symm _ _ ih
    | trans u v w _ _ ih1 ih2 => exact Relation.EqvGen.trans _ _ _ ih1 ih2
  · intro h
    refine Relation.EqvGen.mono ?_ h
    intro c d hc
    rcases hc with hc | hc
    · exact Or.inl (Relation.EqvGen.rel c d hc)
    · exact Or.inr hc

theorem eqvGen_insert {α : Type} (E : α → α → Prop) (he : Equivalence E)
    (x y a b : α) :
    Relation.EqvGen (fun u v => E u v ∨ (u = x ∧ v = y)) a b ↔
    (E a b ∨ (E a x ∧ E y b) ∨ (E a y ∧ E x b)) := by
  constructor
  · intro h
    induction h with
    | rel u v h =>
      rcases h with h | ⟨rfl, rfl⟩
      · exact Or.inl h
      · exact Or.inr (Or.inl ⟨he.refl u, he.refl v⟩)
    | refl u => exact Or.inl (he.refl u)
    | symm u v _ ih =>
      rcases ih with h | ⟨h1, h2⟩ | ⟨h1, h2⟩
      · exact Or.inl (he.symm h)
      · exact Or.inr (Or.inr ⟨he.symm h2, he.symm h1⟩)
      · exact Or.inr (Or.inl ⟨he.symm h2, he.symm h1⟩)
    | trans u v w _ _ ih1 ih2 =>
      rcases ih1 with h | ⟨h1, h2⟩ | ⟨h1, h2⟩ <;>
        rcases ih2 with g | ⟨g1, g2⟩ | ⟨g1, g2⟩
      · exact Or.inl (he.trans h g)
      · exact Or.inr (Or.inl ⟨he.trans h g1, g2⟩)
      · exact Or.inr (Or.inr ⟨he.trans h g1, g2⟩)
      · exact Or.inr (Or.inl ⟨h1, he.trans h2 g⟩)
      · exact Or.inl (he.trans h1
          (he.trans (he.symm (he.trans h2 g1)) g2))
      · exact Or.inl (he.trans h1 g2)
      · exact Or.inr (Or.inr ⟨h1, he.trans h2 g⟩)
      · exact Or.inl (he.trans h1 g2)
      · exact Or.inl (he.trans h1
          (he.trans (he.symm (he.trans h2 g1)) g2))
  · intro h
    rcases h with h | ⟨h1, h2⟩ | ⟨h1, h2⟩
    · exact Relation.EqvGen.rel a b (Or.inl h)
    · exact Relation.EqvGen.trans a x b (Relation.EqvGen.rel a x (Or.inl h1))
        (Relation.EqvGen.trans x y b
          (Relation.EqvGen.rel x y (Or.inr ⟨rfl, rfl⟩))
          (Relation.EqvGen.rel y b (Or.inl h2)))
    · exact Relation.EqvGen.trans a y b (Relation.EqvGen.rel a y (Or.inl h1))
        (Relation.EqvGen.trans y x b
          (Relation.EqvGen.symm x y
            (Relation.EqvGen.rel x y (Or.inr ⟨rfl, rfl⟩)))
          (Relation.EqvGen.rel x b (Or.inl h2)))

theorem eqvGen_untouched {α : Type} (R : α → α → Prop) (j : α)
    (hj : ∀ c, ¬R j c ∧ ¬R c j) :
    ∀ a b, Relation.EqvGen R a b → (a = j → b = j) ∧ (b = j → a = j) := by
  intro a b h
  induction h with
  | rel u v h =>
    constructor
    · rintro rfl
      exact absurd h (hj v).1
    · rintro rfl
      exact absurd h (hj u).2
  | refl u => exact ⟨id, id⟩
  | symm u v _ ih => exact ⟨ih.2, ih.1⟩
  | trans u v w _ _ ih1 ih2 =>
    exact ⟨fun h => ih2.1 (ih1.1 h), fun h => ih1.2 (ih2.2 h)⟩

theorem eqvGen_ne_touched {α : Type} (R : α → α → Prop) :
    ∀ a b, Relation.EqvGen R a b → a ≠ b →
      (∃ c, R a c ∨ R c a) ∧ (∃ c, R b c ∨ R c b) := by
  intro a b h
  induction h with
  | rel u v h => exact fun _ => ⟨⟨v, Or.inl h⟩, ⟨u, Or.inr h⟩⟩
  | refl u => exact fun hc => absurd rfl hc
  | symm u v _ ih =>
    intro hne
    obtain ⟨t1, t2⟩ := ih (fun hc => hne hc.symm)
    exact ⟨t2, t1⟩
  | trans u v w _ _ ih1 ih2 =>
    intro huw
    by_cases huv : u = v
    · subst huv
      exact ih2 huw
    · by_cases hvw : v = w
      · subst hvw
        exact ih1 huv
      · exact ⟨(ih1 huv).1, (ih2 hvw).2⟩

/-- The exact pair `(a, b)` that iteration `i` of the union-building loop
of `judge_connected_component` passes to `union`. -/
def stepPair (mask i a b : Nat) : Prop :=
  a = i ∧ (mask >>> i) &&& 1 = 0 ∧
  ((b = i + 1 ∧ (i + 1) % 7 ≠ 0 ∧ (mask >>> (i + 1)) &&& 1 = 0) ∨
   (b = i + 7 ∧ i < 42 ∧ (mask >>> (i + 7)) &&& 1 = 0))

theorem sameRoot_equivalence (q : List Int) :
    Equivalence (fun a b : Nat => rootD q a = rootD q b) :=
  ⟨fun _ => rfl, Eq.symm, Eq.trans⟩


/-- One iteration of the union-building loop of
`judge_connected_component` (the body of the fold in `buildUF`). -/
def buildStep (mask : Nat) (uf : UnionFind) (i : Nat) : UnionFind :=
  if (mask >>> i) &&& 1 = 0 then
    let uf1 := if (i + 1) % 7 ≠ 0 ∧ (mask >>> (i + 1)) &&& 1 = 0
      then uf.union i (i + 1) else uf
    if i < 42 ∧ (mask >>> (i + 7)) &&& 1 = 0
      then uf1.union i (i + 7) else uf1
  else uf

theorem buildUF_eq (mask : Nat) :
    buildUF mask = (List.range 49).foldl (buildStep mask) (UnionFind.new 49) :=
  rfl

theorem buildFold_spec (mask : Nat) :
    ∀ (l : List Nat) (uf : UnionFind),
      uf.n = 49 → uf.parents.length = uf.n → PGood uf.parents →
      PSizes uf.parents → (∀ j ∈ l, j < 49) →
      ((l.foldl (buildStep mask) uf).n = 49 ∧
       (l.foldl (buildStep mask) uf).parents.length =
         (l.foldl (buildStep mask) uf).n ∧
       PGood (l.foldl (buildStep mask) uf).parents ∧
       PSizes (l.foldl (buildStep mask) uf).parents ∧
       (∀ z w, rootD (l.foldl (buildStep mask) uf).parents z =
          rootD (l.foldl (buildStep mask) uf).parents w ↔
         Relation.EqvGen (fun a b =>
           rootD uf.parents a = rootD uf.parents b ∨
           (∃ j ∈ l, stepPair mask j a b)) z w)) := by
  intro l
  induction l with
  | nil =>
    intro uf hn hgn hg hs _
    rw [List.foldl_nil]
    refine ⟨hn, hgn, hg, hs, ?_⟩
    intro z w
    exact ((eqvGen_congr
        (fun a b => rootD uf.parents a = rootD uf.parents b ∨
          ∃ j ∈ ([] : List Nat), stepPair mask j a b)
        (fun a b => rootD uf.parents a = rootD uf.parents b)
        (fun a b => by simp) z w).trans
      (eqvGen_of_equivalence _ (sameRoot_equivalence uf.parents) z w)).symm
  | cons i rest ih =>
    intro uf hn hgn hg hs hl
    rw [List.foldl_cons]
    have hi : i < 49 := hl i (List.mem_cons_self i rest)
    suffices hstep : (buildStep mask uf i).n = 49 ∧
        (buildStep mask uf i).parents.length = (buildStep mask uf i).n ∧
        PGood (buildStep mask uf i).parents ∧
        PSizes (buildStep mask uf i).parents ∧
        (∀ z w, rootD (buildStep mask uf i).parents z =
            rootD (buildStep mask uf i).parents w ↔
          Relation.EqvGen (fun a b =>
            rootD uf.parents a = rootD uf.parents b ∨
            stepPair mask i a b) z w) by
      obtain ⟨s1, s2, s3, s4, s5⟩ := hstep
      obtain ⟨f1, f2, f3, f4, f5⟩ := ih (buildStep mask uf i) s1 s2 s3 s4
        (fun j hj => hl j (List.mem_cons_of_mem i hj))
      refine ⟨f1, f2, f3, f4, ?_⟩
      intro z w
      refine (f5 z w).trans ?_
      refine (eqvGen_congr _ (fun a b =>
          Relation.EqvGen (fun u v =>
            rootD uf.parents u = rootD uf.parents v ∨
            stepPair mask i u v) a b ∨ (∃ j ∈ rest, stepPair mask j a b))
        (fun a b => or_congr (s5 a b) Iff.rfl) z w).trans ?_
      refine (eqvGen_flatten _ _ z w).trans ?_
      refine eqvGen_congr _ _ (fun a b => ?_) z w
      constructor
      · rintro ((h | h) | ⟨j, hj, h⟩)
        · exact Or.inl h
        · exact Or.inr ⟨i, List.mem_cons_self i rest, h⟩
        · exact Or.inr ⟨j, List.mem_cons_of_mem i hj, h⟩
      · rintro (h | ⟨j, hj, h⟩)
        · exact Or.inl (Or.inl h)
        · rcases List.mem_cons.1 hj with rfl | hj2
          · exact Or.inl (Or.inr h)
          · exact Or.inr ⟨j, hj2, h⟩
    by_cases hc0 : (mask >>> i) &&& 1 = 0
    · by_cases hc1 : (i + 1) % 7 ≠ 0 ∧ (mask >>> (i + 1)) &&& 1 = 0
      · have hi1 : i + 1 < 49 := by
          have := hc1.1
          omega
        obtain ⟨u1n, u1len, u1g, u1s, u1iff⟩ := union_spec uf i (i + 1)
          hgn hg hs (by rw [hn]; exact hi) (by rw [hn]; exact hi1)
        have hS1 : ∀ z w, rootD (uf.union i (i + 1)).parents z =
            rootD (uf.union i (i + 1)).parents w ↔
            Relation.EqvGen (fun a b =>
              rootD uf.parents a = rootD uf.parents b ∨
              (a = i ∧ b = i + 1)) z w := fun z w =>
          (u1iff z w).trans
            (eqvGen_insert _ (sameRoot_equivalence uf.parents)
              i (i + 1) z w).symm
        by_cases hc2 : i < 42 ∧ (mask >>> (i + 7)) &&& 1 = 0
        · have he : buildStep mask uf i =
              (uf.union i (i + 1)).union i (i + 7) := by
            unfold buildStep
            rw [if_pos hc0]
            dsimp only
            rw [if_pos hc1, if_pos hc2]
          have hi7 : i + 7 < 49 := by omega
          obtain ⟨u2n, u2len, u2g, u2s, u2iff⟩ := union_spec
            (uf.union i (i + 1)) i (i + 7)
            ((u1len.trans hgn).trans u1n.symm) u1g u1s
            (by rw [u1n, hn]; exact hi) (by rw [u1n, hn]; exact hi7)
          rw [he]
          refine ⟨u2n.trans (u1n.trans hn),
            ((u2len.trans u1len).trans hgn).trans (u2n.trans u1n).symm,
            u2g, u2s, ?_⟩
          intro z w
          refine (u2iff z w).trans ?_
          refine ((eqvGen_insert _ (sameRoot_equivalence
            (uf.union i (i + 1)).parents) i (i + 7) z w).symm).trans ?_
          refine (eqvGen_congr _ (fun a b =>
              Relation.EqvGen (fun u v =>
                rootD uf.parents u = rootD uf.parents v ∨
                (u = i ∧ v = i + 1)) a b ∨ (a = i ∧ b = i + 7))
            (fun a b => or_congr (hS1 a b) Iff.rfl) z w).trans ?_
          refine (eqvGen_flatten _ _ z w).trans ?_
          refine eqvGen_congr _ _ (fun a b => ?_) z w
          unfold stepPair
          constructor
          · rintro ((h | ⟨rfl, rfl⟩) | ⟨rfl, rfl⟩)
            · exact Or.inl h
            · exact Or.inr ⟨rfl, hc0, Or.inl ⟨rfl, hc1.1, hc1.2⟩⟩
            · exact Or.inr ⟨rfl, hc0, Or.inr ⟨rfl, hc2.1, hc2.2⟩⟩
          · rintro (h | ⟨rfl, -, (⟨rfl, -, -⟩ | ⟨rfl, -, -⟩)⟩)
            · exact Or.inl (Or.inl h)
            · exact Or.inl (Or.inr ⟨rfl, rfl⟩)
            · exact Or.inr ⟨rfl, rfl⟩
        · have he : buildStep mask uf i = uf.union i (i + 1) := by
            unfold buildStep
            rw [if_pos hc0]
            dsimp only
            rw [if_pos hc1, if_neg hc2]
          rw [he]
          refine ⟨u1n.trans hn, (u1len.trans hgn).trans u1n.symm,
            u1g, u1s, ?_⟩
          intro z w
          refine (hS1 z w).trans ?_
          refine eqvGen_congr _ _ (fun a b => ?_) z w
          unfold stepPair
          constructor
          · rintro (h | ⟨rfl, rfl⟩)
            · exact Or.inl h
            · exact Or.inr ⟨rfl, hc0, Or.inl ⟨rfl, hc1.1, hc1.2⟩⟩
          · rintro (h | ⟨rfl, -, (⟨rfl, -, -⟩ | ⟨rfl, hlt, hbit⟩)⟩)
            · exact Or.inl h
            · exact Or.inr ⟨rfl, rfl⟩
            · exact absurd ⟨hlt, hbit⟩ hc2
      · by_cases hc2 : i < 42 ∧ (mask >>> (i + 7)) &&& 1 = 0
        · have he : buildStep mask uf i = uf.union i (i + 7) := by
            unfold buildStep
            rw [if_pos hc0]
            dsimp only
            rw [if_neg hc1, if_pos hc2]
          have hi7 : i + 7 < 49 := by omega
          obtain ⟨u2n, u2len, u2g, u2s, u2iff⟩ := union_spec uf i (i + 7)
            hgn hg hs (by rw [hn]; exact hi) (by rw [hn]; exact hi7)
          rw [he]
          refine ⟨u2n.trans hn, (u2len.trans hgn).trans u2n.symm,
            u2g, u2s, ?_⟩
          intro z w
          refine (u2iff z w).trans ?_
          refine ((eqvGen_insert _ (sameRoot_equivalence uf.parents)
            i (i + 7) z w).symm).trans ?_
          refine eqvGen_congr _ _ (fun a b => ?_) z w
          unfold stepPair
          constructor
          · rintro (h | ⟨rfl, rfl⟩)
            · exact Or.inl h
            · exact Or.inr ⟨rfl, hc0, Or.inr ⟨rfl, hc2.1, hc2.2⟩⟩
          · rintro (h | ⟨rfl, -, (⟨rfl, h7, hbit⟩ | ⟨rfl, -, -⟩)⟩)
            · exact Or.inl h
            · exact absurd ⟨h7, hbit⟩ hc1
            · exact Or.inr ⟨rfl, rfl⟩
        · have he : buildStep mask uf i = uf := by
            unfold buildStep
            rw [if_pos hc0]
            dsimp only
            rw [if_neg hc1, if_neg hc2]
          rw [he]
          refine ⟨hn, hgn, hg, hs, ?_⟩
          intro z w
          refine Iff.symm ?_
          refine ((eqvGen_congr _
            (fun a b => rootD uf.parents a = rootD uf.parents b)
            (fun a b => ?_) z w).trans
            (eqvGen_of_equivalence _ (sameRoot_equivalence uf.parents) z w))
          unfold stepPair
          constructor
          · rintro (h | ⟨rfl, -, (⟨rfl, h7, hbit⟩ | ⟨rfl, hlt, hbit⟩)⟩)
            · exact h
            · exact absurd ⟨h7, hbit⟩ hc1
            · exact absurd ⟨hlt, hbit⟩ hc2
          · exact fun h => Or.inl h
    · have he : buildStep mask uf i = uf := by
        unfold buildStep
        rw [if_neg hc0]
      rw [he]
      refine ⟨hn, hgn, hg, hs, ?_⟩
      intro z w
      refine Iff.symm ?_
      refine ((eqvGen_congr _
        (fun a b => rootD uf.parents a = rootD uf.parents b)
        (fun a b => ?_) z w).trans
        (eqvGen_of_equivalence _ (sameRoot_equivalence uf.parents) z w))
      unfold stepPair
      constructor
      · rintro (h | ⟨rfl, hbit, -⟩)
        · exact h
        · exact absurd hbit hc0
      · exact fun h => Or.inl h

/-- The (directed) neighbour pairs the union loop joins: an empty cell and
its empty right or down neighbour. -/
def adjStep (mask a b : Nat) : Prop :=
  a < 49 ∧ (mask >>> a) &&& 1 = 0 ∧
  ((b = a + 1 ∧ (a + 1) % 7 ≠ 0 ∧ (mask >>> (a + 1)) &&& 1 = 0) ∨
   (b = a + 7 ∧ a < 42 ∧ (mask >>> (a + 7)) &&& 1 = 0))

theorem eqvGen_absorb_eq {α : Type} (P : α → α → Prop) (a b : α) :
    Relation.EqvGen (fun u v => u = v ∨ P u v) a b ↔
    Relation.EqvGen P a b := by
  constructor
  · intro h
    induction h with
    | rel u v h =>
      rcases h with rfl | h
      · exact Relation.EqvGen.refl u
      · exact Relation.EqvGen.rel u v h
    | refl u => exact Relation.EqvGen.refl u
    | symm u v _ ih => exact Relation.EqvGen.symm _ _ ih
    | trans u v w _ _ ih1 ih2 => exact Relation.EqvGen.trans _ _ _ ih1 ih2
  · intro h
    exact Relation.EqvGen.mono (fun u v hp => Or.inr hp) h

theorem eqvGen_mono_closure {α : Type} (R S : α → α → Prop)
    (h : ∀ a b, R a b → Relation.EqvGen S a b) :
    ∀ a b, Relation.EqvGen R a b → Relation.EqvGen S a b := by
  intro a b hg
  induction hg with
  | rel u v hr => exact h u v hr
  | refl u => exact Relation.EqvGen.refl u
  | symm u v _ ih => exact Relation.EqvGen.symm _ _ ih
  | trans u v w _ _ ih1 ih2 => exact Relation.EqvGen.trans _ _ _ ih1 ih2

theorem buildUF_spec (mask : Nat) :
    (buildUF mask).n = 49 ∧
    (buildUF mask).parents.length = 49 ∧
    PGood (buildUF mask).parents ∧
    PSizes (buildUF mask).parents ∧
    (∀ z w, rootD (buildUF mask).parents z =
        rootD (buildUF mask).parents w ↔
      Relation.EqvGen (adjStep mask) z w) := by
  have hnew : (UnionFind.new 49).parents = List.replicate 49 (-1) := rfl
  obtain ⟨f1, f2, f3, f4, f5⟩ := buildFold_spec mask (List.range 49)
    (UnionFind.new 49) rfl (by rw [hnew, List.length_replicate]; rfl)
    (by rw [hnew]; exact PGood_new 49)
    (by rw [hnew]; exact PSizes_new 49)
    (fun j hj => List.mem_range.1 hj)
  rw [buildUF_eq]
  refine ⟨f1, f2.trans f1, f3, f4, ?_⟩
  intro z w
  refine (f5 z w).trans ?_
  refine (eqvGen_congr _ (fun a b => a = b ∨ adjStep mask a b)
    (fun a b => ?_) z w).trans (eqvGen_absorb_eq _ z w)
  refine or_congr ?_ ?_
  · rw [hnew, rootD_new, rootD_new]
  · constructor
    · rintro ⟨j, hj, haj, h2, h3⟩
      subst haj
      exact ⟨List.mem_range.1 hj, h2, h3⟩
    · rintro ⟨h1, h2, h3⟩
      exact ⟨a, List.mem_range.2 h1, rfl, h2, h3⟩

theorem find_at_root (uf : UnionFind) (x : Nat)
    (hroot : uf.parents.getD x (-1) < 0) : uf.find x = (x, uf) := by
  unfold UnionFind.find
  exact findAux_at_root uf uf.n x hroot

theorem size_at_root (uf : UnionFind) (x : Nat)
    (hroot : uf.parents.getD x (-1) < 0) :
    uf.size x = (-(uf.parents.getD x (-1)), uf) := by
  unfold UnionFind.size
  dsimp only
  rw [find_at_root uf x hroot]

theorem judgeRoots_false_iff (mask : Nat) (six : Bool) :
    ∀ (l : List Nat) (uf : UnionFind),
      (∀ r ∈ l, uf.parents.getD r (-1) < 0) →
      (judgeRoots mask six l uf = false ↔
        ∃ r ∈ l, (mask >>> r) &&& 1 = 0 ∧
          (-(uf.parents.getD r (-1)) < 5 ∨
           (six = false ∧ -(uf.parents.getD r (-1)) % 5 ≠ 0 ∧
             (-(uf.parents.getD r (-1)) < 6 ∨
              (-(uf.parents.getD r (-1)) - 6) % 5 ≠ 0)) ∨
           (six = true ∧ -(uf.parents.getD r (-1)) % 5 ≠ 0))) := by
  intro l
  induction l with
  | nil =>
    intro uf _
    constructor
    · intro h
      exact absurd h (by unfold judgeRoots; simp)
    · rintro ⟨r, hr, -⟩
      exact absurd hr (List.not_mem_nil r)
  | cons r rest ih =>
    intro uf hroots
    have hr := hroots r (List.mem_cons_self r rest)
    have hrest := fun r2 hr2 => hroots r2 (List.mem_cons_of_mem r hr2)
    unfold judgeRoots
    rw [size_at_root uf r hr]
    dsimp only
    by_cases hbit : (mask >>> r) &&& 1 = 0
    · rw [if_pos hbit]
      by_cases h5 : -(uf.parents.getD r (-1)) < 5
      · rw [if_pos h5]
        constructor
        · intro _
          exact ⟨r, List.mem_cons_self r rest, hbit, Or.inl h5⟩
        · intro _
          rfl
      · rw [if_neg h5]
        cases six with
        | false =>
          rw [if_pos (show (!false) = true from rfl)]
          by_cases hm : -(uf.parents.getD r (-1)) % 5 ≠ 0 ∧
              (-(uf.parents.getD r (-1)) < 6 ∨
               (-(uf.parents.getD r (-1)) - 6) % 5 ≠ 0)
          · rw [if_pos hm]
            constructor
            · intro _
              exact ⟨r, List.mem_cons_self r rest, hbit,
                Or.inr (Or.inl ⟨rfl, hm.1, hm.2⟩)⟩
            · intro _
              rfl
          · rw [if_neg hm]
            rw [ih uf hrest]
            constructor
            · rintro ⟨r2, hr2, h⟩
              exact ⟨r2, List.mem_cons_of_mem r hr2, h⟩
            · rintro ⟨r2, hr2, hb2, hcond⟩
              rcases List.mem_cons.1 hr2 with rfl | hr2m
              · exfalso
                rcases hcond with h | ⟨-, hA, hB⟩ | ⟨hfb, -⟩
                · exact h5 h
                · exact hm ⟨hA, hB⟩
                · exact absurd hfb (by simp)
              · exact ⟨r2, hr2m, hb2, hcond⟩
        | true =>
          rw [if_neg (show ¬((!true) = true) by simp)]
          by_cases hm : -(uf.parents.getD r (-1)) % 5 ≠ 0
          · rw [if_pos hm]
            constructor
            · intro _
              exact ⟨r, List.mem_cons_self r rest, hbit,
                Or.inr (Or.inr ⟨rfl, hm⟩)⟩
            · intro _
              rfl
          · rw [if_neg hm]
            rw [ih uf hrest]
            constructor
            · rintro ⟨r2, hr2, h⟩
              exact ⟨r2, List.mem_cons_of_mem r hr2, h⟩
            · rintro ⟨r2, hr2, hb2, hcond⟩
              rcases List.mem_cons.1 hr2 with rfl | hr2m
              · exfalso
                rcases hcond with h | ⟨hft, -⟩ | ⟨-, hA⟩
                · exact h5 h
                · exact absurd hft (by simp)
                · exact hm hA
              · exact ⟨r2, hr2m, hb2, hcond⟩
    · rw [if_neg hbit]
      rw [ih uf hrest]
      constructor
      · rintro ⟨r2, hr2, h⟩
        exact ⟨r2, List.mem_cons_of_mem r hr2, h⟩
      · rintro ⟨r2, hr2, hb2, hcond⟩
        rcases List.mem_cons.1 hr2 with rfl | hr2m
        · exact absurd hb2 hbit
        · exact ⟨r2, hr2m, hb2, hcond⟩

/-! ## Specification-side view: empty cells and 4-adjacency components -/

/-- A board cell (bit position) that is inside the 7x7 grid and empty. -/
def emptyCell (mask i : Nat) : Prop := i < 49 ∧ mask.testBit i = false

/-- 4-directional adjacency of two cells of the 7x7 grid (same row and
adjacent columns, or same column and adjacent rows). -/
def gridAdj (a b : Nat) : Prop :=
  (a / 7 = b / 7 ∧ (a % 7 + 1 = b % 7 ∨ b % 7 + 1 = a % 7)) ∨
  (a % 7 = b % 7 ∧ (a / 7 + 1 = b / 7 ∨ b / 7 + 1 = a / 7))

/-- `EConn mask i j`: cells `i` and `j` lie in the same connected component
of empty cells under 4-directional adjacency. -/
def EConn (mask i j : Nat) : Prop :=
  Relation.EqvGen (fun a b =>
    emptyCell mask a ∧ emptyCell mask b ∧ gridAdj a b) i j

theorem adjStep_empty (mask a b : Nat) (h : adjStep mask a b) :
    emptyCell mask a ∧ emptyCell mask b := by
  obtain ⟨h1, h2, h3⟩ := h
  rcases h3 with ⟨rfl, h4, h5⟩ | ⟨rfl, h4, h5⟩
  · exact ⟨⟨h1, (bit_zero_iff_testBit mask a).1 h2⟩,
      ⟨by omega, (bit_zero_iff_testBit mask (a + 1)).1 h5⟩⟩
  · exact ⟨⟨h1, (bit_zero_iff_testBit mask a).1 h2⟩,
      ⟨by omega, (bit_zero_iff_testBit mask (a + 7)).1 h5⟩⟩

theorem adj_econn (mask : Nat) (i j : Nat) :
    Relation.EqvGen (adjStep mask) i j ↔ EConn mask i j := by
  constructor
  · refine eqvGen_mono_closure _ _ (fun a b h => ?_) i j
    refine Relation.EqvGen.rel a b ?_
    obtain ⟨hemp1, hemp2⟩ := adjStep_empty mask a b h
    obtain ⟨h1, h2, h3⟩ := h
    refine ⟨hemp1, hemp2, ?_⟩
    unfold gridAdj
    rcases h3 with ⟨rfl, h4, h5⟩ | ⟨rfl, h4, h5⟩
    · left
      constructor <;> omega
    · right
      constructor <;> omega
  · refine eqvGen_mono_closure _ _ (fun a b h => ?_) i j
    obtain ⟨⟨ha49, habit⟩, ⟨hb49, hbbit⟩, hadj⟩ := h
    have hable : (mask >>> a) &&& 1 = 0 := (bit_zero_iff_testBit mask a).2 habit
    have hbble : (mask >>> b) &&& 1 = 0 := (bit_zero_iff_testBit mask b).2 hbbit
    rcases hadj with ⟨hrow, hcol | hcol⟩ | ⟨hcol, hrow | hrow⟩
    · refine Relation.EqvGen.rel a b
        ⟨ha49, hable, Or.inl ⟨by omega, by omega, ?_⟩⟩
      rw [show a + 1 = b by omega]
      exact hbble
    · refine Relation.EqvGen.symm b a (Relation.EqvGen.rel b a
        ⟨hb49, hbble, Or.inl ⟨by omega, by omega, ?_⟩⟩)
      rw [show b + 1 = a by omega]
      exact hable
    · refine Relation.EqvGen.rel a b
        ⟨ha49, hable, Or.inr ⟨by omega, by omega, ?_⟩⟩
      rw [show a + 7 = b by omega]
      exact hbble
    · refine Relation.EqvGen.symm b a (Relation.EqvGen.rel b a
        ⟨hb49, hbble, Or.inr ⟨by omega, by omega, ?_⟩⟩)
      rw [show b + 7 = a by omega]
      exact hable

theorem size_cond_iff (c : Nat) (six : Bool) :
    (((c : Int) < 5 ∨
      (six = false ∧ (c : Int) % 5 ≠ 0 ∧
        ((c : Int) < 6 ∨ ((c : Int) - 6) % 5 ≠ 0)) ∨
      (six = true ∧ (c : Int) % 5 ≠ 0))) ↔
    (c < 5 ∨
      (six = false ∧ (¬∃ t, c = 5 * t) ∧ (¬∃ t, c = 6 + 5 * t)) ∨
      (six = true ∧ ¬∃ t, c = 5 * t)) := by
  have h1 : (c : Int) < 5 ↔ c < 5 := by omega
  have h2 : (c : Int) % 5 ≠ 0 ↔ ¬∃ t, c = 5 * t := by
    constructor
    · rintro h ⟨t, rfl⟩
      apply h
      push_cast
      omega
    · intro h hmod
      have hd : (5 : Int) ∣ (c : Int) := Int.dvd_of_emod_eq_zero hmod
      have h5 : (5 : Nat) ∣ c := by exact_mod_cast hd
      obtain ⟨t, ht⟩ := h5
      exact h ⟨t, ht⟩
  have h3 : ((c : Int) < 6 ∨ ((c : Int) - 6) % 5 ≠ 0) ↔
      ¬∃ t, c = 6 + 5 * t := by
    constructor
    · rintro h ⟨t, rfl⟩
      rcases h with h | h
      · push_cast at h
        omega
      · apply h
        push_cast
        omega
    · intro h
      by_cases h6 : (c : Int) < 6
      · exact Or.inl h6
      · right
        intro hmod
        have hc6 : 6 ≤ c := by omega
        have hmn : ((c - 6 : Nat) : Int) % 5 = 0 := by omega
        have h5 : (5 : Nat) ∣ (c - 6) := by
          have hd : (5 : Int) ∣ ((c - 6 : Nat) : Int) :=
            Int.dvd_of_emod_eq_zero hmn
          exact_mod_cast hd
        obtain ⟨t, ht⟩ := h5
        exact h ⟨t, by omega⟩
  constructor
  · rintro (h | ⟨hs, ha, hb⟩ | ⟨hs, ha⟩)
    · exact Or.inl (h1.1 h)
    · exact Or.inr (Or.inl ⟨hs, h2.1 ha, h3.1 hb⟩)
    · exact Or.inr (Or.inr ⟨hs, h2.1 ha⟩)
  · rintro (h | ⟨hs, ha, hb⟩ | ⟨hs, ha⟩)
    · exact Or.inl (h1.2 h)
    · exact Or.inr (Or.inl ⟨hs, h2.2 ha, h3.2 hb⟩)
    · exact Or.inr (Or.inr ⟨hs, h2.2 ha⟩)

/-- Claim C2 (corrected): `judge_connected_component` returns `false` iff
some connected component of empty cells (4-directional adjacency on the 7x7
grid) has a size that is too small (< 5), or — with the size-6 piece unused
— neither a multiple of 5 nor 6 plus a multiple of 5, or — with it used —
not a multiple of 5.  In particular a single empty component of size 5, 6
or 11 is accepted with the size-6 piece unused, a single component of size
12 is rejected even with it unused (12 is neither a multiple of 5 nor
6 + 5k, correcting the claim), and a component of size 6 is rejected once
the size-6 piece is used. -/
theorem judge_connected_component_spec :
    (∀ (board_mask : Nat) (six : Bool),
      judge_connected_component board_mask six = false ↔
        ∃ (i : Nat) (l : List Nat), emptyCell board_mask i ∧ l.Nodup ∧
          (∀ j, j ∈ l ↔ (emptyCell board_mask j ∧ EConn board_mask i j)) ∧
          (l.length < 5 ∨
           (six = false ∧ (¬∃ t, l.length = 5 * t) ∧
             (¬∃ t, l.length = 6 + 5 * t)) ∨
           (six = true ∧ ¬∃ t, l.length = 5 * t))) ∧
    judge_connected_component (2 ^ 49 - 2 ^ 5) false = true ∧
    judge_connected_component (2 ^ 49 - 2 ^ 6) false = true ∧
    judge_connected_component (2 ^ 49 - 2 ^ 11) false = true ∧
    judge_connected_component (2 ^ 49 - 2 ^ 12) false = false ∧
    judge_connected_component (2 ^ 49 - 2 ^ 6) true = false := by
  refine ⟨?_, by decide, by decide, by decide, by decide, by decide⟩
  intro mask six
  obtain ⟨f1, f2, f3, f4, f5⟩ := buildUF_spec mask
  have hrootsmem : ∀ r, r ∈ (buildUF mask).roots ↔
      (r < 49 ∧ (buildUF mask).parents.getD r (-1) < 0) := by
    intro r
    unfold UnionFind.roots
    rw [List.mem_filter, List.mem_range, f1, decide_eq_true_eq]
  have hallroots : ∀ r ∈ (buildUF mask).roots,
      (buildUF mask).parents.getD r (-1) < 0 :=
    fun r hr => ((hrootsmem r).1 hr).2
  have hempboth : ∀ u v, Relation.EqvGen (adjStep mask) u v →
      u = v ∨ (emptyCell mask u ∧ emptyCell mask v) := by
    intro u v h
    by_cases huv : u = v
    · exact Or.inl huv
    · obtain ⟨⟨c1, hc1⟩, ⟨c2, hc2⟩⟩ := eqvGen_ne_touched _ u v h huv
      right
      constructor
      · rcases hc1 with h2 | h2
        · exact (adjStep_empty mask u c1 h2).1
        · exact (adjStep_empty mask c1 u h2).2
      · rcases hc2 with h2 | h2
        · exact (adjStep_empty mask v c2 h2).1
        · exact (adjStep_empty mask c2 v h2).2
  unfold judge_connected_component
  dsimp only
  rw [judgeRoots_false_iff mask six (buildUF mask).roots (buildUF mask)
    hallroots]
  constructor
  · rintro ⟨r, hrmem, hbit, hcond⟩
    obtain ⟨hr49, hrneg⟩ := (hrootsmem r).1 hrmem
    have hrootr : rootD (buildUF mask).parents r = r :=
      rootD_of_entry_neg _ r hrneg
    refine ⟨r, (List.range 49).filter
      (fun x => rootD (buildUF mask).parents x = r),
      ⟨hr49, (bit_zero_iff_testBit mask r).1 hbit⟩,
      List.Nodup.filter _ (List.nodup_range 49), ?_, ?_⟩
    · intro j
      rw [List.mem_filter, List.mem_range, decide_eq_true_eq]
      constructor
      · rintro ⟨hj49, hjr⟩
        have hconn : Relation.EqvGen (adjStep mask) j r :=
          (f5 j r).1 (by rw [hjr, hrootr])
        rcases hempboth j r hconn with rfl | ⟨hej, her⟩
        · exact ⟨⟨hj49, (bit_zero_iff_testBit mask j).1 hbit⟩,
            Relation.EqvGen.refl j⟩
        · exact ⟨hej, (adj_econn mask r j).1
            (Relation.EqvGen.symm _ _ hconn)⟩
      · rintro ⟨⟨hj49, hjbit⟩, hconn⟩
        refine ⟨hj49, ?_⟩
        have hjr := (f5 r j).2 ((adj_econn mask r j).2 hconn)
        rw [hrootr] at hjr
        exact hjr.symm
    · have hsz := f4 r (by rw [f2]; exact hr49) hrneg
      rw [f2] at hsz
      have hlen : ((List.range 49).filter
          (fun x => rootD (buildUF mask).parents x = r)).length =
          (List.range 49).countP
            (fun x => rootD (buildUF mask).parents x = r) :=
        (List.countP_eq_length_filter _ _).symm
      rw [hlen]
      rw [hsz] at hcond
      simp only [neg_neg] at hcond
      exact (size_cond_iff _ six).1 hcond
  · rintro ⟨i, l, hiemp, hnodup, hmem, hcond⟩
    have hi49 : i < 49 := hiemp.1
    have hilt : i < (buildUF mask).parents.length := by
      rw [f2]
      exact hi49
    have hrlt : rootD (buildUF mask).parents i < 49 := by
      have hlt := rootD_lt _ f3 i hilt
      rw [f2] at hlt
      exact hlt
    have hrneg : (buildUF mask).parents.getD
        (rootD (buildUF mask).parents i) (-1) < 0 :=
      rootD_is_root _ f3 i
    have hrootr : rootD (buildUF mask).parents
        (rootD (buildUF mask).parents i) =
        rootD (buildUF mask).parents i :=
      rootD_of_entry_neg _ _ hrneg
    have hconn_ir : Relation.EqvGen (adjStep mask) i
        (rootD (buildUF mask).parents i) :=
      (f5 i (rootD (buildUF mask).parents i)).1 (by rw [hrootr])
    have hremp : emptyCell mask (rootD (buildUF mask).parents i) := by
      rcases hempboth i _ hconn_ir with heq | ⟨-, h2⟩
      · rw [← heq]
        exact hiemp
      · exact h2
    refine ⟨rootD (buildUF mask).parents i,
      (hrootsmem _).2 ⟨hrlt, hrneg⟩,
      (bit_zero_iff_testBit mask _).2 hremp.2, ?_⟩
    have hsz := f4 (rootD (buildUF mask).parents i)
      (by rw [f2]; exact hrlt) hrneg
    rw [f2] at hsz
    rw [hsz]
    simp only [neg_neg]
    refine (size_cond_iff _ six).2 ?_
    have hmemiff : ∀ j, (j ∈ l ↔ j ∈ (List.range 49).filter
        (fun x => rootD (buildUF mask).parents x =
          rootD (buildUF mask).parents i)) := by
      intro j
      rw [hmem j, List.mem_filter, List.mem_range, decide_eq_true_eq]
      constructor
      · rintro ⟨⟨hj49, hjbit⟩, hconn⟩
        exact ⟨hj49, (f5 j i).2 ((adj_econn mask j i).2
          (Relation.EqvGen.symm _ _ hconn))⟩
      · rintro ⟨hj49, hjr⟩
        have hconn2 : Relation.EqvGen (adjStep mask) j i := (f5 j i).1 hjr
        rcases hempboth j i hconn2 with rfl | ⟨hej, -⟩
        · exact ⟨hiemp, Relation.EqvGen.refl j⟩
        · exact ⟨hej, (adj_econn mask i j).1
            (Relation.EqvGen.symm _ _ hconn2)⟩
    have hleq : l.length = (List.range 49).countP
        (fun x => rootD (buildUF mask).parents x =
          rootD (buildUF mask).parents i) := by
      rw [List.countP_eq_length_filter,
        ← List.toFinset_card_of_nodup hnodup,
        ← List.toFinset_card_of_nodup
          (List.Nodup.filter _ (List.nodup_range 49))]
      congr 1
      ext a
      rw [List.mem_toFinset, List.mem_toFinset]
      exact hmemiff a
    rw [← hleq]
    exact hcond

/-- Counterexample to C2 as stated: the board whose empty cells are exactly
bits 0..11 (one single 4-connected component of size 12: all of row 0 plus
the first five cells of row 1) is REJECTED by `judge_connected_component`
with the size-6 piece unused, although the claim lists size 12 as accepted.
12 is neither a multiple of 5 nor 6 plus a multiple of 5, so the code's own
rule (and the claim's general rule) rejects it. -/
theorem size_12_component_rejected :
    (∀ j, emptyCell (2 ^ 49 - 2 ^ 12) j ↔ j < 12) ∧
    (∀ j, j < 12 → EConn (2 ^ 49 - 2 ^ 12) 0 j) ∧
    judge_connected_component (2 ^ 49 - 2 ^ 12) false = false := by
  have hbits : ∀ j, j < 49 →
      (((2 ^ 49 - 2 ^ 12 : Nat)).testBit j = false ↔ j < 12) := by decide
  have hstep : ∀ a b : Nat,
      (emptyCell (2 ^ 49 - 2 ^ 12) a ∧ emptyCell (2 ^ 49 - 2 ^ 12) b ∧
        gridAdj a b) → EConn (2 ^ 49 - 2 ^ 12) a b :=
    fun a b h => Relation.EqvGen.rel a b h
  refine ⟨?_, ?_, by decide⟩
  · intro j
    constructor
    · rintro ⟨hj49, hbit⟩
      exact (hbits j hj49).1 hbit
    · intro hj12
      exact ⟨by omega, (hbits j (by omega)).2 hj12⟩
  · have h0 : EConn (2 ^ 49 - 2 ^ 12) 0 0 := Relation.EqvGen.refl 0
    have h1 : EConn (2 ^ 49 - 2 ^ 12) 0 1 := hstep 0 1 (by unfold emptyCell gridAdj; decide)
    have h2 : EConn (2 ^ 49 - 2 ^ 12) 0 2 :=
      Relation.EqvGen.trans _ _ _ h1 (hstep 1 2 (by unfold emptyCell gridAdj; decide))
    have h3 : EConn (2 ^ 49 - 2 ^ 12) 0 3 :=
      Relation.EqvGen.trans _ _ _ h2 (hstep 2 3 (by unfold emptyCell gridAdj; decide))
    have h4 : EConn (2 ^ 49 - 2 ^ 12) 0 4 :=
      Relation.EqvGen.trans _ _ _ h3 (hstep 3 4 (by unfold emptyCell gridAdj; decide))
    have h5 : EConn (2 ^ 49 - 2 ^ 12) 0 5 :=
      Relation.EqvGen.trans _ _ _ h4 (hstep 4 5 (by unfold emptyCell gridAdj; decide))
    have h6 : EConn (2 ^ 49 - 2 ^ 12) 0 6 :=
      Relation.EqvGen.trans _ _ _ h5 (hstep 5 6 (by unfold emptyCell gridAdj; decide))
    have h7 : EConn (2 ^ 49 - 2 ^ 12) 0 7 := hstep 0 7 (by unfold emptyCell gridAdj; decide)
    have h8 : EConn (2 ^ 49 - 2 ^ 12) 0 8 :=
      Relation.EqvGen.trans _ _ _ h1 (hstep 1 8 (by unfold emptyCell gridAdj; decide))
    have h9 : EConn (2 ^ 49 - 2 ^ 12) 0 9 :=
      Relation.EqvGen.trans _ _ _ h2 (hstep 2 9 (by unfold emptyCell gridAdj; decide))
    have h10 : EConn (2 ^ 49 - 2 ^ 12) 0 10 :=
      Relation.EqvGen.trans _ _ _ h3 (hstep 3 10 (by unfold emptyCell gridAdj; decide))
    have h11 : EConn (2 ^ 49 - 2 ^ 12) 0 11 :=
      Relation.EqvGen.trans _ _ _ h4 (hstep 4 11 (by unfold emptyCell gridAdj; decide))
    intro j hj
    interval_cases j
    · exact h0
    · exact h1
    · exact h2
    · exact h3
    · exact h4
    · exact h5
    · exact h6
    · exact h7
    · exact h8
    · exact h9
    · exact h10
    · exact h11
